import Mathlib

/-!
# Buffer cache (kernel/bio.c) and per-core page allocator (kernel/kalloc.c)

A shallow embedding of the two kernel subsystems.  Pointers are kept as
pointers: a free list is a head address plus the `next` word stored in each
free page, a bucket chain is a head slot plus the `next` field of each buffer.
Loops that follow pointers take a `fuel` argument and report `none` / `hang`
when it runs out, so that termination is something the theorems establish.
Calls are executed one at a time; spin locks therefore never contend and are
not part of the state.
-/

/-- How a call that can end in `panic` leaves the machine.  `done s`: the call
returns with the machine in state `s`.  `fatal s`: the call reaches `panic`,
which does not return, with the machine in state `s`, the state made by the
statements executed before the `panic`. -/
inductive Halt (σ : Type) where
  | done (s : σ)
  | fatal (s : σ)

/-- The state a call returns in; `none` when it ends in `panic`. -/
def Halt.result {σ : Type} : Halt σ → Option σ
  | .done s => some s
  | .fatal _ => none

/-! ## kernel/kalloc.c -/

namespace Kalloc

/-- Constants that kalloc.c takes from param.h, riscv.h, memlayout.h and the
linker script (none of them among the sources): the number of cores, the page
size, the first address after the kernel image (`end`) and the top of physical
memory. -/
structure Layout where
  NCPU : Nat
  PGSIZE : Nat
  kend : Nat
  PHYSTOP : Nat

/-- The allocator state: `kmem[i].freelist` for each core (0 is the null
pointer) and, for each page address, the `next` word of the `struct run`
stored at the start of that page. -/
structure Kmem where
  freelist : Nat → Nat
  next : Nat → Nat

/-- The first word of a page after `memset(pa, 1, PGSIZE)`. -/
def junkFree : Nat := 0x0101010101010101

/-- The first word of a page after `memset(r, 5, PGSIZE)`. -/
def junkAlloc : Nat := 0x0505050505050505

/-- The validation at the top of kfree: true when kfree reaches `panic`. -/
def kfreeBad (cfg : Layout) (pa : Nat) : Prop :=
  pa % cfg.PGSIZE ≠ 0 ∨ pa < cfg.kend ∨ pa ≥ cfg.PHYSTOP

instance (cfg : Layout) (pa : Nat) : Decidable (kfreeBad cfg pa) := by
  unfold kfreeBad; infer_instance

/-- kfree(pa) executed on core `cpu` (the value of `cpuid()`); `none` is the
fatal path `panic("kfree")`. -/
def kfree (cfg : Layout) (st : Kmem) (cpu : Nat) (pa : Nat) : Option Kmem :=
  if kfreeBad cfg pa then none
  else
    -- memset(pa, 1, PGSIZE)
    let mem1 := Function.update st.next pa junkFree
    -- r->next = kmem[i].freelist; kmem[i].freelist = r
    some { freelist := Function.update st.freelist cpu pa
           next := Function.update mem1 pa (st.freelist cpu) }

/-- kfree(pa) executed on core `cpu`, statement by statement, with the state
in which the call ends: `fatal s` is `panic("kfree")` reached with the
allocator in state `s`. -/
def kfreeExec (cfg : Layout) (st : Kmem) (cpu : Nat) (pa : Nat) : Halt Kmem :=
  -- if(((uint64)pa % PGSIZE) != 0 || (char*)pa < end || (uint64)pa >= PHYSTOP) panic("kfree")
  if kfreeBad cfg pa then .fatal st
  else
    -- memset(pa, 1, PGSIZE)
    let st1 : Kmem := { st with next := Function.update st.next pa junkFree }
    -- r->next = kmem[i].freelist
    let st2 : Kmem := { st1 with next := Function.update st1.next pa (st1.freelist cpu) }
    -- kmem[i].freelist = r
    .done { st2 with freelist := Function.update st2.freelist cpu pa }

/-- The `while (fast)` loop of steal: returns the final `slow`, or `none` when
the fuel is used up before `fast` becomes null. -/
def stealWalk (next : Nat → Nat) : Nat → Nat → Nat → Option Nat
  | 0, _, _ => none
  | fuel + 1, slow, fast =>
    if fast = 0 then some slow
    else
      let fast1 := next fast
      if fast1 ≠ 0 then stealWalk next fuel (next slow) (next fast1)
      else stealWalk next fuel slow fast1

/-- The body of `if (kmem[c].freelist)` in steal, for donor core `c`: walk to
the midpoint `slow`, then `kmem[c].freelist = slow->next; slow->next = 0;
return head`.  `none` when the walk runs out of fuel. -/
def stealSplit (fuel : Nat) (st : Kmem) (c : Nat) : Option (Nat × Kmem) :=
  let head := st.freelist c
  match stealWalk st.next fuel head (st.next head) with
  | none => none
  | some slow =>
    some (head, { freelist := Function.update st.freelist c (st.next slow)
                  next := Function.update st.next slow 0 })

/-- The `for (i = 1; i < NCPU; ++i)` loop of steal with `n` iterations left
and `c` the core examined last.  The result is the returned pointer and the
new state; `none` when the inner loop runs out of fuel. -/
def stealFrom (NCPU fuel : Nat) (st : Kmem) : Nat → Nat → Option (Nat × Kmem)
  | 0, _ => some (0, st)
  | n + 1, c =>
    let c1 := if c + 1 = NCPU then 0 else c + 1
    if st.freelist c1 ≠ 0 then stealSplit fuel st c1
    else stealFrom NCPU fuel st n c1

/-- steal(cpu_id). -/
def steal (NCPU fuel : Nat) (st : Kmem) (cpu_id : Nat) : Option (Nat × Kmem) :=
  stealFrom NCPU fuel st (NCPU - 1) cpu_id

/-- The effect of `kmem[i].freelist = r->next` followed, after the lock is
released, by `memset((char*)r, 5, PGSIZE)`, for a non-null `r`. -/
def takePage (st : Kmem) (cpu r : Nat) : Kmem :=
  { freelist := Function.update st.freelist cpu (st.next r)
    next := Function.update st.next r junkAlloc }

/-- kalloc() executed on core `cpu`: the returned pointer (0 when no page is
available) and the new state; `none` when steal does not finish within the
fuel.  There is no fatal path. -/
def kalloc (NCPU fuel : Nat) (st : Kmem) (cpu : Nat) : Option (Nat × Kmem) :=
  let r := st.freelist cpu
  if r ≠ 0 then some (r, takePage st cpu r)
  else
    match steal NCPU fuel st cpu with
    | none => none
    | some (r1, st1) =>
      if r1 ≠ 0 then some (r1, takePage st1 cpu r1) else some (r1, st1)

/-- The loop of freerange with `p` the current page: `none` when a kfree in
it is fatal or the fuel runs out before the loop condition fails. -/
def freerangeLoop (cfg : Layout) (cpu pa_end : Nat) : Nat → Kmem → Nat → Option Kmem
  | 0, _, _ => none
  | fuel + 1, st, p =>
    if p + cfg.PGSIZE ≤ pa_end then
      match kfree cfg st cpu p with
      | none => none
      | some st1 => freerangeLoop cfg cpu pa_end fuel st1 (p + cfg.PGSIZE)
    else some st

/-- Modelled from the spec: the macro PGROUNDUP of riscv.h (not among the
sources), which rounds an address up to the next multiple of the page size
(the spec's "page-aligned"). -/
def PGROUNDUP (cfg : Layout) (a : Nat) : Nat :=
  (a + cfg.PGSIZE - 1) / cfg.PGSIZE * cfg.PGSIZE

/-- freerange(pa_start, pa_end) executed on core `cpu`. -/
def freerange (cfg : Layout) (fuel : Nat) (st : Kmem) (cpu pa_start pa_end : Nat) :
    Option Kmem :=
  freerangeLoop cfg cpu pa_end fuel st (PGROUNDUP cfg pa_start)

/-- The pointer structure starting at `p` is a null-terminated list whose
nodes are, in order, the addresses in `l`. -/
def IsList (next : Nat → Nat) : Nat → List Nat → Prop
  | p, [] => p = 0
  | p, a :: l => p = a ∧ a ≠ 0 ∧ IsList next (next a) l

instance IsList.decide (next : Nat → Nat) : (p : Nat) → (l : List Nat) →
    Decidable (IsList next p l)
  | p, [] => by unfold IsList; infer_instance
  | p, a :: l =>
    have := IsList.decide next (next a) l
    by unfold IsList; infer_instance

/-- The free list of core `c` is the list of pages `l`. -/
def FreeList (st : Kmem) (c : Nat) (l : List Nat) : Prop :=
  IsList st.next (st.freelist c) l

instance (st : Kmem) (c : Nat) (l : List Nat) : Decidable (FreeList st c l) := by
  unfold FreeList; infer_instance

/-- A well-formed allocator state described by `L`: the free list of each core
`c < NCPU` is the list `L c`, no page occurs twice in a list, and the lists of
different cores share no page. -/
def Abs (NCPU : Nat) (st : Kmem) (L : Nat → List Nat) : Prop :=
  (∀ c, c < NCPU → FreeList st c (L c)) ∧
  (∀ c, c < NCPU → (L c).Nodup) ∧
  (∀ c d, c < NCPU → d < NCPU → c ≠ d → List.Disjoint (L c) (L d))

/-- Total number of free pages over all cores. -/
def total (NCPU : Nat) (L : Nat → List Nat) : Nat :=
  ((List.range NCPU).map (fun c => (L c).length)).sum

/-- Core `d` is the first core after `c` in round-robin order whose free list
is not empty; `j` is its distance from `c`. -/
def FirstDonor (NCPU : Nat) (st : Kmem) (c d j : Nat) : Prop :=
  1 ≤ j ∧ j < NCPU ∧ d = (c + j) % NCPU ∧ st.freelist d ≠ 0 ∧
  ∀ i, 1 ≤ i → i < j → st.freelist ((c + i) % NCPU) = 0

/-- A sequence of kfree calls, one `(core, page)` pair per call. -/
def kfreeAll (cfg : Layout) : Kmem → List (Nat × Nat) → Option Kmem
  | st, [] => some st
  | st, (c, p) :: rest =>
    match kfree cfg st c p with
    | none => none
    | some st1 => kfreeAll cfg st1 rest

/-- A sequence of kalloc calls, one calling core per call: the list of the
returned pointers and the final state. -/
def kallocAll (NCPU fuel : Nat) : Kmem → List Nat → Option (List Nat × Kmem)
  | st, [] => some ([], st)
  | st, c :: rest =>
    match kalloc NCPU fuel st c with
    | none => none
    | some (r, st1) =>
      match kallocAll NCPU fuel st1 rest with
      | none => none
      | some (rs, st2) => some (r :: rs, st2)

/-- The constants as xv6 sets them: 8 cores, pages of 4096 bytes, physical
memory up to 0x88000000; the kernel image is taken to end at 0x80040000. -/
def cfgXv6 : Layout :=
  { NCPU := 8, PGSIZE := 4096, kend := 0x80040000, PHYSTOP := 0x88000000 }

/-- Three pages of the managed range. -/
def pageA : Nat := 0x87fff000

/-- The page below `pageA`. -/
def pageB : Nat := 0x87ffe000

/-- The page below `pageB`. -/
def pageC : Nat := 0x87ffd000

/-- An allocator with no free page. -/
def emptyKmem : Kmem :=
  { freelist := fun _ => 0, next := fun _ => 0 }

/-- The state in which core 0 holds the list `pageA, pageB` and every other
core is empty. -/
def twoOnCore0 : Kmem :=
  { freelist := fun c => if c = 0 then pageA else 0
    next := fun a => if a = pageA then pageB else 0 }

/-- The state in which core 1 holds the list `pageA, pageB, pageC` and every
other core is empty. -/
def threeOnCore1 : Kmem :=
  { freelist := fun c => if c = 1 then pageA else 0
    next := fun a => if a = pageA then pageB else if a = pageB then pageC else 0 }

/-- The page below `pageC`. -/
def pageD : Nat := 0x87ffc000

/-- The state after kfree(pageA) was called twice on core 1 of the empty
allocator: `pageA` is the head of core 1 and its own successor. -/
def loopOnCore1 : Kmem :=
  (kfreeAll cfgXv6 emptyKmem [(1, pageA), (1, pageA)]).getD emptyKmem

/-- The state after core 1 freed `pageC, pageB, pageA`, core 2 freed `pageD`,
and core 2 then freed `pageB` once more while it was on the list of core 1. -/
def sharedLists : Kmem :=
  (kfreeAll cfgXv6 emptyKmem
    [(1, pageC), (1, pageB), (1, pageA), (2, pageD), (2, pageB)]).getD emptyKmem

/-- The addresses `PGROUNDUP(pa_start) + i * PGSIZE` with
`i < (pa_end - PGROUNDUP(pa_start)) / PGSIZE`, in ascending order. -/
def freedPages (cfg : Layout) (pa_start pa_end : Nat) : List Nat :=
  (List.range ((pa_end - PGROUNDUP cfg pa_start) / cfg.PGSIZE)).map
    (fun i => PGROUNDUP cfg pa_start + i * cfg.PGSIZE)

/-- The union of the free lists described by `L`: page `x` is on the list of
some core. -/
def IsFree (NCPU : Nat) (L : Nat → List Nat) (x : Nat) : Prop :=
  ∃ c, c < NCPU ∧ x ∈ L c

end Kalloc

/-! ## kernel/bio.c -/

namespace Bio

/-- The number of hash buckets: `#define NBUCKET 13`. -/
def NBUCKET : Nat := 13

/-- The bucket of a block: `#define HASH(blockno) (blockno % NBUCKET)`. -/
def HASH (blockno : Nat) : Nat := blockno % NBUCKET

/-- Modelled from the spec: `struct buf` of buf.h, which is not among the
sources.  The spec lists its attributes (device identifier, block number,
validity flag, reference count, last-release timestamp, payload, blocking
lock, link to the next buffer of the chain); bio.c uses them as `dev`,
`blockno`, `valid`, `refcnt`, `time`, `data`, `lock` and `next`.  `refcnt` and
`time` are taken to be `uint` like `dev`, `blockno` and the clock `ticks` that
is stored into `time`.  `lock` is the holder of the sleep lock (a process id)
or `none` when it is free; `next` is a pool slot or `none` for the null
pointer. -/
structure Buf where
  valid : Bool
  dev : Nat
  blockno : Nat
  lock : Option Nat
  refcnt : Nat
  time : Nat
  next : Option Nat
  data : List Nat

/-- The variable `bcache`: the pool `bcache.buf`, the `next` field of each
sentinel `bcache.buckets[i]`, and `bcache.size`. -/
structure BCache where
  buf : Nat → Buf
  buckets : Nat → Option Nat
  size : Nat

/-- Store `v` into pool slot `b`. -/
def BCache.setBuf (s : BCache) (b : Nat) (v : Buf) : BCache :=
  { s with buf := Function.update s.buf b v }

/-- Store `v` into `bcache.buckets[i].next`. -/
def BCache.setBucket (s : BCache) (i : Nat) (v : Option Nat) : BCache :=
  { s with buckets := Function.update s.buckets i v }

/-- Width of `uint` and `int`. -/
def UINT : Nat := 2 ^ 32

/-- Conversion of an `int` to `unsigned int`, as the comparison
`b->time < mintime` performs on `mintime`. -/
def toUint (i : Int) : Nat := (i % (UINT : Int)).toNat

/-- Conversion of an `unsigned int` to `int`, as the assignment
`mintime = b->time` performs. -/
def toInt (u : Nat) : Int := if u < 2 ^ 31 then (u : Int) else (u : Int) - (UINT : Int)

/-- The statement `b->refcnt++` on an `unsigned int`. -/
def incr (n : Nat) : Nat := (n + 1) % UINT

/-- The statement `b->refcnt--` on an `unsigned int`. -/
def decr (n : Nat) : Nat := (n + UINT - 1) % UINT

/-- How a call of bget or bread ends.  `ret b s`: it returns buffer slot `b`,
locked by the caller, in state `s`.  `sleeps b s`: the sleep lock of `b` is
held, so the caller is suspended in `acquiresleep(&b->lock)` in state `s`; the
call returns `b` once the lock is passed on.  `fatal`: the call ends in
`panic`.  `hang`: a loop over a chain used up its fuel. -/
inductive Outcome where
  | ret (b : Nat) (s : BCache)
  | sleeps (b : Nat) (s : BCache)
  | fatal
  | hang

/-- The buffer slot a call returns, at once or after the wait for its lock. -/
def Outcome.buffer : Outcome → Option Nat
  | .ret b _ => some b
  | .sleeps b _ => some b
  | .fatal => none
  | .hang => none

/-- The state in which a call leaves the cache. -/
def Outcome.state : Outcome → Option BCache
  | .ret _ s => some s
  | .sleeps _ s => some s
  | .fatal => none
  | .hang => none

/-- Modelled from the spec: acquiresleep of sleeplock.c (not among the
sources), "acquire may suspend": process `pid` takes the lock of slot `b` when
it is free and is suspended otherwise. -/
def acquiresleep (pid : Nat) (s : BCache) (b : Nat) : Outcome :=
  match (s.buf b).lock with
  | none => .ret b (s.setBuf b { s.buf b with lock := some pid })
  | some _ => .sleeps b s

/-- Modelled from the spec: holdingsleep of sleeplock.c (not among the
sources), "holding(lock) -> bool": the lock of slot `b` is held by `pid`. -/
def holdingsleep (pid : Nat) (s : BCache) (b : Nat) : Bool :=
  (s.buf b).lock == some pid

/-- Modelled from the spec: releasesleep of sleeplock.c (not among the
sources): the lock of slot `b` becomes free. -/
def releasesleep (s : BCache) (b : Nat) : BCache :=
  s.setBuf b { s.buf b with lock := none }

/-- The zero-initialised storage of `bcache` before binit runs. -/
def bss : BCache :=
  { buf := fun _ =>
      { valid := false, dev := 0, blockno := 0, lock := none, refcnt := 0, time := 0,
        next := none, data := [] }
    buckets := fun _ => none
    size := 0 }

/-- binit(): `bcache.size = 0` and initsleeplock on every pool slot. -/
def binit (NBUF : Nat) (s : BCache) : BCache :=
  { s with
    size := 0
    buf := fun b => if b < NBUF then { s.buf b with lock := none } else s.buf b }

/-- The first loop of bget, `for(b = bcache.buckets[idx].next; b; b = b->next)`
from pointer `b` on: `some (some b)` when slot `b` matches, `some none` when
the chain ends without a match, `none` when the fuel runs out. -/
def lookup (s : BCache) (dev blockno : Nat) : Nat → Option Nat → Option (Option Nat)
  | 0, _ => none
  | _ + 1, none => some none
  | fuel + 1, some b =>
    if (s.buf b).dev = dev ∧ (s.buf b).blockno = blockno then some (some b)
    else lookup s dev blockno fuel (s.buf b).next

/-- The pointer `pre` of the eviction scan: the sentinel of the bucket under
examination or a pool slot. -/
inductive Pre where
  | sentinel
  | slot (b : Nat)
deriving DecidableEq

/-- Result of the scan of one bucket: out of fuel, a buffer that matches the
request, or the end of the chain with `minb` and its `minpre` (`none` when
`minb` is null). -/
inductive ScanRes where
  | hang
  | hit (b : Nat)
  | done (m : Option (Nat × Pre))

/-- The inner loop of the eviction path,
`for(pre = &bcache.buckets[idx], b = pre->next; b; pre = b, b = b->next)`,
from the pair `pre`, `b` on, with the current `mintime` and `minb`/`minpre`. -/
def scan (s : BCache) (dev blockno idx : Nat) :
    Nat → Pre → Option Nat → Int → Option (Nat × Pre) → ScanRes
  | 0, _, _, _, _ => .hang
  | _ + 1, _, none, _, m => .done m
  | fuel + 1, pre, some b, mintime, m =>
    if idx = HASH blockno ∧ (s.buf b).dev = dev ∧ (s.buf b).blockno = blockno then .hit b
    else if (s.buf b).refcnt = 0 ∧ (s.buf b).time < toUint mintime then
      scan s dev blockno idx fuel (.slot b) (s.buf b).next (toInt (s.buf b).time)
        (some (b, pre))
    else scan s dev blockno idx fuel (.slot b) (s.buf b).next mintime m

/-- The assignment `minpre->next = v` while bucket `idx` is examined. -/
def setPreNext (s : BCache) (idx : Nat) (minpre : Pre) (v : Option Nat) : BCache :=
  match minpre with
  | .sentinel => s.setBucket idx v
  | .slot p => s.setBuf p { s.buf p with next := v }

/-- The body of `if(minb)`: the victim gets the requested identity and, when
it was found outside the target bucket, moves to the head of the target
bucket's chain. -/
def recycle (s : BCache) (dev blockno idx minb : Nat) (minpre : Pre) : BCache :=
  let s1 := s.setBuf minb
    { s.buf minb with dev := dev, blockno := blockno, valid := false, refcnt := 1 }
  if idx ≠ HASH blockno then
    let s2 := setPreNext s1 idx minpre (s1.buf minb).next
    let s3 := s2.setBuf minb { s2.buf minb with next := s2.buckets (HASH blockno) }
    s3.setBucket (HASH blockno) (some minb)
  else s1

/-- The loop `for(int i = 0; i < NBUCKET; ++i)` of the eviction path with `n`
iterations left and `idx` the bucket to examine.  `minb` is null whenever an
iteration starts, since an iteration that sets it returns. -/
def evict (fuel pid dev blockno : Nat) : Nat → Nat → BCache → Outcome
  | 0, _, _ => .fatal
  | n + 1, idx, s =>
    match scan s dev blockno idx fuel .sentinel (s.buckets idx) (-1) none with
    | .hang => .hang
    | .hit b =>
      acquiresleep pid (s.setBuf b { s.buf b with refcnt := incr (s.buf b).refcnt }) b
    | .done (some (minb, minpre)) =>
      acquiresleep pid (recycle s dev blockno idx minb minpre) minb
    | .done none =>
      evict fuel pid dev blockno n (if idx + 1 = NBUCKET then 0 else idx + 1) s

/-- The second path of bget: claim pool slot `bcache.size`. -/
def claim (s : BCache) (dev blockno : Nat) : BCache :=
  let b := s.size
  let s1 := { s with size := s.size + 1 }
  let s2 := s1.setBuf b
    { s1.buf b with dev := dev, blockno := blockno, valid := false, refcnt := 1,
                    next := s1.buckets (HASH blockno) }
  s2.setBucket (HASH blockno) (some b)

/-- bget(dev, blockno) called by process `pid`, with `NBUF` the pool capacity
(param.h, not among the sources). -/
def bget (NBUF fuel pid : Nat) (s : BCache) (dev blockno : Nat) : Outcome :=
  match lookup s dev blockno fuel (s.buckets (HASH blockno)) with
  | none => .hang
  | some (some b) =>
    acquiresleep pid (s.setBuf b { s.buf b with refcnt := incr (s.buf b).refcnt }) b
  | some none =>
    if s.size < NBUF then acquiresleep pid (claim s dev blockno) s.size
    else evict fuel pid dev blockno NBUCKET (HASH blockno) s

/-- Modelled from the spec: virtio_disk_rw(b, 0) of virtio_disk.c (not among
the sources), "synchronously reads into a buffer's payload": the payload of
slot `b` becomes the device contents of the block that `b` names. -/
def diskRead (disk : Nat → Nat → List Nat) (s : BCache) (b : Nat) : BCache :=
  s.setBuf b { s.buf b with data := disk (s.buf b).dev (s.buf b).blockno }

/-- bread(dev, blockno) called by process `pid`. -/
def bread (NBUF fuel pid : Nat) (disk : Nat → Nat → List Nat) (s : BCache)
    (dev blockno : Nat) : Outcome :=
  match bget NBUF fuel pid s dev blockno with
  | .ret b s1 =>
    if (s1.buf b).valid = false then
      let s2 := diskRead disk s1 b
      .ret b (s2.setBuf b { s2.buf b with valid := true })
    else .ret b s1
  | o => o

/-- brelse(b) called by process `pid` when the clock `ticks` has the given
value; `none` is the fatal path `panic("brelse")`. -/
def brelse (pid ticks : Nat) (s : BCache) (b : Nat) : Option BCache :=
  if holdingsleep pid s b = false then none
  else
    let s1 := releasesleep s b
    let s2 := s1.setBuf b { s1.buf b with refcnt := decr (s1.buf b).refcnt }
    if (s2.buf b).refcnt = 0 then some (s2.setBuf b { s2.buf b with time := ticks })
    else some s2

/-- bpin(b). -/
def bpin (s : BCache) (b : Nat) : BCache :=
  s.setBuf b { s.buf b with refcnt := incr (s.buf b).refcnt }

/-- bunpin(b). -/
def bunpin (s : BCache) (b : Nat) : BCache :=
  s.setBuf b { s.buf b with refcnt := decr (s.buf b).refcnt }

/-- Modelled from the spec: virtio_disk_rw(b, 1) of virtio_disk.c (not among
the sources), "writes from a buffer's payload": the device block that `b`
names becomes the payload of `b`. -/
def diskWrite (disk : Nat → Nat → List Nat) (s : BCache) (b : Nat) : Nat → Nat → List Nat :=
  fun d n => if d = (s.buf b).dev ∧ n = (s.buf b).blockno then (s.buf b).data else disk d n

/-- bwrite(b) called by process `pid`: the device after the write; `none` is
the fatal path `panic("bwrite")`. -/
def bwrite (pid : Nat) (disk : Nat → Nat → List Nat) (s : BCache) (b : Nat) :
    Option (Nat → Nat → List Nat) :=
  if holdingsleep pid s b = false then none else some (diskWrite disk s b)

/-- The part of the machine that bwrite and brelse act on: the buffer cache
and the contents of the device. -/
structure Machine where
  cache : BCache
  disk : Nat → Nat → List Nat

/-- bwrite(b) called by process `pid`, statement by statement, with the state
in which the call ends: `fatal m` is `panic("bwrite")` reached with cache and
device in state `m`. -/
def bwriteExec (pid : Nat) (m : Machine) (b : Nat) : Halt Machine :=
  -- if(!holdingsleep(&b->lock)) panic("bwrite")
  if holdingsleep pid m.cache b = false then .fatal m
  else
    -- virtio_disk_rw(b, 1)
    .done { cache := m.cache, disk := diskWrite m.disk m.cache b }

/-- brelse(b) called by process `pid` when the clock `ticks` has the given
value, statement by statement, with the state in which the call ends:
`fatal m` is `panic("brelse")` reached with cache and device in state `m`. -/
def brelseExec (pid ticks : Nat) (m : Machine) (b : Nat) : Halt Machine :=
  -- if(!holdingsleep(&b->lock)) panic("brelse")
  if holdingsleep pid m.cache b = false then .fatal m
  else
    -- releasesleep(&b->lock)
    let s1 := releasesleep m.cache b
    -- b->refcnt--
    let s2 := s1.setBuf b { s1.buf b with refcnt := decr (s1.buf b).refcnt }
    -- if (b->refcnt == 0) b->time = ticks
    if (s2.buf b).refcnt = 0 then
      .done { cache := s2.setBuf b { s2.buf b with time := ticks }, disk := m.disk }
    else .done { cache := s2, disk := m.disk }

/-- The chain that starts at pointer `p` is null-terminated and consists, in
order, of the slots in `l`. -/
def IsChain (s : BCache) : Option Nat → List Nat → Prop
  | p, [] => p = none
  | p, b :: l => p = some b ∧ IsChain s (s.buf b).next l

instance IsChain.decide (s : BCache) : (p : Option Nat) → (l : List Nat) →
    Decidable (IsChain s p l)
  | p, [] => by unfold IsChain; infer_instance
  | p, b :: l =>
    have := IsChain.decide s (s.buf b).next l
    by unfold IsChain; infer_instance

/-- The chain of bucket `i` consists of the slots in `l`. -/
def Bucket (s : BCache) (i : Nat) (l : List Nat) : Prop :=
  IsChain s (s.buckets i) l

instance (s : BCache) (i : Nat) (l : List Nat) : Decidable (Bucket s i l) := by
  unfold Bucket; infer_instance

/-- The value of `pre` after the eviction scan has passed the slots `l1`,
having started from `pre0`. -/
def lastPre (pre0 : Pre) (l1 : List Nat) : Pre :=
  match l1.getLast? with
  | none => pre0
  | some b => .slot b

/-- The structure of a cache state: `L i` is the chain of bucket `i`, the
chains hold exactly the claimed slots `0..size-1`, each in the bucket its
block number hashes to, no two claimed slots name the same block, the pool is
not over capacity, and timestamps are `uint` values. -/
structure Inv (NBUF : Nat) (s : BCache) (L : Nat → List Nat) : Prop where
  size_le : s.size ≤ NBUF
  chain : ∀ i, i < NBUCKET → Bucket s i (L i)
  mem_lt : ∀ i, i < NBUCKET → ∀ b, b ∈ L i → b < s.size ∧ HASH (s.buf b).blockno = i
  mem_of : ∀ b, b < s.size → b ∈ L (HASH (s.buf b).blockno)
  uniq : ∀ a b, a < s.size → b < s.size → (s.buf a).dev = (s.buf b).dev →
    (s.buf a).blockno = (s.buf b).blockno → a = b
  time_lt : ∀ b, (s.buf b).time < UINT
  refcnt_lt : ∀ b, (s.buf b).refcnt < UINT

/-- Every buffer whose `valid` flag is set holds the device contents of the
block it names. -/
def DataInv (disk : Nat → Nat → List Nat) (s : BCache) : Prop :=
  ∀ b, (s.buf b).valid = true → (s.buf b).data = disk (s.buf b).dev (s.buf b).blockno

/-- State `t` differs from `s` at most in who holds the sleep locks. -/
def SameButLock (s t : BCache) : Prop :=
  t.size = s.size ∧ t.buckets = s.buckets ∧
  ∀ c, (t.buf c).dev = (s.buf c).dev ∧ (t.buf c).blockno = (s.buf c).blockno ∧
    (t.buf c).valid = (s.buf c).valid ∧ (t.buf c).refcnt = (s.buf c).refcnt ∧
    (t.buf c).time = (s.buf c).time ∧ (t.buf c).next = (s.buf c).next ∧
    (t.buf c).data = (s.buf c).data

/-- One call of the buffer cache interface, with the calling process and,
for brelse, the value of the clock. -/
inductive Call where
  | bget (fuel pid dev blockno : Nat)
  | bread (fuel pid dev blockno : Nat)
  | brelse (pid ticks b : Nat)
  | bpin (b : Nat)
  | bunpin (b : Nat)

/-- The state after a call that runs to completion: `none` when the call is
fatal, hangs, or leaves its caller suspended.  Arguments are well-formed
`uint` values (otherwise `none`). -/
def Call.run (NBUF : Nat) (disk : Nat → Nat → List Nat) (s : BCache) : Call → Option BCache
  | .bget fuel pid dev blockno =>
    if dev < UINT ∧ blockno < UINT then
      match Bio.bget NBUF fuel pid s dev blockno with
      | Outcome.ret _ s1 => some s1
      | _ => none
    else none
  | .bread fuel pid dev blockno =>
    if dev < UINT ∧ blockno < UINT then
      match Bio.bread NBUF fuel pid disk s dev blockno with
      | Outcome.ret _ s1 => some s1
      | _ => none
    else none
  | .brelse pid ticks b => if ticks < UINT then Bio.brelse pid ticks s b else none
  | .bpin b => some (Bio.bpin s b)
  | .bunpin b => some (Bio.bunpin s b)

/-- The state after a sequence of calls executed one at a time. -/
def runCalls (NBUF : Nat) (disk : Nat → Nat → List Nat) : BCache → List Call → Option BCache
  | s, [] => some s
  | s, c :: cs =>
    match c.run NBUF disk s with
    | none => none
    | some s1 => runCalls NBUF disk s1 cs

/-- The states reachable from binit by a sequence of bget, bread, brelse, bpin
and bunpin calls executed one at a time, each running to completion. -/
def Reachable (NBUF : Nat) (disk : Nat → Nat → List Nat) (s : BCache) : Prop :=
  ∃ cs : List Call, runCalls NBUF disk (binit NBUF bss) cs = some s

/-- The pool capacity NBUF of param.h as xv6 sets it (MAXOPBLOCKS * 3). -/
def NBUFxv6 : Nat := 30

/-- A device on which every block holds its own address. -/
def sampleDisk : Nat → Nat → List Nat := fun d n => [d, n]

/-- Process 1 reads the blocks 0 to 29 of device 0 and keeps them all. -/
def fillCalls : List Call := (List.range 30).map (fun n => Call.bread 31 1 0 n)

/-- The state with a full pool in which slot 3 alone is idle, released at
time 7. -/
def idlePool : BCache :=
  (runCalls NBUFxv6 sampleDisk (binit NBUFxv6 bss) (fillCalls ++ [.brelse 1 7 3])).getD bss

/-- The state with a full pool in which slot 0 alone is idle, released when
the clock `ticks` was 4294967295. -/
def latePool : BCache :=
  (runCalls NBUFxv6 sampleDisk (binit NBUFxv6 bss)
    (fillCalls ++ [.brelse 1 4294967295 0])).getD bss

/-- The state in which process 2 finds the cache after it asked for block 30
of device 0 in `idlePool`. -/
def afterEvict : BCache :=
  ((bget NBUFxv6 31 2 idlePool 0 30).state).getD bss

/-- Slot `b` is one the eviction scan can pick: its reference count is 0 and
its timestamp is below the initial `mintime`, which is -1 read as unsigned. -/
def Evictable (s : BCache) (b : Nat) : Prop :=
  (s.buf b).refcnt = 0 ∧ (s.buf b).time < UINT - 1

instance (s : BCache) (b : Nat) : Decidable (Evictable s b) := by
  unfold Evictable; infer_instance

/-- The state with a full pool in which slot 4 was released when the clock
`ticks` was 4294967295 and slot 5 at time 7; all other slots are held. -/
def skewPool : BCache :=
  (runCalls NBUFxv6 sampleDisk (binit NBUFxv6 bss)
    (fillCalls ++ [.brelse 1 4294967295 4, .brelse 1 7 5])).getD bss

/-- The state after process 1 has read blocks 1 and 14 of device 0, which
share bucket 1, and keeps both. -/
def twoHeld : BCache :=
  (runCalls NBUFxv6 sampleDisk (binit NBUFxv6 bss)
    [.bread 31 1 0 1, .bread 31 1 0 14]).getD bss

end Bio

/-! ## Theorems about kernel/kalloc.c -/

namespace Kalloc

theorem IsList.frame {next : Nat → Nat} {a v : Nat} :
    ∀ {l : List Nat} {p : Nat}, IsList next p l → a ∉ l → IsList (Function.update next a v) p l
  | [], _, h, _ => h
  | b :: l, p, h, ha => by
    obtain ⟨h1, h2, h3⟩ := h
    have hb : b ≠ a := fun e => ha (by simp [e])
    refine ⟨h1, h2, ?_⟩
    rw [Function.update_noteq hb]
    exact IsList.frame h3 (fun hm => ha (List.mem_cons_of_mem _ hm))

theorem IsList.unique {next : Nat → Nat} :
    ∀ {l l' : List Nat} {p : Nat}, IsList next p l → IsList next p l' → l = l'
  | [], [], _, _, _ => rfl
  | [], b :: _, p, h, h' => by
    obtain ⟨h1, h2, _⟩ := h'
    have h0 : p = 0 := h
    omega
  | a :: _, [], p, h, h' => by
    obtain ⟨h1, h2, _⟩ := h
    have h0 : p = 0 := h'
    omega
  | a :: l, b :: l', p, h, h' => by
    obtain ⟨h1, _, h3⟩ := h
    obtain ⟨h1', _, h3'⟩ := h'
    have hab : a = b := by omega
    subst hab
    rw [IsList.unique h3 h3']

theorem IsList.zero_not_mem {next : Nat → Nat} :
    ∀ {l : List Nat} {p : Nat}, IsList next p l → 0 ∉ l
  | [], _, _ => by simp
  | a :: l, p, h => by
    obtain ⟨_, h2, h3⟩ := h
    simp only [List.mem_cons, not_or]
    exact ⟨fun e => h2 e.symm, IsList.zero_not_mem h3⟩

/-- The list that follows an occurrence of `a` starts at `next a`. -/
theorem IsList.after {next : Nat → Nat} {a : Nat} {l2 : List Nat} :
    ∀ (l1 : List Nat) {p : Nat}, IsList next p (l1 ++ a :: l2) → IsList next (next a) l2
  | [], _, h => h.2.2
  | _ :: l1, _, h => IsList.after l1 h.2.2

theorem IsList.nodup {next : Nat → Nat} :
    ∀ {l : List Nat} {p : Nat}, IsList next p l → l.Nodup
  | [], _, _ => List.nodup_nil
  | a :: l, p, h => by
    obtain ⟨_, _, h3⟩ := h
    refine List.nodup_cons.2 ⟨fun hm => ?_, IsList.nodup h3⟩
    obtain ⟨l1, l2, rfl⟩ := List.append_of_mem hm
    have h4 := IsList.after l1 h3
    have := congrArg List.length (IsList.unique h3 h4)
    simp at this
    omega

theorem IsList.head_eq {next : Nat → Nat} {l : List Nat} {p : Nat} (h : IsList next p l) :
    p = l.getD 0 0 := by
  cases l with
  | nil => exact h
  | cons a l => exact h.1

theorem IsList.getD_ne_zero {next : Nat → Nat} {l : List Nat} {p : Nat} (h : IsList next p l)
    {i : Nat} (hi : i < l.length) : l.getD i 0 ≠ 0 := by
  intro e
  apply IsList.zero_not_mem h
  rw [← e, List.getD_eq_getElem _ _ hi]
  exact List.getElem_mem hi

theorem IsList.getD_eq_zero {l : List Nat} {i : Nat} (hi : l.length ≤ i) : l.getD i 0 = 0 := by
  rw [List.getD_eq_getElem?_getD, List.getElem?_eq_none hi]; rfl

theorem IsList.next_getD {next : Nat → Nat} :
    ∀ {l : List Nat} {p : Nat}, IsList next p l → ∀ {i : Nat}, i < l.length →
      next (l.getD i 0) = l.getD (i + 1) 0
  | [], _, _, _, hi => by simp at hi
  | a :: l, _, h, 0, _ => by
    simpa using IsList.head_eq h.2.2
  | a :: l, _, h, i + 1, hi => by
    have := IsList.next_getD h.2.2 (i := i) (by simpa using hi)
    simpa using this

/-- The fast/slow walk over a proper list stops with `slow` on the node of
index `(k - 1) / 2`. -/
theorem stealWalk_spec {next : Nat → Nat} {l : List Nat} {p : Nat} (h : IsList next p l) :
    ∀ (fuel i : Nat), 2 * i + 1 ≤ l.length → l.length + 1 ≤ fuel + 2 * i →
      stealWalk next fuel (l.getD i 0) (l.getD (2 * i + 1) 0) = some (l.getD ((l.length - 1) / 2) 0)
  | 0, i, h1, h2 => by omega
  | fuel + 1, i, h1, h2 => by
    unfold stealWalk
    by_cases hk : l.length = 2 * i + 1
    · have h0 : l.getD (2 * i + 1) 0 = 0 := IsList.getD_eq_zero (by omega)
      have hi : (l.length - 1) / 2 = i := by omega
      rw [if_pos h0, hi]
    · have hlt : 2 * i + 1 < l.length := by omega
      have hne : l.getD (2 * i + 1) 0 ≠ 0 := IsList.getD_ne_zero h hlt
      have hn1 : next (l.getD (2 * i + 1) 0) = l.getD (2 * i + 2) 0 := IsList.next_getD h hlt
      simp only [hne, if_false, hn1]
      by_cases hk2 : l.length = 2 * i + 2
      · have h0 : l.getD (2 * i + 2) 0 = 0 := IsList.getD_eq_zero (by omega)
        have hi : (l.length - 1) / 2 = i := by omega
        have hf : fuel ≠ 0 := by omega
        obtain ⟨f, rfl⟩ := Nat.exists_eq_succ_of_ne_zero hf
        rw [h0, hi]
        simp only [ne_eq, not_true_eq_false, if_false, stealWalk, if_true]
      · have hlt2 : 2 * i + 2 < l.length := by omega
        have hne2 : l.getD (2 * i + 2) 0 ≠ 0 := IsList.getD_ne_zero h hlt2
        have hn2 : next (l.getD (2 * i + 2) 0) = l.getD (2 * (i + 1) + 1) 0 :=
          IsList.next_getD h hlt2
        have hn3 : next (l.getD i 0) = l.getD (i + 1) 0 := IsList.next_getD h (by omega)
        simp only [ne_eq, hne2, not_false_eq_true, if_true, hn2, hn3]
        exact stealWalk_spec h fuel (i + 1) (by omega) (by omega)

/-- Cutting a proper list after node `a`: with `a->next` set to null the front
part, `a` included, is a list, and the part after `a` still is one. -/
theorem IsList.split {next : Nat → Nat} {a : Nat} (l2 : List Nat) :
    ∀ (l1 : List Nat) {p : Nat}, IsList next p (l1 ++ a :: l2) →
      IsList (Function.update next a 0) p (l1 ++ [a]) ∧
      IsList (Function.update next a 0) (next a) l2 := by
  intro l1 p h
  have hnd := IsList.nodup h
  have ha2 : a ∉ l2 := by
    have := (List.nodup_append.1 hnd).2.1
    exact (List.nodup_cons.1 this).1
  refine ⟨?_, IsList.frame (IsList.after l1 h) ha2⟩
  clear ha2
  induction l1 generalizing p with
  | nil =>
    refine ⟨h.1, h.2.1, ?_⟩
    simp [IsList]
  | cons b l1 ih =>
    obtain ⟨h1, h2, h3⟩ := h
    have hba : b ≠ a := by
      intro e
      have := (List.nodup_cons.1 hnd).1
      apply this
      simp [e]
    refine ⟨h1, h2, ?_⟩
    rw [Function.update_noteq hba]
    exact ih h3 (List.nodup_cons.1 hnd).2

/-- What the `if (kmem[c].freelist)` branch of steal does to a proper donor
list `l` of length `k >= 1`: the walk ends on `m`, the node of index
`(k - 1) / 2`; with `m->next` set to null the list from the old head consists
of the first `(k + 1) / 2` nodes, and `m->next` (the donor's new head) starts
the list of the remaining nodes. -/
theorem steal_cut {next : Nat → Nat} {l : List Nat} {p : Nat} (h : IsList next p l)
    (hl : l ≠ []) {fuel : Nat} (hf : l.length < fuel) :
    ∃ m, stealWalk next fuel p (next p) = some m ∧
      l.take ((l.length + 1) / 2) = l.take ((l.length - 1) / 2) ++ [m] ∧
      IsList (Function.update next m 0) p (l.take ((l.length + 1) / 2)) ∧
      IsList (Function.update next m 0) (next m) (l.drop ((l.length + 1) / 2)) := by
  have hpos : 0 < l.length := List.length_pos.2 hl
  have hp : p = l.getD 0 0 := IsList.head_eq h
  have hnp : next p = l.getD (2 * 0 + 1) 0 := by
    rw [hp]; exact IsList.next_getD h hpos
  have hw := stealWalk_spec h fuel 0 (by omega) (by omega)
  rw [← hp, ← hnp] at hw
  set i := (l.length - 1) / 2 with hi
  have hil : i < l.length := by omega
  have hi1 : (l.length + 1) / 2 = i + 1 := by omega
  have hm : l.getD i 0 = l[i] := List.getD_eq_getElem _ _ hil
  refine ⟨l[i], by rw [hw, hm], ?_, ?_⟩
  · rw [hi1, List.take_succ, List.getElem?_eq_getElem hil]; rfl
  · have hdec : l = l.take i ++ l[i] :: l.drop (i + 1) := by
      rw [← List.drop_eq_getElem_cons hil, List.take_append_drop]
    have hs := IsList.split (a := l[i]) (l.drop (i + 1)) (l.take i)
      (p := p) (by rw [← hdec]; exact h)
    rw [hi1]
    have ht : l.take (i + 1) = l.take i ++ [l[i]] := by
      rw [List.take_succ, List.getElem?_eq_getElem hil]; rfl
    rw [ht]
    exact hs

theorem wrap_eq {NCPU c : Nat} (hc : c < NCPU) :
    (if c + 1 = NCPU then 0 else c + 1) = (c + 1) % NCPU := by
  split
  · next h => rw [h, Nat.mod_self]
  · next h => rw [Nat.mod_eq_of_lt (by omega)]

theorem wrap_add {NCPU c i : Nat} : ((c + 1) % NCPU + i) % NCPU = (c + (i + 1)) % NCPU := by
  rw [Nat.add_mod, Nat.mod_mod, ← Nat.add_mod]
  congr 1
  omega

/-- The loop of steal skips the empty cores and splits the list of the first
core that has pages. -/
theorem stealFrom_donor (NCPU fuel : Nat) (st : Kmem) :
    ∀ (j n c : Nat), c < NCPU → 1 ≤ j → j ≤ n →
      (∀ i, 1 ≤ i → i < j → st.freelist ((c + i) % NCPU) = 0) →
      st.freelist ((c + j) % NCPU) ≠ 0 →
      stealFrom NCPU fuel st n c = stealSplit fuel st ((c + j) % NCPU)
  | 0, _, _, _, h1, _, _, _ => by omega
  | j + 1, 0, _, _, _, h2, _, _ => by omega
  | j + 1, n + 1, c, hc, _, h2, hz, hnz => by
    unfold stealFrom
    simp only [wrap_eq hc]
    by_cases hj : j = 0
    · subst hj
      rw [if_pos hnz]
    · have h0 : st.freelist ((c + 1) % NCPU) = 0 := hz 1 (by omega) (by omega)
      rw [if_neg (by simpa using h0)]
      have hlt : (c + 1) % NCPU < NCPU := Nat.mod_lt _ (by omega)
      have := stealFrom_donor NCPU fuel st j n ((c + 1) % NCPU) hlt
        (by omega) (by omega)
        (fun i hi1 hi2 => by rw [wrap_add]; exact hz (i + 1) (by omega) (by omega))
        (by rw [wrap_add]; exact hnz)
      rw [this, wrap_add]

/-- The loop of steal returns null and changes nothing when every core it
visits is empty. -/
theorem stealFrom_empty (NCPU fuel : Nat) (st : Kmem) :
    ∀ (n c : Nat), c < NCPU →
      (∀ i, 1 ≤ i → i ≤ n → st.freelist ((c + i) % NCPU) = 0) →
      stealFrom NCPU fuel st n c = some (0, st)
  | 0, _, _, _ => rfl
  | n + 1, c, hc, hz => by
    unfold stealFrom
    simp only [wrap_eq hc]
    have h0 : st.freelist ((c + 1) % NCPU) = 0 := hz 1 (by omega) (by omega)
    rw [if_neg (by simpa using h0)]
    exact stealFrom_empty NCPU fuel st n ((c + 1) % NCPU) (Nat.mod_lt _ (by omega))
      (fun i hi1 hi2 => by rw [wrap_add]; exact hz (i + 1) (by omega) (by omega))

/-- Either every one of the first `n` cores after `c` is empty, or there is a
first one that is not. -/
theorem first_or_none (f : Nat → Nat) :
    ∀ n : Nat, (∀ i, 1 ≤ i → i ≤ n → f i = 0) ∨
      ∃ j, 1 ≤ j ∧ j ≤ n ∧ f j ≠ 0 ∧ ∀ i, 1 ≤ i → i < j → f i = 0
  | 0 => Or.inl (fun i h1 h2 => by omega)
  | n + 1 => by
    rcases first_or_none f n with h | ⟨j, h1, h2, h3, h4⟩
    · by_cases hn : f (n + 1) = 0
      · left
        intro i hi1 hi2
        by_cases hi : i = n + 1
        · rw [hi]; exact hn
        · exact h i hi1 (by omega)
      · right
        exact ⟨n + 1, by omega, le_refl _, hn, fun i hi1 hi2 => h i hi1 (by omega)⟩
    · right
      exact ⟨j, h1, by omega, h3, h4⟩

/-- Every core other than `c` is visited by the loop of steal. -/
theorem other_core {NCPU c d : Nat} (hc : c < NCPU) (hd : d < NCPU) (hcd : d ≠ c) :
    ∃ i, 1 ≤ i ∧ i ≤ NCPU - 1 ∧ d = (c + i) % NCPU := by
  by_cases h : c < d
  · exact ⟨d - c, by omega, by omega, by
      rw [show c + (d - c) = d by omega, Nat.mod_eq_of_lt hd]⟩
  · refine ⟨NCPU - c + d, by omega, by omega, ?_⟩
    rw [show c + (NCPU - c + d) = NCPU + d by omega, Nat.add_mod_left, Nat.mod_eq_of_lt hd]

/-- The loop of steal never visits the requesting core. -/
theorem visited_ne {NCPU c j : Nat} (hc : c < NCPU) (h1 : 1 ≤ j) (h2 : j < NCPU) :
    (c + j) % NCPU ≠ c := by
  by_cases h : c + j < NCPU
  · rw [Nat.mod_eq_of_lt h]; omega
  · rw [Nat.mod_eq_sub_mod (by omega), Nat.mod_eq_of_lt (by omega)]; omega

theorem FirstDonor.lt {NCPU : Nat} {st : Kmem} {c d j : Nat} (h : FirstDonor NCPU st c d j) :
    d < NCPU := by
  obtain ⟨h1, h2, h3, _⟩ := h
  rw [h3]; exact Nat.mod_lt _ (by omega)

theorem FirstDonor.ne {NCPU : Nat} {st : Kmem} {c d j : Nat} (hc : c < NCPU)
    (h : FirstDonor NCPU st c d j) : d ≠ c := by
  obtain ⟨h1, h2, h3, _⟩ := h
  rw [h3]; exact visited_ne hc h1 h2

/-- steal(c) splits the list of the first donor. -/
theorem steal_donor {NCPU fuel : Nat} {st : Kmem} {c d j : Nat} (hc : c < NCPU)
    (h : FirstDonor NCPU st c d j) : steal NCPU fuel st c = stealSplit fuel st d := by
  obtain ⟨h1, h2, h3, h4, h5⟩ := h
  unfold steal
  rw [h3]
  exact stealFrom_donor NCPU fuel st j (NCPU - 1) c hc h1 (by omega) h5 (by rw [← h3]; exact h4)

/-- steal(c) returns null and changes nothing when all other cores are empty. -/
theorem steal_empty {NCPU fuel : Nat} {st : Kmem} {c : Nat} (hc : c < NCPU)
    (h : ∀ d, d < NCPU → d ≠ c → st.freelist d = 0) : steal NCPU fuel st c = some (0, st) := by
  unfold steal
  exact stealFrom_empty NCPU fuel st (NCPU - 1) c hc
    (fun i hi1 hi2 => h _ (Nat.mod_lt _ (by omega)) (visited_ne hc hi1 (by omega)))

/-- Either all cores other than `c` are empty or steal(c) has a first donor. -/
theorem donor_or_empty (NCPU : Nat) (st : Kmem) {c : Nat} (hc : c < NCPU) :
    (∀ d, d < NCPU → d ≠ c → st.freelist d = 0) ∨ ∃ d j, FirstDonor NCPU st c d j := by
  rcases first_or_none (fun i => st.freelist ((c + i) % NCPU)) (NCPU - 1) with h | ⟨j, h1, h2, h3, h4⟩
  · left
    intro d hd hdc
    obtain ⟨i, hi1, hi2, rfl⟩ := other_core hc hd hdc
    exact h i hi1 hi2
  · right
    exact ⟨(c + j) % NCPU, j, h1, by omega, rfl, h3, h4⟩

/-- The split of a proper donor list `l` by steal: the result is the old head,
the donor keeps the nodes from index `(k + 1) / 2` on, and the list from the
returned head consists of the first `(k + 1) / 2` nodes; `m` is the node the
fast/slow walk stops on. -/
theorem stealSplit_spec {fuel : Nat} {st : Kmem} {d : Nat} {l : List Nat}
    (h : FreeList st d l) (hl : l ≠ []) (hf : l.length < fuel) :
    ∃ m st1, stealWalk st.next fuel (st.freelist d) (st.next (st.freelist d)) = some m ∧
      stealSplit fuel st d = some (st.freelist d, st1) ∧
      st1.freelist = Function.update st.freelist d (st.next m) ∧
      st1.next = Function.update st.next m 0 ∧
      m ∈ l ∧
      l.take ((l.length + 1) / 2) = l.take ((l.length - 1) / 2) ++ [m] ∧
      IsList st1.next (st.freelist d) (l.take ((l.length + 1) / 2)) ∧
      FreeList st1 d (l.drop ((l.length + 1) / 2)) := by
  obtain ⟨m, hw, ht, h1, h2⟩ := steal_cut h hl hf
  refine ⟨m, { freelist := Function.update st.freelist d (st.next m)
               next := Function.update st.next m 0 }, hw, ?_, rfl, rfl, ?_, ht, h1, ?_⟩
  · unfold stealSplit
    simp only [hw]
  · have : m ∈ l.take ((l.length + 1) / 2) := by rw [ht]; simp
    exact List.mem_of_mem_take this
  · unfold FreeList
    simpa using h2

theorem kalloc_own {NCPU fuel : Nat} {st : Kmem} {cpu : Nat} (h : st.freelist cpu ≠ 0) :
    kalloc NCPU fuel st cpu = some (st.freelist cpu, takePage st cpu (st.freelist cpu)) := by
  unfold kalloc
  simp only [h, ne_eq, not_false_eq_true, if_true]

theorem kalloc_empty {NCPU fuel : Nat} {st : Kmem} {cpu : Nat} (hc : cpu < NCPU)
    (h : ∀ d, d < NCPU → st.freelist d = 0) : kalloc NCPU fuel st cpu = some (0, st) := by
  unfold kalloc
  simp only [h cpu hc, ne_eq, not_true_eq_false, if_false,
    steal_empty hc (fun d hd _ => h d hd)]

/-- The own list is popped: the head is returned, the rest stays with the
core, and every list that does not contain the returned page is untouched. -/
theorem kalloc_own_spec (NCPU fuel : Nat) {st : Kmem} {cpu r : Nat} {t : List Nat}
    (h : FreeList st cpu (r :: t)) :
    ∃ st1, kalloc NCPU fuel st cpu = some (r, st1) ∧ FreeList st1 cpu t ∧
      ∀ e l, e ≠ cpu → FreeList st e l → r ∉ l → FreeList st1 e l := by
  have hr : st.freelist cpu = r := h.1
  have hne : st.freelist cpu ≠ 0 := by rw [hr]; exact h.2.1
  refine ⟨takePage st cpu r, by rw [kalloc_own hne, hr], ?_, ?_⟩
  · have hnd := IsList.nodup h
    unfold FreeList takePage
    simp only [Function.update_same]
    exact IsList.frame h.2.2 (List.nodup_cons.1 hnd).1
  · intro e l he hl hrl
    unfold FreeList takePage
    simp only [Function.update_noteq he]
    exact IsList.frame hl hrl

/-- The steal path of kalloc on core `cpu` with first donor `d` whose list is
`l`: the head of `l` is returned, `d` keeps the nodes of `l` from index
`(k + 1) / 2` on, `cpu` gets the first `(k + 1) / 2` nodes without the head,
and every other list that shares no node with `l` is untouched. -/
theorem kalloc_steal_spec {NCPU fuel : Nat} {st : Kmem} {cpu d j : Nat} {l : List Nat}
    (hc : cpu < NCPU) (h0 : st.freelist cpu = 0) (hd : FirstDonor NCPU st cpu d j)
    (hl : FreeList st d l) (hf : l.length < fuel) :
    ∃ st2, kalloc NCPU fuel st cpu = some (st.freelist d, st2) ∧
      st.freelist d ≠ 0 ∧ l.head? = some (st.freelist d) ∧
      FreeList st2 d (l.drop ((l.length + 1) / 2)) ∧
      FreeList st2 cpu (l.take ((l.length + 1) / 2)).tail ∧
      ∀ e l1, e ≠ cpu → e ≠ d → FreeList st e l1 → List.Disjoint l1 l → FreeList st2 e l1 := by
  have hdne : st.freelist d ≠ 0 := hd.2.2.2.1
  have hdc : d ≠ cpu := hd.ne hc
  obtain ⟨a, t, rfl⟩ : ∃ a t, l = a :: t := by
    cases l with
    | nil => exact absurd hl hdne
    | cons a t => exact ⟨a, t, rfl⟩
  have ha : st.freelist d = a := hl.1
  obtain ⟨m, st1, _, hs, hfl, hnx, hm, _, hfront, hback⟩ :=
    stealSplit_spec hl (List.cons_ne_nil _ _) hf
  have hnd : (a :: t).Nodup := IsList.nodup hl
  set k := (a :: t).length with hk
  have hk1 : (k + 1) / 2 = (k + 1) / 2 - 1 + 1 := by
    have : 1 ≤ k := by simp [hk]
    omega
  have htake : (a :: t).take ((k + 1) / 2) = a :: t.take ((k + 1) / 2 - 1) := by
    rw [hk1, List.take_succ_cons]; simp
  have hdrop : (a :: t).drop ((k + 1) / 2) = t.drop ((k + 1) / 2 - 1) := by
    rw [hk1, List.drop_succ_cons]; simp
  have hat : a ∉ t := (List.nodup_cons.1 hnd).1
  refine ⟨takePage st1 cpu a, ?_, hdne, by simp [ha], ?_, ?_, ?_⟩
  · unfold kalloc
    simp only [h0, ne_eq, not_true_eq_false, if_false, steal_donor hc hd, hs, hdne,
      not_false_eq_true, if_true, ha]
    rw [if_pos (by rw [← ha]; exact hdne)]
  · unfold FreeList takePage
    simp only [Function.update_noteq hdc]
    refine IsList.frame hback ?_
    rw [hdrop]
    exact fun hmem => hat (List.mem_of_mem_drop hmem)
  · unfold FreeList takePage
    simp only [Function.update_same]
    rw [htake] at hfront ⊢
    rw [ha] at hfront
    simp only [List.tail_cons]
    exact IsList.frame hfront.2.2 (fun hmem => hat (List.mem_of_mem_take hmem))
  · intro e l1 hec hed hl1 hdis
    unfold FreeList takePage
    simp only [Function.update_noteq hec, hfl, Function.update_noteq hed, hnx]
    refine IsList.frame (IsList.frame hl1 (fun hmem => hdis hmem hm)) ?_
    exact fun hmem => hdis hmem (List.mem_cons_self _ _)

theorem total_succ (n : Nat) (L : Nat → List Nat) :
    total (n + 1) L = total n L + (L n).length := by
  unfold total
  rw [List.range_succ, List.map_append, List.sum_append]
  simp

theorem total_congr {L M : Nat → List Nat} :
    ∀ {n : Nat}, (∀ c, c < n → L c = M c) → total n L = total n M
  | 0, _ => rfl
  | n + 1, h => by
    rw [total_succ, total_succ, h n (by omega),
      total_congr (n := n) (fun c hc => h c (by omega))]

theorem total_update {L : Nat → List Nat} {c : Nat} {l : List Nat} :
    ∀ {n : Nat}, c < n →
      total n (Function.update L c l) + (L c).length = total n L + l.length
  | 0, h => by omega
  | n + 1, h => by
    rw [total_succ, total_succ]
    by_cases hc : c = n
    · subst hc
      rw [Function.update_same,
        total_congr (L := Function.update L c l) (M := L) (n := c)
          (fun d hd => Function.update_noteq (by omega) _ _)]
      omega
    · have := total_update (L := L) (c := c) (l := l) (n := n) (by omega)
      rw [Function.update_noteq (Ne.symm hc)]
      omega

theorem length_le_total {L : Nat → List Nat} {c : Nat} :
    ∀ {n : Nat}, c < n → (L c).length ≤ total n L
  | 0, h => by omega
  | n + 1, h => by
    rw [total_succ]
    by_cases hc : c = n
    · subst hc; omega
    · have := length_le_total (L := L) (c := c) (n := n) (by omega)
      omega

theorem total_eq_zero {L : Nat → List Nat} {n : Nat} (h : ∀ c, c < n → L c = []) :
    total n L = 0 := by
  induction n with
  | zero => rfl
  | succ n ih =>
    rw [total_succ, ih (fun c hc => h c (by omega)), h n (by omega)]
    rfl

theorem FreeList.nil_iff {st : Kmem} {c : Nat} {l : List Nat} (h : FreeList st c l) :
    st.freelist c = 0 ↔ l = [] := by
  cases l with
  | nil => exact ⟨fun _ => rfl, fun _ => h⟩
  | cons a t =>
    have h1 : st.freelist c = a := h.1
    have h2 : a ≠ 0 := h.2.1
    constructor
    · intro h0; omega
    · intro h0; cases h0

/-- A valid page that is not free is pushed: kfree keeps the state well formed
and puts the page at the head of the calling core's list. -/
theorem kfree_abs {cfg : Layout} {st : Kmem} {L : Nat → List Nat} {c p : Nat}
    (hA : Abs cfg.NCPU st L) (hc : c < cfg.NCPU) (hv : ¬ kfreeBad cfg p) (hp : p ≠ 0)
    (hfree : ∀ d, d < cfg.NCPU → p ∉ L d) :
    ∃ st1, kfree cfg st c p = some st1 ∧
      Abs cfg.NCPU st1 (Function.update L c (p :: L c)) := by
  obtain ⟨h1, h2, h3⟩ := hA
  refine ⟨_, by unfold kfree; rw [if_neg hv], ?_, ?_, ?_⟩
  · intro d hd
    by_cases hdc : d = c
    · subst hdc
      unfold FreeList
      simp only [Function.update_same]
      refine ⟨rfl, hp, ?_⟩
      simp only [Function.update_idem, Function.update_same]
      exact IsList.frame (h1 d hd) (hfree d hd)
    · unfold FreeList
      simp only [Function.update_noteq hdc, Function.update_idem]
      exact IsList.frame (h1 d hd) (hfree d hd)
  · intro d hd
    by_cases hdc : d = c
    · subst hdc
      rw [Function.update_same]
      exact List.nodup_cons.2 ⟨hfree d hd, h2 d hd⟩
    · rw [Function.update_noteq hdc]
      exact h2 d hd
  · intro d e hd he hde
    by_cases hdc : d = c
    · subst hdc
      rw [Function.update_same, Function.update_noteq (Ne.symm hde)]
      rw [List.disjoint_cons_left]
      exact ⟨hfree e he, h3 d e hd he hde⟩
    · rw [Function.update_noteq hdc]
      by_cases hec : e = c
      · subst hec
        rw [Function.update_same, List.disjoint_cons_right]
        exact ⟨hfree d hd, h3 d e hd he hde⟩
      · rw [Function.update_noteq hec]
        exact h3 d e hd he hde

/-- kalloc on a well-formed state with enough fuel: it returns, the state
stays well formed, and either nothing is free and nothing changes, or the
returned page was free and is exactly what leaves the union of the lists. -/
theorem kalloc_abs {NCPU fuel : Nat} {st : Kmem} {L : Nat → List Nat} {cpu : Nat}
    (hA : Abs NCPU st L) (hc : cpu < NCPU) (hf : total NCPU L < fuel) :
    ∃ r st1 L1, kalloc NCPU fuel st cpu = some (r, st1) ∧ Abs NCPU st1 L1 ∧
      ((r = 0 ∧ total NCPU L = 0 ∧ st1 = st ∧ L1 = L) ∨
       (r ≠ 0 ∧ total NCPU L1 + 1 = total NCPU L ∧
         (∀ c, c < NCPU → r ∉ L1 c) ∧
         ∀ x, (∃ c, c < NCPU ∧ x ∈ L c) ↔ (x = r ∨ ∃ c, c < NCPU ∧ x ∈ L1 c))) := by
  obtain ⟨h1, h2, h3⟩ := hA
  by_cases h0 : st.freelist cpu = 0
  · rcases donor_or_empty NCPU st hc with he | ⟨d, j, hd⟩
    · -- nothing to steal
      have hall : ∀ c, c < NCPU → st.freelist c = 0 := fun c hcN => by
        by_cases hcc : c = cpu
        · rw [hcc]; exact h0
        · exact he c hcN hcc
      refine ⟨0, st, L, kalloc_empty hc hall, ⟨h1, h2, h3⟩, Or.inl ⟨rfl, ?_, rfl, rfl⟩⟩
      exact total_eq_zero (fun c hcN => (FreeList.nil_iff (h1 c hcN)).1 (hall c hcN))
    · -- steal from d
      have hdN : d < NCPU := hd.lt
      have hdc : d ≠ cpu := hd.ne hc
      have hlen : (L d).length < fuel := lt_of_le_of_lt (length_le_total hdN) hf
      obtain ⟨st2, hk, hne, hhead, hbk, hfr, hoth⟩ := kalloc_steal_spec hc h0 hd (h1 d hdN) hlen
      have hcpu : L cpu = [] := (FreeList.nil_iff (h1 cpu hc)).1 h0
      obtain ⟨a, t, hat⟩ : ∃ a t, L d = a :: t := by
        cases hL : L d with
        | nil => rw [hL] at hhead; cases hhead
        | cons a t => exact ⟨a, t, rfl⟩
      have har : a = st.freelist d := by
        rw [hat] at hhead; simpa using hhead
      set k := (L d).length with hk0
      have hkpos : 1 ≤ k := by rw [hk0, hat]; simp
      have hk1 : (k + 1) / 2 = (k + 1) / 2 - 1 + 1 := by omega
      set front := (L d).take ((k + 1) / 2) with hfront
      set back := (L d).drop ((k + 1) / 2) with hback
      have hsplit : L d = front ++ back := (List.take_append_drop _ _).symm
      have hfc : front = a :: front.tail := by
        rw [hfront, hat, hk1, List.take_succ_cons]; rfl
      have hsplit2 : L d = a :: (front.tail ++ back) := by
        rw [hsplit]; conv_lhs => rw [hfc]
        rfl
      have hndd : (a :: (front.tail ++ back)).Nodup := by rw [← hsplit2]; exact h2 d hdN
      have hnd2 := (List.nodup_cons.1 hndd)
      have hnd3 := List.nodup_append.1 hnd2.2
      refine ⟨st.freelist d, st2,
        fun c => if c = cpu then front.tail else if c = d then back else L c,
        hk, ⟨?_, ?_, ?_⟩, Or.inr ⟨hne, ?_, ?_, ?_⟩⟩
      · intro c hcN
        by_cases hcc : c = cpu
        · simp only [hcc, if_true]; exact hfr
        · by_cases hcd : c = d
          · simp only [hcd, hdc, if_false, if_true]; exact hbk
          · simp only [hcc, hcd, if_false]
            exact hoth c (L c) hcc hcd (h1 c hcN) (h3 c d hcN hdN hcd)
      · intro c hcN
        by_cases hcc : c = cpu
        · simp only [hcc, if_true]; exact hnd3.1
        · by_cases hcd : c = d
          · simp only [hcd, hdc, if_false, if_true]; exact hnd3.2.1
          · simp only [hcc, hcd, if_false]; exact h2 c hcN
      · have hsubF : ∀ x, x ∈ front.tail → x ∈ L d := fun x hx => by
          rw [hsplit2]; simp [hx]
        have hsubB : ∀ x, x ∈ back → x ∈ L d := fun x hx => by
          rw [hsplit2]; simp [hx]
        intro c e hcN heN hce
        by_cases hcc : c = cpu
        · have hec : e ≠ cpu := fun h => hce (by rw [hcc, h])
          simp only [hcc, if_true, hec, if_false]
          by_cases hed : e = d
          · simp only [hed, if_true]; exact hnd3.2.2
          · simp only [hed, if_false]
            exact fun x hx hx2 => h3 d e hdN heN (Ne.symm hed) (hsubF x hx) hx2
        · simp only [hcc, if_false]
          by_cases hec : e = cpu
          · simp only [hec, if_true]
            by_cases hcd : c = d
            · simp only [hcd, if_true]; exact fun x hx hx2 => hnd3.2.2 hx2 hx
            · simp only [hcd, if_false]
              exact fun x hx hx2 => h3 c d hcN hdN hcd hx (hsubF x hx2)
          · simp only [hec, if_false]
            by_cases hcd : c = d
            · have hed : e ≠ d := fun h => hce (by rw [hcd, h])
              simp only [hcd, if_true, hed, if_false]
              exact fun x hx hx2 => h3 d e hdN heN (Ne.symm hed) (hsubB x hx) hx2
            · simp only [hcd, if_false]
              by_cases hed : e = d
              · simp only [hed, if_true]
                exact fun x hx hx2 => h3 c d hcN hdN hcd hx (hsubB x hx2)
              · simp only [hed, if_false]; exact h3 c e hcN heN hce
      · -- the count
        have e1 : (fun c => if c = cpu then front.tail else if c = d then back else L c)
            = Function.update (Function.update L d back) cpu front.tail := by
          funext c
          by_cases hcc : c = cpu
          · subst hcc; rw [Function.update_same, if_pos rfl]
          · by_cases hcd : c = d
            · subst hcd
              rw [Function.update_noteq hcc, Function.update_same, if_neg hcc, if_pos rfl]
            · rw [Function.update_noteq hcc, Function.update_noteq hcd, if_neg hcc, if_neg hcd]
        rw [e1]
        have t1 := total_update (L := Function.update L d back) (c := cpu) (l := front.tail)
          (n := NCPU) hc
        have t2 := total_update (L := L) (c := d) (l := back) (n := NCPU) hdN
        rw [Function.update_noteq (Ne.symm hdc), hcpu] at t1
        have hlen2 : (L d).length = front.tail.length + back.length + 1 := by
          rw [hsplit2]; simp
        simp only [List.length_nil] at t1
        omega
      · intro c hcN
        rw [← har]
        by_cases hcc : c = cpu
        · simp only [hcc, if_true]
          exact fun hx => hnd2.1 (List.mem_append_left _ hx)
        · by_cases hcd : c = d
          · simp only [hcd, hdc, if_false, if_true]
            exact fun hx => hnd2.1 (List.mem_append_right _ hx)
          · simp only [hcc, hcd, if_false]
            exact fun hx => h3 c d hcN hdN hcd hx (by rw [hat]; simp)
      · intro x
        rw [← har]
        constructor
        · rintro ⟨c, hcN, hx⟩
          by_cases hcc : c = cpu
          · rw [hcc, hcpu] at hx; cases hx
          · by_cases hcd : c = d
            · rw [hcd, hsplit2] at hx
              rcases List.mem_cons.1 hx with hx | hx
              · exact Or.inl hx
              · rcases List.mem_append.1 hx with hx | hx
                · exact Or.inr ⟨cpu, hc, by simp only [if_true]; exact hx⟩
                · exact Or.inr ⟨d, hdN, by simp only [hdc, if_false, if_true]; exact hx⟩
            · exact Or.inr ⟨c, hcN, by simp only [hcc, hcd, if_false]; exact hx⟩
        · rintro (hx | ⟨c, hcN, hx⟩)
          · exact ⟨d, hdN, by rw [hx, hat]; simp⟩
          · by_cases hcc : c = cpu
            · simp only [hcc, if_true] at hx
              exact ⟨d, hdN, by rw [hsplit2]; simp [hx]⟩
            · by_cases hcd : c = d
              · simp only [hcd, hdc, if_false, if_true] at hx
                exact ⟨d, hdN, by rw [hsplit2]; simp [hx]⟩
              · simp only [hcc, hcd, if_false] at hx
                exact ⟨c, hcN, hx⟩
  · -- pop the own list
    obtain ⟨r, t, hrt⟩ : ∃ r t, L cpu = r :: t := by
      cases hL : L cpu with
      | nil => exact absurd ((FreeList.nil_iff (h1 cpu hc)).2 hL) h0
      | cons a t => exact ⟨a, t, rfl⟩
    have hfl : FreeList st cpu (r :: t) := by rw [← hrt]; exact h1 cpu hc
    have hr0 : r ≠ 0 := hfl.2.1
    obtain ⟨st1, hk, hown, hoth⟩ := kalloc_own_spec NCPU fuel hfl
    have hnd : (r :: t).Nodup := by rw [← hrt]; exact h2 cpu hc
    have hrc : ∀ c, c < NCPU → c ≠ cpu → r ∉ L c := fun c hcN hcc hx =>
      h3 c cpu hcN hc hcc hx (by rw [hrt]; simp)
    refine ⟨r, st1, Function.update L cpu t, hk, ⟨?_, ?_, ?_⟩, Or.inr ⟨hr0, ?_, ?_, ?_⟩⟩
    · intro c hcN
      by_cases hcc : c = cpu
      · rw [hcc, Function.update_same]; exact hown
      · rw [Function.update_noteq hcc]
        exact hoth c (L c) hcc (h1 c hcN) (hrc c hcN hcc)
    · intro c hcN
      by_cases hcc : c = cpu
      · rw [hcc, Function.update_same]; exact (List.nodup_cons.1 hnd).2
      · rw [Function.update_noteq hcc]; exact h2 c hcN
    · intro c e hcN heN hce
      by_cases hcc : c = cpu
      · have hec : e ≠ cpu := fun h => hce (by rw [hcc, h])
        rw [hcc, Function.update_same, Function.update_noteq hec]
        exact fun x hx hx2 => h3 cpu e hc heN (Ne.symm hec) (by rw [hrt]; simp [hx]) hx2
      · rw [Function.update_noteq hcc]
        by_cases hec : e = cpu
        · rw [hec, Function.update_same]
          exact fun x hx hx2 => h3 c cpu hcN hc hcc hx (by rw [hrt]; simp [hx2])
        · rw [Function.update_noteq hec]; exact h3 c e hcN heN hce
    · have t1 := total_update (L := L) (c := cpu) (l := t) (n := NCPU) hc
      rw [hrt] at t1
      simp only [List.length_cons] at t1
      omega
    · intro c hcN
      by_cases hcc : c = cpu
      · rw [hcc, Function.update_same]; exact (List.nodup_cons.1 hnd).1
      · rw [Function.update_noteq hcc]; exact hrc c hcN hcc
    · intro x
      constructor
      · rintro ⟨c, hcN, hx⟩
        by_cases hcc : c = cpu
        · rw [hcc, hrt] at hx
          rcases List.mem_cons.1 hx with hx | hx
          · exact Or.inl hx
          · exact Or.inr ⟨cpu, hc, by rw [Function.update_same]; exact hx⟩
        · exact Or.inr ⟨c, hcN, by rw [Function.update_noteq hcc]; exact hx⟩
      · rintro (hx | ⟨c, hcN, hx⟩)
        · exact ⟨cpu, hc, by rw [hx, hrt]; simp⟩
        · by_cases hcc : c = cpu
          · rw [hcc, Function.update_same] at hx
            exact ⟨cpu, hc, by rw [hrt]; simp [hx]⟩
          · rw [Function.update_noteq hcc] at hx
            exact ⟨c, hcN, hx⟩

/-- A page that passes the validation of kfree is not the null pointer when
the kernel image does not end at address 0. -/
theorem valid_ne_zero {cfg : Layout} {p : Nat} (hk : 0 < cfg.kend) (hv : ¬ kfreeBad cfg p) :
    p ≠ 0 := by
  unfold kfreeBad at hv
  omega

/-- C5, as stated, fails: core 0 holds the list `pageA, pageB`; kfree(pageB)
followed by kalloc() on core 0 returns `pageB`, but `pageB` is still linked
behind `pageA` and now holds the allocation junk, so the free list of core 0
is no longer `pageA, pageB`. -/
theorem C5_roundtrip_counterexample :
    ¬ kfreeBad cfgXv6 pageB ∧ FreeList twoOnCore0 0 [pageA, pageB] ∧
    ∃ st1 st2, kfree cfgXv6 twoOnCore0 0 pageB = some st1 ∧
      kalloc cfgXv6.NCPU 1 st1 0 = some (pageB, st2) ∧
      ¬ FreeList st2 0 [pageA, pageB] :=
  ⟨by decide, by decide, _, _, rfl, rfl, by decide⟩

/-- C5, amended: for every allocator state, core `c` and page `p` that passes
the validation of kfree, kfree(p) followed by kalloc() on `c` returns `p` and
leaves the head pointer of every core as it was; every free list that did not
contain `p` before the kfree is the same list afterwards. -/
theorem C5_roundtrip (cfg : Layout) (fuel : Nat) (st : Kmem) (c p : Nat)
    (hk : 0 < cfg.kend) (hv : ¬ kfreeBad cfg p) :
    ∃ st1 st2, kfree cfg st c p = some st1 ∧
      kalloc cfg.NCPU fuel st1 c = some (p, st2) ∧
      st2.freelist = st.freelist ∧
      ∀ d l, FreeList st d l → p ∉ l → FreeList st2 d l := by
  have hp : p ≠ 0 := valid_ne_zero hk hv
  refine ⟨{ freelist := Function.update st.freelist c p
            next := Function.update (Function.update st.next p junkFree) p (st.freelist c) },
    takePage { freelist := Function.update st.freelist c p
               next := Function.update (Function.update st.next p junkFree) p
                 (st.freelist c) } c p,
    by unfold kfree; rw [if_neg hv], ?_, ?_, ?_⟩
  · rw [kalloc_own (by simpa using hp)]
    simp only [Function.update_same]
  · unfold takePage
    simp only [Function.update_same, Function.update_idem, Function.update_eq_self]
  · intro d l hl hpl
    unfold FreeList takePage
    simp only [Function.update_same, Function.update_idem, Function.update_eq_self]
    exact IsList.frame hl hpl

/-- Witness for `C5_roundtrip`: `pageC` freed and allocated again on core 0
of the state where core 0 holds `pageA, pageB`. -/
theorem C5_roundtrip_witness :
    ∃ st1 st2, kfree cfgXv6 twoOnCore0 0 pageC = some st1 ∧
      kalloc cfgXv6.NCPU 1 st1 0 = some (pageC, st2) ∧
      st2.freelist = twoOnCore0.freelist ∧
      ∀ d l, FreeList twoOnCore0 d l → pageC ∉ l → FreeList st2 d l :=
  C5_roundtrip cfgXv6 1 twoOnCore0 0 pageC (by decide) (by decide)

/-- A sequence of kfree calls with valid, distinct pages that are not free
keeps the state well formed and adds one free page per call. -/
theorem kfreeAll_abs {cfg : Layout} (hk : 0 < cfg.kend) :
    ∀ (frees : List (Nat × Nat)) (st : Kmem) (L : Nat → List Nat), Abs cfg.NCPU st L →
      (∀ x ∈ frees, x.1 < cfg.NCPU) → (∀ x ∈ frees, ¬ kfreeBad cfg x.2) →
      (frees.map Prod.snd).Nodup → (∀ x ∈ frees, ∀ d, d < cfg.NCPU → x.2 ∉ L d) →
      ∃ st1 L1, kfreeAll cfg st frees = some st1 ∧ Abs cfg.NCPU st1 L1 ∧
        total cfg.NCPU L1 = total cfg.NCPU L + frees.length
  | [], st, L, hA, _, _, _, _ => ⟨st, L, rfl, hA, rfl⟩
  | (c, p) :: rest, st, L, hA, hc, hv, hnd, hfree => by
    have hcN : c < cfg.NCPU := hc (c, p) (List.mem_cons_self _ _)
    have hvp : ¬ kfreeBad cfg p := hv (c, p) (List.mem_cons_self _ _)
    obtain ⟨st1, hk1, hA1⟩ := kfree_abs hA hcN hvp (valid_ne_zero hk hvp)
      (hfree (c, p) (List.mem_cons_self _ _))
    have hnd2 := List.nodup_cons.1 (by simpa using hnd : (p :: rest.map Prod.snd).Nodup)
    obtain ⟨st2, L2, hk2, hA2, ht2⟩ := kfreeAll_abs hk rest st1 _ hA1
      (fun x hx => hc x (List.mem_cons_of_mem _ hx))
      (fun x hx => hv x (List.mem_cons_of_mem _ hx)) hnd2.2
      (fun x hx d hd => by
        by_cases hdc : d = c
        · rw [hdc, Function.update_same]
          intro hmem
          rcases List.mem_cons.1 hmem with h | h
          · exact hnd2.1 (by rw [← h]; exact List.mem_map_of_mem _ hx)
          · exact hfree x (List.mem_cons_of_mem _ hx) c hcN h
        · rw [Function.update_noteq hdc]
          exact hfree x (List.mem_cons_of_mem _ hx) d hd)
    refine ⟨st2, L2, ?_, hA2, ?_⟩
    · simp only [kfreeAll, hk1, hk2]
    · have := total_update (L := L) (c := c) (l := p :: L c) (n := cfg.NCPU) hcN
      simp only [List.length_cons] at this ⊢
      omega

/-- A sequence of kalloc calls on a well-formed state: the first `total`
results are pages, all later ones are null. -/
theorem kallocAll_abs (NCPU fuel : Nat) :
    ∀ (cores : List Nat) (st : Kmem) (L : Nat → List Nat), Abs NCPU st L →
      total NCPU L < fuel → (∀ c ∈ cores, c < NCPU) →
      ∃ rs st2, kallocAll NCPU fuel st cores = some (rs, st2) ∧ rs.length = cores.length ∧
        (∀ r ∈ rs.take (total NCPU L), r ≠ 0) ∧ (∀ r ∈ rs.drop (total NCPU L), r = 0)
  | [], st, L, _, _, _ => ⟨[], st, rfl, rfl, by simp, by simp⟩
  | c :: rest, st, L, hA, hf, hc => by
    obtain ⟨r, st1, L1, hk, hA1, hcase⟩ := kalloc_abs hA (hc c (List.mem_cons_self _ _)) hf
    have hrest : ∀ c ∈ rest, c < NCPU := fun x hx => hc x (List.mem_cons_of_mem _ hx)
    rcases hcase with ⟨hr, ht, hst, hL⟩ | ⟨hr, ht, _, _⟩
    · subst hst hL
      obtain ⟨rs, st2, hk2, hlen, _, hz⟩ := kallocAll_abs NCPU fuel rest st1 L1 hA1 hf hrest
      refine ⟨r :: rs, st2, by simp only [kallocAll, hk, hk2], by simp [hlen], ?_, ?_⟩
      · rw [ht]; simp
      · rw [ht] at hz ⊢
        intro x hx
        rcases List.mem_cons.1 (by simpa using hx) with h | h
        · rw [h, hr]
        · exact hz x (by simpa using h)
    · obtain ⟨rs, st2, hk2, hlen, hnz, hz⟩ := kallocAll_abs NCPU fuel rest st1 L1 hA1 (by omega) hrest
      refine ⟨r :: rs, st2, by simp only [kallocAll, hk, hk2], by simp [hlen], ?_, ?_⟩
      · rw [← ht, List.take_succ_cons]
        intro x hx
        rcases List.mem_cons.1 hx with h | h
        · rw [h]; exact hr
        · exact hnz x h
      · rw [← ht, List.drop_succ_cons]
        exact hz

/-- C6: starting from an allocator whose free lists are all empty, after
kfree of N distinct valid pages, each on an arbitrary core, the next N + 1
calls of kalloc, each on an arbitrary core, return N pages followed by one
null pointer. -/
theorem C6_exhaustion (cfg : Layout) (hk : 0 < cfg.kend) (st : Kmem)
    (hempty : ∀ c, c < cfg.NCPU → st.freelist c = 0)
    (frees : List (Nat × Nat)) (hcores : ∀ x ∈ frees, x.1 < cfg.NCPU)
    (hvalid : ∀ x ∈ frees, ¬ kfreeBad cfg x.2) (hdist : (frees.map Prod.snd).Nodup)
    (cores : List Nat) (hlen : cores.length = frees.length + 1)
    (hc : ∀ c ∈ cores, c < cfg.NCPU) (fuel : Nat) (hfuel : frees.length < fuel) :
    ∃ st1 rs st2, kfreeAll cfg st frees = some st1 ∧
      kallocAll cfg.NCPU fuel st1 cores = some (rs ++ [0], st2) ∧
      rs.length = frees.length ∧ ∀ r ∈ rs, r ≠ 0 := by
  have hA : Abs cfg.NCPU st (fun _ => []) :=
    ⟨fun c hcN => hempty c hcN, fun _ _ => List.nodup_nil, fun _ _ _ _ _ => by simp⟩
  have ht0 : total cfg.NCPU (fun _ => ([] : List Nat)) = 0 := total_eq_zero (fun _ _ => rfl)
  obtain ⟨st1, L1, hk1, hA1, ht1⟩ := kfreeAll_abs hk frees st _ hA hcores hvalid hdist
    (fun _ _ _ _ => by simp)
  rw [ht0, Nat.zero_add] at ht1
  obtain ⟨rs, st2, hk2, hl2, hnz, hz⟩ := kallocAll_abs cfg.NCPU fuel cores st1 L1 hA1 (by omega) hc
  rw [ht1] at hnz hz
  have hdrop : rs.drop frees.length = [0] := by
    have hl : (rs.drop frees.length).length = 1 := by rw [List.length_drop]; omega
    match hd : rs.drop frees.length, hl with
    | [x], _ =>
      have := hz x (by rw [hd]; simp)
      rw [this]
  refine ⟨st1, rs.take frees.length, st2, hk1, ?_, by rw [List.length_take]; omega, hnz⟩
  rw [← hdrop, List.take_append_drop]
  exact hk2

/-- Witness for `C6_exhaustion`: `pageA` freed on core 0, `pageB` on core 1,
then three calls of kalloc on core 2. -/
theorem C6_exhaustion_witness :
    ∃ st1 rs st2, kfreeAll cfgXv6 emptyKmem [(0, pageA), (1, pageB)] = some st1 ∧
      kallocAll cfgXv6.NCPU 3 st1 [2, 2, 2] = some (rs ++ [0], st2) ∧
      rs.length = [(0, pageA), (1, pageB)].length ∧ ∀ r ∈ rs, r ≠ 0 :=
  C6_exhaustion cfgXv6 (by decide) emptyKmem (fun _ _ => rfl) [(0, pageA), (1, pageB)]
    (by decide) (by decide) (by decide) [2, 2, 2] rfl (by decide) 3 (by decide)

/-- Core 1 is the first donor for core 0 in the state where only core 1 has
pages. -/
theorem threeOnCore1_donor : FirstDonor cfgXv6.NCPU threeOnCore1 0 1 1 :=
  ⟨by decide, by decide, by decide, by decide, fun i h1 h2 => by omega⟩

/-- C7, as stated, fails for k = 3: core 0 is empty and core 1, the first
donor, holds `pageA, pageB, pageC`.  kalloc() on core 0 returns `pageA` and
leaves core 1 with the one page `pageC` and core 0 with the one page `pageB`,
not with 2 and 0 pages. -/
theorem C7_steal_counts_counterexample :
    threeOnCore1.freelist 0 = 0 ∧ FirstDonor cfgXv6.NCPU threeOnCore1 0 1 1 ∧
    FreeList threeOnCore1 1 [pageA, pageB, pageC] ∧
    ∃ st2, kalloc cfgXv6.NCPU 4 threeOnCore1 0 = some (pageA, st2) ∧
      FreeList st2 1 [pageC] ∧ FreeList st2 0 [pageB] ∧
      (¬ ∃ l, FreeList st2 1 l ∧ l.length = (3 + 1) / 2) ∧
      (¬ ∃ l, FreeList st2 0 l ∧ l.length = 3 / 2 - 1) := by
  obtain ⟨st2, hk, hB, hA⟩ : ∃ st2, kalloc cfgXv6.NCPU 4 threeOnCore1 0 = some (pageA, st2) ∧
      FreeList st2 1 [pageC] ∧ FreeList st2 0 [pageB] := ⟨_, rfl, by decide, by decide⟩
  refine ⟨rfl, threeOnCore1_donor, by decide, st2, hk, hB, hA, ?_, ?_⟩
  · rintro ⟨l, hl, hlen⟩
    rw [IsList.unique hl hB] at hlen
    simp at hlen
  · rintro ⟨l, hl, hlen⟩
    rw [IsList.unique hl hA] at hlen
    simp at hlen

/-- C7, amended: if the free list of core `A` is empty and core `B`, the first
core after `A` in round-robin order with a non-empty free list, holds the `k`
pages `l` (`k >= 2`), then kalloc() on `A` returns the head of `l`, leaves `B`
with the last `floor(k/2)` pages of `l`, and leaves `A` with the first
`ceil(k/2)` pages of `l` minus the returned one, that is `ceil(k/2) - 1`
pages. -/
theorem C7_steal_counts (NCPU fuel : Nat) (st : Kmem) (A B j : Nat) (l : List Nat)
    (hA : A < NCPU) (h0 : st.freelist A = 0) (hB : FirstDonor NCPU st A B j)
    (hl : FreeList st B l) (hk : 2 ≤ l.length) (hf : l.length < fuel) :
    ∃ r st2 lB lA, kalloc NCPU fuel st A = some (r, st2) ∧ r ≠ 0 ∧ l.head? = some r ∧
      FreeList st2 B lB ∧ lB = l.drop ((l.length + 1) / 2) ∧ lB.length = l.length / 2 ∧
      FreeList st2 A lA ∧ lA = (l.take ((l.length + 1) / 2)).tail ∧
      lA.length = (l.length + 1) / 2 - 1 := by
  obtain ⟨st2, hka, hne, hhead, hbk, hfr, _⟩ := kalloc_steal_spec hA h0 hB hl hf
  refine ⟨st.freelist B, st2, _, _, hka, hne, hhead, hbk, rfl, ?_, hfr, rfl, ?_⟩
  · rw [List.length_drop]; omega
  · rw [List.length_tail, List.length_take]
    have : min ((l.length + 1) / 2) l.length = (l.length + 1) / 2 := by
      apply Nat.min_eq_left; omega
    rw [this]

/-- Witness for `C7_steal_counts`: core 0 steals from core 1, which holds
three pages. -/
theorem C7_steal_counts_witness :
    ∃ r st2 lB lA, kalloc cfgXv6.NCPU 4 threeOnCore1 0 = some (r, st2) ∧ r ≠ 0 ∧
      [pageA, pageB, pageC].head? = some r ∧
      FreeList st2 1 lB ∧
      lB = [pageA, pageB, pageC].drop (([pageA, pageB, pageC].length + 1) / 2) ∧
      lB.length = [pageA, pageB, pageC].length / 2 ∧
      FreeList st2 0 lA ∧
      lA = ([pageA, pageB, pageC].take (([pageA, pageB, pageC].length + 1) / 2)).tail ∧
      lA.length = ([pageA, pageB, pageC].length + 1) / 2 - 1 :=
  C7_steal_counts cfgXv6.NCPU 4 threeOnCore1 0 1 1 [pageA, pageB, pageC] (by decide) rfl
    threeOnCore1_donor (by decide) (by decide) (by decide)

/-- C8, as stated, fails: core 1 holds `pageA, pageB, pageC` and the walk
stops on the midpoint `pageB`.  steal(0) returns `pageA`, the head of the
front half `pageA, pageB`, and core 1 keeps the back half `pageC`; the
returned list is not the back half and the donor's list is not the front
half. -/
theorem C8_steal_halves_counterexample :
    FreeList threeOnCore1 1 [pageA, pageB, pageC] ∧
    stealWalk threeOnCore1.next 4 pageA (threeOnCore1.next pageA) = some pageB ∧
    ∃ st1, steal cfgXv6.NCPU 4 threeOnCore1 0 = some (pageA, st1) ∧
      IsList st1.next pageA [pageA, pageB] ∧ FreeList st1 1 [pageC] ∧
      ¬ IsList st1.next pageA [pageC] ∧ ¬ FreeList st1 1 [pageA, pageB] :=
  ⟨by decide, rfl, _, rfl, by decide, by decide, by decide, by decide⟩

/-- C8, amended: for every donor free list `l` that steal splits, with
midpoint node `m` found by the fast/slow traversal, the list that steal
returns to the caller is the front half (the original head up to and
including `m`), and the donor core keeps the back half (the nodes after `m`,
onward to the end of the original list). -/
theorem C8_steal_halves (NCPU fuel : Nat) (st : Kmem) (c d j : Nat) (l : List Nat)
    (hc : c < NCPU) (hd : FirstDonor NCPU st c d j) (hl : FreeList st d l)
    (hf : l.length < fuel) :
    ∃ m st1 front back,
      stealWalk st.next fuel (st.freelist d) (st.next (st.freelist d)) = some m ∧
      l = front ++ m :: back ∧
      steal NCPU fuel st c = some (st.freelist d, st1) ∧
      IsList st1.next (st.freelist d) (front ++ [m]) ∧
      FreeList st1 d back := by
  have hne : l ≠ [] := fun h => hd.2.2.2.1 ((FreeList.nil_iff hl).2 h)
  obtain ⟨m, st1, hw, hs, _, _, _, ht, hfront, hback⟩ := stealSplit_spec hl hne hf
  refine ⟨m, st1, l.take ((l.length - 1) / 2), l.drop ((l.length + 1) / 2), hw, ?_, ?_, ?_,
    hback⟩
  · have := (List.take_append_drop ((l.length + 1) / 2) l).symm
    rw [ht, List.append_assoc] at this
    exact this
  · rw [steal_donor hc hd, hs]
  · rw [← ht]; exact hfront

/-- Witness for `C8_steal_halves`: core 0 steals from core 1, which holds
three pages. -/
theorem C8_steal_halves_witness :
    ∃ m st1 front back,
      stealWalk threeOnCore1.next 4 (threeOnCore1.freelist 1)
        (threeOnCore1.next (threeOnCore1.freelist 1)) = some m ∧
      [pageA, pageB, pageC] = front ++ m :: back ∧
      steal cfgXv6.NCPU 4 threeOnCore1 0 = some (threeOnCore1.freelist 1, st1) ∧
      IsList st1.next (threeOnCore1.freelist 1) (front ++ [m]) ∧
      FreeList st1 1 back :=
  C8_steal_halves cfgXv6.NCPU 4 threeOnCore1 0 1 1 [pageA, pageB, pageC] (by decide)
    threeOnCore1_donor (by decide) (by decide)

/-- On a page that is its own successor the walk of steal never ends: with
every amount of fuel it runs out of fuel. -/
theorem stealWalk_loop {next : Nat → Nat} {a : Nat} (ha : a ≠ 0) (hn : next a = a) :
    ∀ fuel, stealWalk next fuel a a = none
  | 0 => rfl
  | fuel + 1 => by
    unfold stealWalk
    rw [if_neg ha]
    simp only [hn, ne_eq, ha, not_false_eq_true, if_true]
    exact stealWalk_loop ha hn fuel

/-- Whenever kalloc() returns, in any state, the result is 0 if and only if
the free-list head of every core is null, and a non-null result is the head
of some core's list. -/
theorem kalloc_returned (NCPU fuel : Nat) (st : Kmem) (cpu : Nat) (hc : cpu < NCPU)
    (r : Nat) (st1 : Kmem) (hk : kalloc NCPU fuel st cpu = some (r, st1)) :
    (r = 0 ↔ ∀ c, c < NCPU → st.freelist c = 0) ∧
    (r = 0 ∨ ∃ c, c < NCPU ∧ st.freelist c = r) := by
  by_cases h0 : st.freelist cpu = 0
  · rcases donor_or_empty NCPU st hc with he | ⟨d, j, hd⟩
    · have hall : ∀ c, c < NCPU → st.freelist c = 0 := fun c hcN => by
        by_cases hcc : c = cpu
        · rw [hcc]; exact h0
        · exact he c hcN hcc
      rw [kalloc_empty hc hall] at hk
      cases hk
      exact ⟨⟨fun _ => hall, fun _ => rfl⟩, Or.inl rfl⟩
    · have hdne : st.freelist d ≠ 0 := hd.2.2.2.1
      have hr : r = st.freelist d := by
        unfold kalloc at hk
        simp only [h0, ne_eq, not_true_eq_false, if_false, steal_donor hc hd] at hk
        unfold stealSplit at hk
        cases hw : stealWalk st.next fuel (st.freelist d) (st.next (st.freelist d)) with
        | none => simp [hw] at hk
        | some slow =>
          simp only [hw, hdne, not_false_eq_true, if_true] at hk
          cases hk
          rfl
      rw [hr]
      exact ⟨⟨fun h => absurd h hdne, fun h => absurd (h d hd.lt) hdne⟩,
        Or.inr ⟨d, hd.lt, rfl⟩⟩
  · rw [kalloc_own h0] at hk
    cases hk
    exact ⟨⟨fun h => absurd h h0, fun h => absurd (h cpu hc) h0⟩, Or.inr ⟨cpu, hc, rfl⟩⟩

/-- C9, as stated, fails: kfree(pageA) called twice on core 1 of the empty
allocator passes the validation both times and leaves `pageA` as the head of
core 1 and as its own successor.  Core 1 then has a free page, yet kalloc() on
core 0 returns nothing: the walk of steal over the list of core 1 does not
end, whatever the fuel. -/
theorem C9_kalloc_result_counterexample :
    kfreeAll cfgXv6 emptyKmem [(1, pageA), (1, pageA)] = some loopOnCore1 ∧
    loopOnCore1.freelist 0 = 0 ∧
    loopOnCore1.freelist 1 = pageA ∧ pageA ≠ 0 ∧ loopOnCore1.next pageA = pageA ∧
    ∀ fuel, kalloc cfgXv6.NCPU fuel loopOnCore1 0 = none := by
  refine ⟨rfl, by decide, by decide, by decide, by decide, fun fuel => ?_⟩
  have hA : pageA ≠ 0 := by decide
  have hn : loopOnCore1.next pageA = pageA := by decide
  have h1 : loopOnCore1.freelist 1 = pageA := by decide
  have hd : FirstDonor cfgXv6.NCPU loopOnCore1 0 1 1 :=
    ⟨by decide, by decide, by decide, by decide, fun i h1 h2 => by omega⟩
  have hs : steal cfgXv6.NCPU fuel loopOnCore1 0 = none := by
    rw [steal_donor (by decide) hd]
    unfold stealSplit
    simp only [h1, hn, stealWalk_loop hA hn fuel]
  unfold kalloc
  have h0 : loopOnCore1.freelist 0 = 0 := by decide
  simp only [h0, ne_eq, not_true_eq_false, if_false, hs]

/-- C9, amended: for every allocator state whose per-core free lists are
null-terminated lists (shorter than the fuel) and every calling core, kalloc()
has no fatal path and returns; it returns 0 if and only if the free list of
every one of the NCPU cores is empty, and every other result is a page that
was the head of some core's free list. -/
theorem C9_kalloc_result (NCPU fuel : Nat) (st : Kmem) (cpu : Nat) (hc : cpu < NCPU)
    (hwf : ∀ c, c < NCPU → ∃ l, FreeList st c l ∧ l.length < fuel) :
    ∃ r st1, kalloc NCPU fuel st cpu = some (r, st1) ∧
      (r = 0 ↔ ∀ c, c < NCPU → st.freelist c = 0) ∧
      (r = 0 ∨ ∃ c l, c < NCPU ∧ FreeList st c l ∧ l.head? = some r) := by
  have hret : ∃ r st1, kalloc NCPU fuel st cpu = some (r, st1) := by
    by_cases h0 : st.freelist cpu = 0
    · rcases donor_or_empty NCPU st hc with he | ⟨d, j, hd⟩
      · have hall : ∀ c, c < NCPU → st.freelist c = 0 := fun c hcN => by
          by_cases hcc : c = cpu
          · rw [hcc]; exact h0
          · exact he c hcN hcc
        exact ⟨0, st, kalloc_empty hc hall⟩
      · obtain ⟨l, hl, hlen⟩ := hwf d hd.lt
        obtain ⟨st2, hk, _⟩ := kalloc_steal_spec hc h0 hd hl hlen
        exact ⟨_, st2, hk⟩
    · exact ⟨_, _, kalloc_own h0⟩
  obtain ⟨r, st1, hk⟩ := hret
  obtain ⟨hiff, hor⟩ := kalloc_returned NCPU fuel st cpu hc r st1 hk
  refine ⟨r, st1, hk, hiff, ?_⟩
  by_cases hr : r = 0
  · exact Or.inl hr
  · rcases hor with h | ⟨c, hcN, hcr⟩
    · exact absurd h hr
    · obtain ⟨l, hl, _⟩ := hwf c hcN
      refine Or.inr ⟨c, l, hcN, hl, ?_⟩
      cases l with
      | nil => exact absurd (hcr.symm.trans hl) hr
      | cons a t => rw [List.head?_cons, ← hcr]; exact congrArg some hl.1.symm

/-- Every free list of the state `threeOnCore1` is a null-terminated list of
fewer than 4 pages. -/
theorem threeOnCore1_lists (c : Nat) :
    ∃ l, FreeList threeOnCore1 c l ∧ l.length < 4 := by
  by_cases h : c = 1
  · subst h; exact ⟨[pageA, pageB, pageC], by decide, by decide⟩
  · refine ⟨[], ?_, by decide⟩
    show threeOnCore1.freelist c = 0
    simp [threeOnCore1, h]

/-- Witness for `C9_kalloc_result`: kalloc() on core 0 of the state where
only core 1 has pages. -/
theorem C9_kalloc_result_witness :
    (0 < cfgXv6.NCPU) ∧
    (∀ c, c < cfgXv6.NCPU → ∃ l, FreeList threeOnCore1 c l ∧ l.length < 4) ∧
    ∃ r st1, kalloc cfgXv6.NCPU 4 threeOnCore1 0 = some (r, st1) ∧
      (r = 0 ↔ ∀ c, c < cfgXv6.NCPU → threeOnCore1.freelist c = 0) ∧
      (r = 0 ∨ ∃ c l, c < cfgXv6.NCPU ∧ FreeList threeOnCore1 c l ∧ l.head? = some r) :=
  ⟨by decide, fun c _ => threeOnCore1_lists c,
    C9_kalloc_result cfgXv6.NCPU 4 threeOnCore1 0 (by decide)
      (fun c _ => threeOnCore1_lists c)⟩

/-- C11, as stated, fails: core 1 holds `pageA, pageB, pageC` and core 0 is
empty; kfree(pageA) on core 0 passes the validation and overwrites the link of
`pageA`, so the free list of core 1 is `pageA` alone and no longer
`pageA, pageB, pageC`. -/
theorem C11_kfree_counterexample :
    ¬ kfreeBad cfgXv6 pageA ∧ FreeList threeOnCore1 1 [pageA, pageB, pageC] ∧
    ∃ st1, kfree cfgXv6 threeOnCore1 0 pageA = some st1 ∧
      FreeList st1 1 [pageA] ∧ ¬ FreeList st1 1 [pageA, pageB, pageC] :=
  ⟨by decide, by decide, _, rfl, by decide, by decide⟩

/-- The run of kfree that keeps the state at the `panic` returns what
`kfree` returns. -/
theorem kfreeExec_result (cfg : Layout) (st : Kmem) (cpu pa : Nat) :
    (kfreeExec cfg st cpu pa).result = kfree cfg st cpu pa := by
  unfold kfreeExec kfree
  by_cases hb : kfreeBad cfg pa
  · rw [if_pos hb, if_pos hb]; rfl
  · rw [if_neg hb, if_neg hb]; rfl

/-- C11, amended: kfree(pa) takes the fatal path if and only if `pa` is not a
multiple of PGSIZE, or `pa` is below `end`, or `pa >= PHYSTOP`, and it reaches
the `panic` with the allocator in the state it was called in: no head pointer
and no link has been written.  Otherwise it returns, having made `pa` the head
of the calling core's list with the previous head as its successor, so that
the list is `pa` followed by the previous list whenever `pa` was not on it; it
leaves the head pointer of every other core unchanged, and leaves unchanged
the free list of every other core that does not contain `pa`. -/
theorem C11_kfree (cfg : Layout) (st : Kmem) (cpu pa : Nat) :
    (kfreeExec cfg st cpu pa = .fatal st ↔
      (pa % cfg.PGSIZE ≠ 0 ∨ pa < cfg.kend ∨ pa ≥ cfg.PHYSTOP)) ∧
    (∀ s, kfreeExec cfg st cpu pa = .fatal s →
      (pa % cfg.PGSIZE ≠ 0 ∨ pa < cfg.kend ∨ pa ≥ cfg.PHYSTOP) ∧
      s.freelist = st.freelist ∧ s.next = st.next) ∧
    (kfree cfg st cpu pa = (kfreeExec cfg st cpu pa).result) ∧
    (kfree cfg st cpu pa = none ↔
      (pa % cfg.PGSIZE ≠ 0 ∨ pa < cfg.kend ∨ pa ≥ cfg.PHYSTOP)) ∧
    (¬ (pa % cfg.PGSIZE ≠ 0 ∨ pa < cfg.kend ∨ pa ≥ cfg.PHYSTOP) →
      ∃ st1, kfreeExec cfg st cpu pa = .done st1 ∧ kfree cfg st cpu pa = some st1 ∧
        st1.freelist cpu = pa ∧ st1.next pa = st.freelist cpu ∧
        (∀ d, d ≠ cpu → st1.freelist d = st.freelist d) ∧
        (∀ l, FreeList st cpu l → pa ≠ 0 → pa ∉ l → FreeList st1 cpu (pa :: l)) ∧
        (∀ d l, d ≠ cpu → FreeList st d l → pa ∉ l → FreeList st1 d l)) := by
  refine ⟨?_, ?_, (kfreeExec_result cfg st cpu pa).symm, ?_, ?_⟩
  · unfold kfreeExec
    by_cases hb : kfreeBad cfg pa
    · rw [if_pos hb]
      exact ⟨fun _ => hb, fun _ => rfl⟩
    · rw [if_neg hb]
      exact ⟨fun h => (by cases h), fun h => absurd h hb⟩
  · intro s hs
    unfold kfreeExec at hs
    by_cases hb : kfreeBad cfg pa
    · rw [if_pos hb] at hs
      cases hs
      exact ⟨hb, rfl, rfl⟩
    · rw [if_neg hb] at hs
      cases hs
  · unfold kfree
    by_cases hb : kfreeBad cfg pa
    · rw [if_pos hb]
      exact ⟨fun _ => hb, fun _ => rfl⟩
    · rw [if_neg hb]
      exact ⟨fun h => (by cases h), fun h => absurd h hb⟩
  · intro hv
    have hv1 : ¬ kfreeBad cfg pa := hv
    refine ⟨{ freelist := Function.update st.freelist cpu pa
              next := Function.update (Function.update st.next pa junkFree) pa
                (st.freelist cpu) }, by unfold kfreeExec; rw [if_neg hv1],
      by unfold kfree; rw [if_neg hv1], ?_, ?_, ?_, ?_, ?_⟩
    · simp only [Function.update_same]
    · simp only [Function.update_same]
    · intro d hd
      simp only [Function.update_noteq hd]
    · intro l hl hp hpl
      unfold FreeList
      simp only [Function.update_same, Function.update_idem]
      refine ⟨rfl, hp, ?_⟩
      simp only [Function.update_same]
      exact IsList.frame hl hpl
    · intro d l hd hl hpl
      unfold FreeList
      simp only [Function.update_noteq hd, Function.update_idem]
      exact IsList.frame hl hpl

/-- C18: for every donor free list `l` of length `k >= 1` (also `k = 1`), the
split that steal performs is an order-preserving partition: the list returned
to the caller followed by the list left with the donor is `l`, the returned
list is not empty and consists of the first `ceil(k/2)` nodes of `l`, and the
donor is left with the last `floor(k/2)` nodes.  Any requesting core whose
first donor is `d` gets this result from steal. -/
theorem C18_steal_partition (fuel : Nat) (st : Kmem) (d : Nat) (l : List Nat)
    (hl : FreeList st d l) (hk : 1 ≤ l.length) (hf : l.length < fuel) :
    ∃ r st1 ret rest, stealSplit fuel st d = some (r, st1) ∧
      IsList st1.next r ret ∧ FreeList st1 d rest ∧
      ret ++ rest = l ∧ ret ≠ [] ∧
      ret = l.take ((l.length + 1) / 2) ∧ ret.length = (l.length + 1) / 2 ∧
      rest = l.drop (l.length - l.length / 2) ∧ rest.length = l.length / 2 ∧
      ∀ NCPU c j, c < NCPU → FirstDonor NCPU st c d j →
        steal NCPU fuel st c = some (r, st1) := by
  have hne : l ≠ [] := fun h => by rw [h] at hk; simp at hk
  obtain ⟨m, st1, _, hs, _, _, _, _, hfront, hback⟩ := stealSplit_spec hl hne hf
  have hcut : l.length - l.length / 2 = (l.length + 1) / 2 := by omega
  have hlen : (l.take ((l.length + 1) / 2)).length = (l.length + 1) / 2 := by
    rw [List.length_take]; exact Nat.min_eq_left (by omega)
  refine ⟨st.freelist d, st1, l.take ((l.length + 1) / 2), l.drop ((l.length + 1) / 2), hs,
    hfront, hback, List.take_append_drop _ _, ?_, rfl, hlen, by rw [hcut], ?_, ?_⟩
  · intro h
    rw [h] at hlen
    simp at hlen
    omega
  · rw [List.length_drop]; omega
  · intro NCPU c j hc hd
    rw [steal_donor hc hd, hs]

/-- Witness for `C18_steal_partition`: the list `pageA, pageB, pageC` of
core 1. -/
theorem C18_steal_partition_witness :
    ∃ r st1 ret rest, stealSplit 4 threeOnCore1 1 = some (r, st1) ∧
      IsList st1.next r ret ∧ FreeList st1 1 rest ∧
      ret ++ rest = [pageA, pageB, pageC] ∧ ret ≠ [] ∧
      ret = [pageA, pageB, pageC].take (([pageA, pageB, pageC].length + 1) / 2) ∧
      ret.length = ([pageA, pageB, pageC].length + 1) / 2 ∧
      rest = [pageA, pageB, pageC].drop
        ([pageA, pageB, pageC].length - [pageA, pageB, pageC].length / 2) ∧
      rest.length = [pageA, pageB, pageC].length / 2 ∧
      ∀ NCPU c j, c < NCPU → FirstDonor NCPU threeOnCore1 c 1 j →
        steal NCPU 4 threeOnCore1 c = some (r, st1) :=
  C18_steal_partition 4 threeOnCore1 1 [pageA, pageB, pageC] (by decide) (by decide)
    (by decide)

/-- C14, as stated, fails: core 1 frees `pageC, pageB, pageA`, core 2 frees
`pageD`, and core 2 then frees `pageB` again, which passes the validation of
kfree.  The list of core 1 is now `pageA, pageB, pageD` and the list of core 2
is `pageB, pageD`.  steal(0) takes its pages from core 1, the first core
after core 0 with a non-empty list, and clears the link of `pageB`: the free
list of core 2, which is neither the donor nor the requesting core, changes
from `pageB, pageD` to `pageB`. -/
theorem C14_steal_donor_counterexample :
    kfreeAll cfgXv6 emptyKmem
      [(1, pageC), (1, pageB), (1, pageA), (2, pageD), (2, pageB)] = some sharedLists ∧
    FreeList sharedLists 1 [pageA, pageB, pageD] ∧
    FreeList sharedLists 2 [pageB, pageD] ∧
    ∃ st1, steal cfgXv6.NCPU 4 sharedLists 0 = some (pageA, st1) ∧
      FreeList st1 1 [pageD] ∧
      FreeList st1 2 [pageB] ∧ ¬ FreeList st1 2 [pageB, pageD] :=
  ⟨rfl, by decide, by decide, _, rfl, by decide, by decide, by decide⟩

/-- C14, amended: for every requesting core `c` and every allocator state
whose per-core free lists are null-terminated, duplicate-free and pairwise
disjoint, steal(c) returns, and it returns the null pointer, changing nothing,
if and only if every core other than `c` has an empty free list; otherwise the
pages it returns all come from the core `d = (c + j) mod NCPU` with the
smallest `j` in `1..NCPU-1` whose free list is not empty, `d` is not `c`, `d`
keeps the rest of its list, and the free list of every core other than `d` is
unchanged. -/
theorem C14_steal_donor (NCPU fuel : Nat) (st : Kmem) (L : Nat → List Nat) (c : Nat)
    (hA : Abs NCPU st L) (hc : c < NCPU) (hf : ∀ d, d < NCPU → (L d).length < fuel) :
    ∃ r st1, steal NCPU fuel st c = some (r, st1) ∧
      (r = 0 ↔ ∀ d, d < NCPU → d ≠ c → L d = []) ∧
      ((r = 0 ∧ st1 = st) ∨
       (r ≠ 0 ∧ ∃ d j ret rest, FirstDonor NCPU st c d j ∧ d ≠ c ∧ d < NCPU ∧
        IsList st1.next r ret ∧ ret ++ rest = L d ∧ FreeList st1 d rest ∧
        ∀ e, e < NCPU → e ≠ d → FreeList st1 e (L e))) := by
  obtain ⟨h1, h2, h3⟩ := hA
  rcases donor_or_empty NCPU st hc with he | ⟨d, j, hd⟩
  · refine ⟨0, st, steal_empty hc he, ⟨fun _ d hdN hdc => ?_, fun _ => rfl⟩,
      Or.inl ⟨rfl, rfl⟩⟩
    exact (FreeList.nil_iff (h1 d hdN)).1 (he d hdN hdc)
  · have hdN : d < NCPU := hd.lt
    have hdc : d ≠ c := hd.ne hc
    have hdne : st.freelist d ≠ 0 := hd.2.2.2.1
    have hne : L d ≠ [] := fun h => hdne ((FreeList.nil_iff (h1 d hdN)).2 h)
    obtain ⟨m, st1, _, hs, hfl, hnx, hm, _, hfront, hback⟩ :=
      stealSplit_spec (h1 d hdN) hne (hf d hdN)
    refine ⟨st.freelist d, st1, by rw [steal_donor hc hd, hs],
      ⟨fun h => absurd h hdne, fun h => absurd (h d hdN hdc) hne⟩,
      Or.inr ⟨hdne, d, j, _, _, hd, hdc, hdN, hfront, List.take_append_drop _ _, hback,
        fun e heN hed => ?_⟩⟩
    unfold FreeList
    rw [hfl, hnx, Function.update_noteq hed]
    exact IsList.frame (h1 e heN) (fun hmem => h3 e d heN hdN hed hmem hm)

/-- The state `threeOnCore1` is well formed. -/
theorem threeOnCore1_abs :
    Abs cfgXv6.NCPU threeOnCore1 (fun c => if c = 1 then [pageA, pageB, pageC] else []) := by
  refine ⟨fun c hc => ?_, fun c hc => ?_, fun c d hc hd hcd => ?_⟩
  · by_cases h : c = 1
    · subst h; decide
    · simp only [h, if_false]
      show threeOnCore1.freelist c = 0
      simp [threeOnCore1, h]
  · by_cases h : c = 1
    · subst h; decide
    · simp [h]
  · by_cases h : c = 1
    · have : d ≠ 1 := fun e => hcd (by rw [h, e])
      simp [this]
    · simp [h]

/-- Witness for `C14_steal_donor`: steal(0) in the state where only core 1
has pages. -/
theorem C14_steal_donor_witness :
    Abs cfgXv6.NCPU threeOnCore1 (fun c => if c = 1 then [pageA, pageB, pageC] else []) ∧
    0 < cfgXv6.NCPU ∧
    (∀ d, d < cfgXv6.NCPU →
      ((fun c => if c = 1 then [pageA, pageB, pageC] else []) d).length < 4) ∧
    ∃ r st1, steal cfgXv6.NCPU 4 threeOnCore1 0 = some (r, st1) ∧
      (r = 0 ↔ ∀ d, d < cfgXv6.NCPU → d ≠ 0 →
        (fun c => if c = 1 then [pageA, pageB, pageC] else []) d = []) ∧
      ((r = 0 ∧ st1 = threeOnCore1) ∨
       (r ≠ 0 ∧ ∃ d j ret rest, FirstDonor cfgXv6.NCPU threeOnCore1 0 d j ∧ d ≠ 0 ∧
        d < cfgXv6.NCPU ∧ IsList st1.next r ret ∧
        ret ++ rest = (fun c => if c = 1 then [pageA, pageB, pageC] else []) d ∧
        FreeList st1 d rest ∧
        ∀ e, e < cfgXv6.NCPU → e ≠ d →
          FreeList st1 e ((fun c => if c = 1 then [pageA, pageB, pageC] else []) e))) :=
  ⟨threeOnCore1_abs, by decide, fun d _ => by by_cases h : d = 1 <;> simp [h],
    C14_steal_donor cfgXv6.NCPU 4 threeOnCore1
      (fun c => if c = 1 then [pageA, pageB, pageC] else []) 0 threeOnCore1_abs (by decide)
      (fun d _ => by by_cases h : d = 1 <;> simp [h])⟩

/-- C19: in every allocator state whose per-core free lists are proper,
duplicate-free and pairwise disjoint, kalloc() on any core, with or without
stealing, and kfree(p) of a valid page `p` that is not free keep that
property; a kalloc that returns a page removes exactly that page from the
union of the free lists (and one that returns null changes nothing), and
kfree adds exactly `p`. -/
theorem C19_free_pages_preserved (cfg : Layout) (fuel : Nat) (st : Kmem)
    (L : Nat → List Nat) (hA : Abs cfg.NCPU st L) (hk : 0 < cfg.kend) :
    (∀ cpu, cpu < cfg.NCPU → total cfg.NCPU L < fuel →
      ∃ r st1 M, kalloc cfg.NCPU fuel st cpu = some (r, st1) ∧ Abs cfg.NCPU st1 M ∧
        ((r = 0 ∧ st1 = st ∧ M = L ∧ total cfg.NCPU L = 0) ∨
         (r ≠ 0 ∧ IsFree cfg.NCPU L r ∧ ¬ IsFree cfg.NCPU M r ∧
           total cfg.NCPU M + 1 = total cfg.NCPU L ∧
           ∀ x, x ≠ r → (IsFree cfg.NCPU M x ↔ IsFree cfg.NCPU L x)))) ∧
    (∀ cpu p, cpu < cfg.NCPU → ¬ kfreeBad cfg p → ¬ IsFree cfg.NCPU L p →
      ∃ st1 M, kfree cfg st cpu p = some st1 ∧ Abs cfg.NCPU st1 M ∧
        IsFree cfg.NCPU M p ∧ total cfg.NCPU M = total cfg.NCPU L + 1 ∧
        ∀ x, x ≠ p → (IsFree cfg.NCPU M x ↔ IsFree cfg.NCPU L x)) := by
  constructor
  · intro cpu hc hf
    obtain ⟨r, st1, M, hka, hM, hcase⟩ := kalloc_abs hA hc hf
    refine ⟨r, st1, M, hka, hM, ?_⟩
    rcases hcase with ⟨h1, h2, h3, h4⟩ | ⟨h1, h2, h3, h4⟩
    · exact Or.inl ⟨h1, h3, h4, h2⟩
    · refine Or.inr ⟨h1, (h4 r).2 (Or.inl rfl), fun ⟨c, hcN, hx⟩ => h3 c hcN hx, h2,
        fun x hx => ⟨fun hm => (h4 x).2 (Or.inr hm), fun hl => ?_⟩⟩
      rcases (h4 x).1 hl with h | h
      · exact absurd h hx
      · exact h
  · intro cpu p hc hv hnf
    obtain ⟨st1, hkf, hM⟩ := kfree_abs hA hc hv (valid_ne_zero hk hv)
      (fun d hd hm => hnf ⟨d, hd, hm⟩)
    refine ⟨st1, _, hkf, hM, ⟨cpu, hc, by rw [Function.update_same]; simp⟩, ?_, fun x hx => ?_⟩
    · have := total_update (L := L) (c := cpu) (l := p :: L cpu) (n := cfg.NCPU) hc
      simp only [List.length_cons] at this
      omega
    · constructor
      · rintro ⟨c, hcN, hm⟩
        by_cases hcc : c = cpu
        · rw [hcc, Function.update_same] at hm
          rcases List.mem_cons.1 hm with h | h
          · exact absurd h hx
          · exact ⟨cpu, hc, h⟩
        · rw [Function.update_noteq hcc] at hm
          exact ⟨c, hcN, hm⟩
      · rintro ⟨c, hcN, hm⟩
        by_cases hcc : c = cpu
        · exact ⟨cpu, hc, by rw [Function.update_same, ← hcc]; exact List.mem_cons_of_mem _ hm⟩
        · exact ⟨c, hcN, by rw [Function.update_noteq hcc]; exact hm⟩

/-- Witness for `C19_free_pages_preserved`: the state where only core 1 has
pages. -/
theorem C19_free_pages_preserved_witness :
    (∀ cpu, cpu < cfgXv6.NCPU →
      total cfgXv6.NCPU (fun c => if c = 1 then [pageA, pageB, pageC] else []) < 4 →
      ∃ r st1 M, kalloc cfgXv6.NCPU 4 threeOnCore1 cpu = some (r, st1) ∧
        Abs cfgXv6.NCPU st1 M ∧
        ((r = 0 ∧ st1 = threeOnCore1 ∧
          M = (fun c => if c = 1 then [pageA, pageB, pageC] else []) ∧
          total cfgXv6.NCPU (fun c => if c = 1 then [pageA, pageB, pageC] else []) = 0) ∨
         (r ≠ 0 ∧
           IsFree cfgXv6.NCPU (fun c => if c = 1 then [pageA, pageB, pageC] else []) r ∧
           ¬ IsFree cfgXv6.NCPU M r ∧
           total cfgXv6.NCPU M + 1 =
             total cfgXv6.NCPU (fun c => if c = 1 then [pageA, pageB, pageC] else []) ∧
           ∀ x, x ≠ r → (IsFree cfgXv6.NCPU M x ↔
             IsFree cfgXv6.NCPU (fun c => if c = 1 then [pageA, pageB, pageC] else []) x)))) ∧
    (∀ cpu p, cpu < cfgXv6.NCPU → ¬ kfreeBad cfgXv6 p →
      ¬ IsFree cfgXv6.NCPU (fun c => if c = 1 then [pageA, pageB, pageC] else []) p →
      ∃ st1 M, kfree cfgXv6 threeOnCore1 cpu p = some st1 ∧ Abs cfgXv6.NCPU st1 M ∧
        IsFree cfgXv6.NCPU M p ∧
        total cfgXv6.NCPU M =
          total cfgXv6.NCPU (fun c => if c = 1 then [pageA, pageB, pageC] else []) + 1 ∧
        ∀ x, x ≠ p → (IsFree cfgXv6.NCPU M x ↔
          IsFree cfgXv6.NCPU (fun c => if c = 1 then [pageA, pageB, pageC] else []) x)) :=
  C19_free_pages_preserved cfgXv6 4 threeOnCore1
    (fun c => if c = 1 then [pageA, pageB, pageC] else []) threeOnCore1_abs (by decide)

theorem PGROUNDUP_ge (cfg : Layout) (hP : 0 < cfg.PGSIZE) (a : Nat) : a ≤ PGROUNDUP cfg a := by
  unfold PGROUNDUP
  have h := Nat.lt_div_mul_add (a := a + cfg.PGSIZE - 1) hP
  omega

theorem PGROUNDUP_aligned (cfg : Layout) (a : Nat) : PGROUNDUP cfg a % cfg.PGSIZE = 0 := by
  unfold PGROUNDUP
  exact Nat.mul_mod_left _ _

theorem kfreeAll_append (cfg : Layout) :
    ∀ (xs ys : List (Nat × Nat)) (st : Kmem),
      kfreeAll cfg st (xs ++ ys) = (kfreeAll cfg st xs).bind (fun s => kfreeAll cfg s ys)
  | [], _, _ => rfl
  | (c, p) :: xs, ys, st => by
    simp only [List.cons_append, kfreeAll]
    cases kfree cfg st c p with
    | none => rfl
    | some st1 => exact kfreeAll_append cfg xs ys st1

/-- The loop of freerange from page `p` makes the calls of kfree on the `n`
pages `p, p + PGSIZE, ...` in this order, when `n` is the number of pages
that fit below `pa_end`. -/
theorem freerangeLoop_eq (cfg : Layout) (cpu pa_end : Nat) :
    ∀ (n fuel : Nat) (st : Kmem) (p : Nat), n < fuel →
      (∀ i, i < n → p + i * cfg.PGSIZE + cfg.PGSIZE ≤ pa_end) →
      ¬ (p + n * cfg.PGSIZE + cfg.PGSIZE ≤ pa_end) →
      freerangeLoop cfg cpu pa_end fuel st p =
        kfreeAll cfg st ((List.range n).map (fun i => (cpu, p + i * cfg.PGSIZE)))
  | _, 0, _, _, hf, _, _ => by omega
  | 0, fuel + 1, st, p, _, _, hstop => by
    simp only [freerangeLoop, List.range_zero, List.map_nil, kfreeAll]
    rw [if_neg (by simpa using hstop)]
  | n + 1, fuel + 1, st, p, hf, hfit, hstop => by
    have h0 : p + cfg.PGSIZE ≤ pa_end := by simpa using hfit 0 (by omega)
    rw [List.range_succ_eq_map]
    simp only [freerangeLoop, if_pos h0, List.map_cons, List.map_map, kfreeAll,
      Nat.zero_mul, Nat.add_zero]
    cases kfree cfg st cpu p with
    | none => rfl
    | some st1 =>
      simp only []
      rw [freerangeLoop_eq cfg cpu pa_end n fuel st1 (p + cfg.PGSIZE) (by omega)
        (fun i hi => by
          have := hfit (i + 1) (by omega)
          rw [Nat.succ_mul] at this
          omega)
        (by
          intro hh
          apply hstop
          rw [Nat.succ_mul]
          omega)]
      congr 1
      apply List.map_congr_left
      intro i _
      simp only [Function.comp, Nat.succ_eq_add_one, Nat.succ_mul]
      congr 1
      omega

/-- Pushing valid pages one after the other on core `cpu`: the calls do not
panic, the other cores keep their head pointers, and the head of `cpu` is the
page pushed last. -/
theorem kfreeAll_heads (cfg : Layout) (cpu : Nat) :
    ∀ (ps : List Nat) (st : Kmem), (∀ p, p ∈ ps → ¬ kfreeBad cfg p) →
      ∃ st1, kfreeAll cfg st (ps.map (fun p => (cpu, p))) = some st1 ∧
        (∀ d, d ≠ cpu → st1.freelist d = st.freelist d) ∧
        st1.freelist cpu = (ps.getLast?).getD (st.freelist cpu)
  | [], st, _ => ⟨st, rfl, fun _ _ => rfl, rfl⟩
  | p :: ps, st, hv => by
    have hvp : ¬ kfreeBad cfg p := hv p (List.mem_cons_self _ _)
    obtain ⟨st1, hk1, hd1, hh1⟩ := kfreeAll_heads cfg cpu ps
      { freelist := Function.update st.freelist cpu p
        next := Function.update (Function.update st.next p junkFree) p (st.freelist cpu) }
      (fun q hq => hv q (List.mem_cons_of_mem _ hq))
    refine ⟨st1, ?_, fun d hd => ?_, ?_⟩
    · simp only [List.map_cons, kfreeAll, kfree, if_neg hvp]
      exact hk1
    · rw [hd1 d hd]
      simp only [Function.update_noteq hd]
    · rw [hh1]
      simp only [Function.update_same]
      cases ps with
      | nil => rfl
      | cons q qs =>
        rw [List.getLast?_cons_cons, List.getLast?_eq_getLast _ (List.cons_ne_nil q qs)]
        rfl

/-- Pushing valid, distinct pages that are not free on core `cpu` of a
well-formed state: the list of `cpu` becomes the pages in reverse order
followed by the previous list, and the state stays well formed. -/
theorem kfreeAll_push {cfg : Layout} (hk : 0 < cfg.kend) {cpu : Nat} (hc : cpu < cfg.NCPU) :
    ∀ (ps : List Nat) (st : Kmem) (L : Nat → List Nat), Abs cfg.NCPU st L →
      (∀ p, p ∈ ps → ¬ kfreeBad cfg p) → ps.Nodup → (∀ p, p ∈ ps → ¬ IsFree cfg.NCPU L p) →
      ∃ st1, kfreeAll cfg st (ps.map (fun p => (cpu, p))) = some st1 ∧
        Abs cfg.NCPU st1 (Function.update L cpu (ps.reverse ++ L cpu))
  | [], st, L, hA, _, _, _ => ⟨st, rfl, by simpa using hA⟩
  | p :: ps, st, L, hA, hv, hnd, hnf => by
    have hvp : ¬ kfreeBad cfg p := hv p (List.mem_cons_self _ _)
    have hnd2 := List.nodup_cons.1 hnd
    obtain ⟨st1, hk1, hA1⟩ := kfree_abs hA hc hvp (valid_ne_zero hk hvp)
      (fun d hd hm => hnf p (List.mem_cons_self _ _) ⟨d, hd, hm⟩)
    obtain ⟨st2, hk2, hA2⟩ := kfreeAll_push hk hc ps st1 _ hA1
      (fun q hq => hv q (List.mem_cons_of_mem _ hq)) hnd2.2
      (fun q hq ⟨d, hd, hm⟩ => by
        by_cases hdc : d = cpu
        · rw [hdc, Function.update_same] at hm
          rcases List.mem_cons.1 hm with h | h
          · exact hnd2.1 (by rw [← h]; exact hq)
          · exact hnf q (List.mem_cons_of_mem _ hq) ⟨cpu, hc, h⟩
        · rw [Function.update_noteq hdc] at hm
          exact hnf q (List.mem_cons_of_mem _ hq) ⟨d, hd, hm⟩)
    refine ⟨st2, by simp only [List.map_cons, kfreeAll, hk1]; exact hk2, ?_⟩
    rw [Function.update_same, Function.update_idem] at hA2
    rw [List.reverse_cons, List.append_assoc]
    exact hA2

/-- The pages that freerange frees are exactly the page-aligned addresses `p`
with `PGROUNDUP(pa_start) <= p` and `p + PGSIZE <= pa_end`. -/
theorem mem_freedPages (cfg : Layout) (hP : 0 < cfg.PGSIZE) (pa_start pa_end p : Nat) :
    p ∈ freedPages cfg pa_start pa_end ↔
      p % cfg.PGSIZE = 0 ∧ PGROUNDUP cfg pa_start ≤ p ∧ p + cfg.PGSIZE ≤ pa_end := by
  unfold freedPages
  simp only [List.mem_map, List.mem_range]
  have hR := PGROUNDUP_aligned cfg pa_start
  constructor
  · rintro ⟨i, hi, rfl⟩
    refine ⟨by rw [Nat.add_mul_mod_self_right]; exact hR, Nat.le_add_right _ _, ?_⟩
    have h1 : (i + 1) * cfg.PGSIZE ≤
        (pa_end - PGROUNDUP cfg pa_start) / cfg.PGSIZE * cfg.PGSIZE :=
      Nat.mul_le_mul_right _ hi
    have h2 := Nat.div_mul_le_self (pa_end - PGROUNDUP cfg pa_start) cfg.PGSIZE
    rw [Nat.add_mul, Nat.one_mul] at h1
    omega
  · rintro ⟨hal, hge, hle⟩
    have hdvd : cfg.PGSIZE ∣ p - PGROUNDUP cfg pa_start :=
      Nat.dvd_sub' (Nat.dvd_of_mod_eq_zero hal) (Nat.dvd_of_mod_eq_zero hR)
    have hmul := Nat.div_mul_cancel hdvd
    refine ⟨(p - PGROUNDUP cfg pa_start) / cfg.PGSIZE, ?_, by rw [hmul]; omega⟩
    apply Nat.lt_of_succ_le
    rw [Nat.le_div_iff_mul_le hP, Nat.succ_mul, hmul]
    omega

/-- The pages that freerange frees pass the validation of kfree. -/
theorem freedPages_valid (cfg : Layout) (hP : 0 < cfg.PGSIZE) {pa_start pa_end : Nat}
    (hs : cfg.kend ≤ pa_start) (he : pa_end ≤ cfg.PHYSTOP) (p : Nat)
    (hp : p ∈ freedPages cfg pa_start pa_end) : ¬ kfreeBad cfg p := by
  obtain ⟨h1, h2, h3⟩ := (mem_freedPages cfg hP pa_start pa_end p).1 hp
  have := PGROUNDUP_ge cfg hP pa_start
  unfold kfreeBad
  omega

theorem freedPages_sorted (cfg : Layout) (hP : 0 < cfg.PGSIZE) (pa_start pa_end : Nat) :
    (freedPages cfg pa_start pa_end).Pairwise (fun a b => a < b) := by
  unfold freedPages
  rw [List.pairwise_map]
  refine List.Pairwise.imp ?_ (List.pairwise_lt_range _)
  intro a b hab
  have := Nat.mul_lt_mul_of_pos_right hab hP
  omega

/-- C20: for every `pa_start >= end` and `pa_end <= PHYSTOP` (addresses are
natural numbers, so nothing overflows), freerange(pa_start, pa_end) never
reaches the fatal path of kfree; it calls kfree exactly on the page-aligned
addresses `p` with `PGROUNDUP(pa_start) <= p` and `p + PGSIZE <= pa_end`,
each once and in ascending order, which are
`floor((pa_end - PGROUNDUP(pa_start)) / PGSIZE)` pages (none when
`pa_end < PGROUNDUP(pa_start) + PGSIZE`); all are pushed on the calling
core's free list, whose head ends up the highest address, and in a
well-formed state in which these pages are not free that list becomes the
pages in descending order followed by the previous list, the other lists
being unchanged. -/
theorem C20_freerange (cfg : Layout) (fuel : Nat) (st : Kmem) (cpu pa_start pa_end : Nat)
    (hP : 0 < cfg.PGSIZE) (hs : cfg.kend ≤ pa_start) (he : pa_end ≤ cfg.PHYSTOP)
    (hf : (pa_end - PGROUNDUP cfg pa_start) / cfg.PGSIZE < fuel) :
    (∀ p, p ∈ freedPages cfg pa_start pa_end ↔
      p % cfg.PGSIZE = 0 ∧ PGROUNDUP cfg pa_start ≤ p ∧ p + cfg.PGSIZE ≤ pa_end) ∧
    (freedPages cfg pa_start pa_end).Pairwise (fun a b => a < b) ∧
    (freedPages cfg pa_start pa_end).length =
      (pa_end - PGROUNDUP cfg pa_start) / cfg.PGSIZE ∧
    (pa_end < PGROUNDUP cfg pa_start + cfg.PGSIZE → freedPages cfg pa_start pa_end = []) ∧
    ∃ st1, freerange cfg fuel st cpu pa_start pa_end = some st1 ∧
      kfreeAll cfg st ((freedPages cfg pa_start pa_end).map (fun p => (cpu, p))) = some st1 ∧
      (∀ d, d ≠ cpu → st1.freelist d = st.freelist d) ∧
      st1.freelist cpu = ((freedPages cfg pa_start pa_end).getLast?).getD (st.freelist cpu) ∧
      ∀ L, Abs cfg.NCPU st L → cpu < cfg.NCPU → 0 < cfg.kend →
        (∀ p, p ∈ freedPages cfg pa_start pa_end → ¬ IsFree cfg.NCPU L p) →
        Abs cfg.NCPU st1
          (Function.update L cpu ((freedPages cfg pa_start pa_end).reverse ++ L cpu)) := by
  have hlen : (freedPages cfg pa_start pa_end).length =
      (pa_end - PGROUNDUP cfg pa_start) / cfg.PGSIZE := by
    unfold freedPages; simp
  have hvalid := freedPages_valid cfg hP hs he
  have hsorted := freedPages_sorted cfg hP pa_start pa_end
  refine ⟨mem_freedPages cfg hP pa_start pa_end, hsorted, hlen, ?_, ?_⟩
  · intro hlt
    apply List.eq_nil_of_length_eq_zero
    rw [hlen]
    apply Nat.div_eq_of_lt
    omega
  · obtain ⟨st1, hk1, hd1, hh1⟩ := kfreeAll_heads cfg cpu (freedPages cfg pa_start pa_end) st
      hvalid
    have hloop : freerange cfg fuel st cpu pa_start pa_end =
        kfreeAll cfg st ((freedPages cfg pa_start pa_end).map (fun p => (cpu, p))) := by
      unfold freerange freedPages
      rw [List.map_map]
      refine freerangeLoop_eq cfg cpu pa_end _ fuel st _ hf (fun i hi => ?_) (fun hh => ?_)
      · have h1 : (i + 1) * cfg.PGSIZE ≤
            (pa_end - PGROUNDUP cfg pa_start) / cfg.PGSIZE * cfg.PGSIZE :=
          Nat.mul_le_mul_right _ hi
        have h2 := Nat.div_mul_le_self (pa_end - PGROUNDUP cfg pa_start) cfg.PGSIZE
        rw [Nat.add_mul, Nat.one_mul] at h1
        omega
      · have h3 := Nat.lt_div_mul_add (a := pa_end - PGROUNDUP cfg pa_start) hP
        omega
    refine ⟨st1, by rw [hloop]; exact hk1, hk1, hd1, hh1, fun L hA hc hk hnf => ?_⟩
    obtain ⟨st2, hk2, hA2⟩ := kfreeAll_push hk hc (freedPages cfg pa_start pa_end) st L hA
      hvalid (hsorted.imp (fun h => Nat.ne_of_lt h)) hnf
    rw [hk1] at hk2
    cases hk2
    exact hA2

/-- Witness for `C20_freerange`: core 0 of an empty allocator frees the range
from 0x87ffd001 to PHYSTOP, which holds the two pages `pageB` and `pageA`. -/
theorem C20_freerange_witness :
    freedPages cfgXv6 0x87ffd001 0x88000000 = [pageB, pageA] ∧
    (∀ p, p ∈ freedPages cfgXv6 0x87ffd001 0x88000000 ↔
      p % cfgXv6.PGSIZE = 0 ∧ PGROUNDUP cfgXv6 0x87ffd001 ≤ p ∧
        p + cfgXv6.PGSIZE ≤ 0x88000000) ∧
    (freedPages cfgXv6 0x87ffd001 0x88000000).Pairwise (fun a b => a < b) ∧
    (freedPages cfgXv6 0x87ffd001 0x88000000).length =
      (0x88000000 - PGROUNDUP cfgXv6 0x87ffd001) / cfgXv6.PGSIZE ∧
    (0x88000000 < PGROUNDUP cfgXv6 0x87ffd001 + cfgXv6.PGSIZE →
      freedPages cfgXv6 0x87ffd001 0x88000000 = []) ∧
    ∃ st1, freerange cfgXv6 3 emptyKmem 0 0x87ffd001 0x88000000 = some st1 ∧
      kfreeAll cfgXv6 emptyKmem
        ((freedPages cfgXv6 0x87ffd001 0x88000000).map (fun p => (0, p))) = some st1 ∧
      (∀ d, d ≠ 0 → st1.freelist d = emptyKmem.freelist d) ∧
      st1.freelist 0 =
        ((freedPages cfgXv6 0x87ffd001 0x88000000).getLast?).getD (emptyKmem.freelist 0) ∧
      ∀ L, Abs cfgXv6.NCPU emptyKmem L → 0 < cfgXv6.NCPU → 0 < cfgXv6.kend →
        (∀ p, p ∈ freedPages cfgXv6 0x87ffd001 0x88000000 → ¬ IsFree cfgXv6.NCPU L p) →
        Abs cfgXv6.NCPU st1
          (Function.update L 0 ((freedPages cfgXv6 0x87ffd001 0x88000000).reverse ++ L 0)) :=
  ⟨by decide, C20_freerange cfgXv6 3 emptyKmem 0 0x87ffd001 0x88000000 (by decide) (by decide)
    (by decide) (by decide)⟩

end Kalloc

/-! ## Theorems about kernel/bio.c -/

namespace Bio

theorem HASH_lt (blockno : Nat) : HASH blockno < NBUCKET := Nat.mod_lt _ (by decide)

@[simp] theorem setBuf_size (s : BCache) (b : Nat) (v : Buf) : (s.setBuf b v).size = s.size := rfl

@[simp] theorem setBuf_buckets (s : BCache) (b : Nat) (v : Buf) :
    (s.setBuf b v).buckets = s.buckets := rfl

@[simp] theorem setBuf_same (s : BCache) (b : Nat) (v : Buf) : (s.setBuf b v).buf b = v := by
  simp [BCache.setBuf]

theorem setBuf_other (s : BCache) {b c : Nat} (v : Buf) (h : c ≠ b) :
    (s.setBuf b v).buf c = s.buf c := by
  simp [BCache.setBuf, Function.update_noteq h]

@[simp] theorem setBucket_size (s : BCache) (i : Nat) (v : Option Nat) :
    (s.setBucket i v).size = s.size := rfl

@[simp] theorem setBucket_buf (s : BCache) (i : Nat) (v : Option Nat) :
    (s.setBucket i v).buf = s.buf := rfl

@[simp] theorem setBucket_same (s : BCache) (i : Nat) (v : Option Nat) :
    (s.setBucket i v).buckets i = v := by
  simp [BCache.setBucket]

theorem setBucket_other (s : BCache) {i k : Nat} (v : Option Nat) (h : k ≠ i) :
    (s.setBucket i v).buckets k = s.buckets k := by
  simp [BCache.setBucket, Function.update_noteq h]

/-- A chain only depends on the `next` fields of its own slots. -/
theorem IsChain.chain_frame {s t : BCache} :
    ∀ {l : List Nat} {p : Option Nat}, IsChain s p l →
      (∀ b, b ∈ l → (t.buf b).next = (s.buf b).next) → IsChain t p l
  | [], _, h, _ => h
  | b :: l, _, h, hn => by
    refine ⟨h.1, ?_⟩
    rw [hn b (List.mem_cons_self _ _)]
    exact IsChain.chain_frame h.2 (fun c hc => hn c (List.mem_cons_of_mem _ hc))

theorem IsChain.chain_unique {s : BCache} :
    ∀ {l m : List Nat} {p : Option Nat}, IsChain s p l → IsChain s p m → l = m
  | [], [], _, _, _ => rfl
  | [], b :: _, p, h, h1 => by
    have h0 : p = none := h
    have h2 : p = some b := h1.1
    rw [h0] at h2; cases h2
  | a :: _, [], p, h, h1 => by
    have h0 : p = none := h1
    have h2 : p = some a := h.1
    rw [h0] at h2; cases h2
  | a :: l, b :: m, p, h, h1 => by
    have h2 : p = some a := h.1
    have h3 : p = some b := h1.1
    rw [h2] at h3
    cases h3
    rw [IsChain.chain_unique h.2 h1.2]

/-- The chain that follows an occurrence of `a` starts at `a->next`. -/
theorem IsChain.chain_after {s : BCache} {a : Nat} {l2 : List Nat} :
    ∀ (l1 : List Nat) {p : Option Nat}, IsChain s p (l1 ++ a :: l2) →
      IsChain s (s.buf a).next l2
  | [], _, h => h.2
  | _ :: l1, _, h => IsChain.chain_after l1 h.2

/-- A null-terminated chain visits no slot twice. -/
theorem IsChain.chain_nodup {s : BCache} :
    ∀ {l : List Nat} {p : Option Nat}, IsChain s p l → l.Nodup
  | [], _, _ => List.nodup_nil
  | a :: l, _, h => by
    refine List.nodup_cons.2 ⟨fun hm => ?_, IsChain.chain_nodup h.2⟩
    obtain ⟨l1, l2, rfl⟩ := List.append_of_mem hm
    have := congrArg List.length (IsChain.chain_unique h.2 (IsChain.chain_after l1 h.2))
    simp at this
    omega

/-- A list of distinct slots below `n` has at most `n` entries. -/
theorem length_le_of_nodup {l : List Nat} {n : Nat} (hnd : l.Nodup) (hlt : ∀ b, b ∈ l → b < n) :
    l.length ≤ n := by
  have hsub : l ⊆ List.range n := fun b hb => List.mem_range.2 (hlt b hb)
  have := (List.subperm_of_subset hnd hsub).length_le
  simpa using this

theorem Inv.length_le {NBUF : Nat} {s : BCache} {L : Nat → List Nat} (h : Inv NBUF s L)
    {i : Nat} (hi : i < NBUCKET) : (L i).length ≤ s.size :=
  length_le_of_nodup (IsChain.chain_nodup (h.chain i hi)) (fun b hb => (h.mem_lt i hi b hb).1)

theorem toUint_neg_one : toUint (-1) = UINT - 1 := by decide

theorem toUint_toInt {t : Nat} (h : t < UINT) : toUint (toInt t) = t := by
  unfold toUint toInt UINT at *
  split
  · next h1 =>
    have : ((t : Int) % ((2 ^ 32 : Nat) : Int)) = t := Int.emod_eq_of_lt (by omega) (by omega)
    rw [this]; simp
  · next h1 =>
    have : (((t : Int) - ((2 ^ 32 : Nat) : Int)) % ((2 ^ 32 : Nat) : Int)) = t := by
      rw [Int.sub_emod, Int.emod_self, Int.sub_zero, Int.emod_emod_of_dvd _ (dvd_refl _)]
      exact Int.emod_eq_of_lt (by omega) (by omega)
    rw [this]; simp

/-- A slot found by the first loop of bget names the requested block. -/
theorem lookup_match {s : BCache} {dev blockno : Nat} :
    ∀ (fuel : Nat) (p : Option Nat) {b : Nat}, lookup s dev blockno fuel p = some (some b) →
      (s.buf b).dev = dev ∧ (s.buf b).blockno = blockno
  | 0, _, _, h => by simp [lookup] at h
  | _ + 1, none, _, h => by simp [lookup] at h
  | fuel + 1, some c, b, h => by
    unfold lookup at h
    split at h
    · next hm => cases h; exact hm
    · exact lookup_match fuel _ h

/-- On a chain, the first loop of bget finds a slot of the chain. -/
theorem lookup_mem {s : BCache} {dev blockno : Nat} :
    ∀ (fuel : Nat) {l : List Nat} {p : Option Nat} {b : Nat}, IsChain s p l →
      lookup s dev blockno fuel p = some (some b) → b ∈ l
  | 0, _, _, _, _, h => by simp [lookup] at h
  | _ + 1, [], p, _, hc, h => by
    have : p = none := hc
    subst this
    simp [lookup] at h
  | fuel + 1, c :: l, p, b, hc, h => by
    have : p = some c := hc.1
    subst this
    unfold lookup at h
    split at h
    · cases h; exact List.mem_cons_self _ _
    · exact List.mem_cons_of_mem _ (lookup_mem fuel hc.2 h)

/-- On a chain, a miss of the first loop of bget means that no slot of the
chain names the requested block. -/
theorem lookup_miss {s : BCache} {dev blockno : Nat} :
    ∀ (fuel : Nat) {l : List Nat} {p : Option Nat}, IsChain s p l →
      lookup s dev blockno fuel p = some none →
      ∀ b, b ∈ l → ¬ ((s.buf b).dev = dev ∧ (s.buf b).blockno = blockno)
  | 0, _, _, _, h => by simp [lookup] at h
  | _ + 1, [], _, _, _ => by simp
  | fuel + 1, c :: l, p, hc, h => by
    have : p = some c := hc.1
    subst this
    unfold lookup at h
    split at h
    · cases h
    · next hm =>
      intro b hb
      rcases List.mem_cons.1 hb with hb | hb
      · rw [hb]; exact hm
      · exact lookup_miss fuel hc.2 h b hb

/-- On a chain shorter than the fuel, the first loop of bget finishes. -/
theorem lookup_fuel (s : BCache) (dev blockno : Nat) :
    ∀ (fuel : Nat) {l : List Nat} {p : Option Nat}, IsChain s p l → l.length < fuel →
      lookup s dev blockno fuel p ≠ none
  | 0, _, _, _, h => by omega
  | _ + 1, [], p, hc, _ => by
    have : p = none := hc
    subst this
    simp [lookup]
  | fuel + 1, c :: l, p, hc, hf => by
    have : p = some c := hc.1
    subst this
    unfold lookup
    split
    · simp
    · exact lookup_fuel s dev blockno fuel hc.2 (by simpa using hf)

/-- A slot that the eviction scan reports as a match names the requested
block and the scanned bucket is the target bucket. -/
theorem scan_hit_match {s : BCache} {dev blockno idx : Nat} :
    ∀ (fuel : Nat) (pre : Pre) (p : Option Nat) (mt : Int) (m : Option (Nat × Pre)) {b : Nat},
      scan s dev blockno idx fuel pre p mt m = .hit b →
      idx = HASH blockno ∧ (s.buf b).dev = dev ∧ (s.buf b).blockno = blockno
  | 0, _, _, _, _, _, h => by simp [scan] at h
  | _ + 1, _, none, _, _, _, h => by simp [scan] at h
  | fuel + 1, pre, some c, mt, m, b, h => by
    unfold scan at h
    split at h
    · next hm => cases h; exact hm
    · split at h
      · exact scan_hit_match fuel _ _ _ _ h
      · exact scan_hit_match fuel _ _ _ _ h

theorem scan_hit_mem {s : BCache} {dev blockno idx : Nat} :
    ∀ (fuel : Nat) {l : List Nat} (pre : Pre) {p : Option Nat} (mt : Int)
      (m : Option (Nat × Pre)) {b : Nat}, IsChain s p l →
      scan s dev blockno idx fuel pre p mt m = .hit b → b ∈ l
  | 0, _, _, _, _, _, _, _, h => by simp [scan] at h
  | _ + 1, [], _, p, _, _, _, hc, h => by
    have : p = none := hc
    subst this
    simp [scan] at h
  | fuel + 1, c :: l, pre, p, mt, m, b, hc, h => by
    have : p = some c := hc.1
    subst this
    unfold scan at h
    split at h
    · cases h; exact List.mem_cons_self _ _
    · split at h
      · exact List.mem_cons_of_mem _ (scan_hit_mem fuel _ _ _ hc.2 h)
      · exact List.mem_cons_of_mem _ (scan_hit_mem fuel _ _ _ hc.2 h)

theorem lastPre_nil (pre0 : Pre) : lastPre pre0 [] = pre0 := rfl

theorem lastPre_cons (pre0 : Pre) (c : Nat) (l : List Nat) :
    lastPre pre0 (c :: l) = lastPre (.slot c) l := by
  unfold lastPre
  cases l with
  | nil => rfl
  | cons d l =>
    rw [List.getLast?_cons_cons]
    rw [List.getLast?_eq_getLast _ (List.cons_ne_nil d l)]

/-- The victim that the eviction scan of a chain ends with is either the one
it started with or an idle slot of the chain, paired with its predecessor. -/
theorem scan_victim {s : BCache} {dev blockno idx : Nat} :
    ∀ (fuel : Nat) {l : List Nat} (pre : Pre) {p : Option Nat} (mt : Int)
      (m : Option (Nat × Pre)) {b : Nat} {q : Pre}, IsChain s p l →
      scan s dev blockno idx fuel pre p mt m = .done (some (b, q)) →
      m = some (b, q) ∨
        ∃ l1 l2, l = l1 ++ b :: l2 ∧ q = lastPre pre l1 ∧ (s.buf b).refcnt = 0
  | 0, _, _, _, _, _, _, _, _, h => by simp [scan] at h
  | _ + 1, [], _, p, _, m, _, _, hc, h => by
    have : p = none := hc
    subst this
    simp only [scan, ScanRes.done.injEq] at h
    exact Or.inl h
  | fuel + 1, c :: l, pre, p, mt, m, b, q, hc, h => by
    have : p = some c := hc.1
    subst this
    unfold scan at h
    split at h
    · cases h
    · split at h
      · next hcand =>
        rcases scan_victim fuel _ _ _ hc.2 h with h1 | ⟨l1, l2, h1, h2, h3⟩
        · right
          cases h1
          exact ⟨[], l, rfl, rfl, hcand.1⟩
        · right
          exact ⟨c :: l1, l2, by rw [h1]; rfl, by rw [lastPre_cons]; exact h2, h3⟩
      · rcases scan_victim fuel _ _ _ hc.2 h with h1 | ⟨l1, l2, h1, h2, h3⟩
        · exact Or.inl h1
        · right
          exact ⟨c :: l1, l2, by rw [h1]; rfl, by rw [lastPre_cons]; exact h2, h3⟩

/-- When the eviction scan of a chain ends without a victim, it started
without one and no slot of the chain is both idle and stamped below the
current `mintime`. -/
theorem scan_none {s : BCache} {dev blockno idx : Nat} :
    ∀ (fuel : Nat) {l : List Nat} (pre : Pre) {p : Option Nat} (mt : Int)
      (m : Option (Nat × Pre)), IsChain s p l →
      scan s dev blockno idx fuel pre p mt m = .done none →
      m = none ∧ ∀ b, b ∈ l → ¬ ((s.buf b).refcnt = 0 ∧ (s.buf b).time < toUint mt)
  | 0, _, _, _, _, _, _, h => by simp [scan] at h
  | _ + 1, [], _, p, _, m, hc, h => by
    have : p = none := hc
    subst this
    simp only [scan, ScanRes.done.injEq] at h
    exact ⟨h, by simp⟩
  | fuel + 1, c :: l, pre, p, mt, m, hc, h => by
    have : p = some c := hc.1
    subst this
    unfold scan at h
    split at h
    · cases h
    · split at h
      · have := (scan_none fuel _ _ _ hc.2 h).1
        cases this
      · next hcand =>
        obtain ⟨h1, h2⟩ := scan_none fuel _ _ _ hc.2 h
        refine ⟨h1, fun b hb => ?_⟩
        rcases List.mem_cons.1 hb with hb | hb
        · rw [hb]; exact hcand
        · exact h2 b hb

/-- On a chain shorter than the fuel, the eviction scan finishes. -/
theorem scan_fuel (s : BCache) (dev blockno idx : Nat) :
    ∀ (fuel : Nat) {l : List Nat} (pre : Pre) {p : Option Nat} (mt : Int)
      (m : Option (Nat × Pre)), IsChain s p l → l.length < fuel →
      scan s dev blockno idx fuel pre p mt m ≠ .hang
  | 0, _, _, _, _, _, _, h => by omega
  | _ + 1, [], _, p, _, _, hc, _ => by
    have : p = none := hc
    subst this
    simp [scan]
  | fuel + 1, c :: l, pre, p, mt, m, hc, hf => by
    have : p = some c := hc.1
    subst this
    unfold scan
    split
    · simp
    · split
      · exact scan_fuel s dev blockno idx fuel _ _ _ hc.2 (by simpa using hf)
      · exact scan_fuel s dev blockno idx fuel _ _ _ hc.2 (by simpa using hf)

/-! ### Field-by-field description of `recycle` and `claim` -/

theorem recycle_size (s : BCache) (dev blockno idx minb : Nat) (minpre : Pre) :
    (recycle s dev blockno idx minb minpre).size = s.size := by
  unfold recycle setPreNext
  cases minpre <;> simp only [] <;> split <;> rfl

theorem recycle_buf_minb (s : BCache) (dev blockno idx minb : Nat) (minpre : Pre) :
    ((recycle s dev blockno idx minb minpre).buf minb).dev = dev ∧
    ((recycle s dev blockno idx minb minpre).buf minb).blockno = blockno ∧
    ((recycle s dev blockno idx minb minpre).buf minb).valid = false ∧
    ((recycle s dev blockno idx minb minpre).buf minb).refcnt = 1 ∧
    ((recycle s dev blockno idx minb minpre).buf minb).time = (s.buf minb).time ∧
    ((recycle s dev blockno idx minb minpre).buf minb).data = (s.buf minb).data ∧
    ((recycle s dev blockno idx minb minpre).buf minb).lock = (s.buf minb).lock := by
  unfold recycle setPreNext
  cases minpre with
  | sentinel => split <;> simp
  | slot p =>
    by_cases hp : p = minb
    · subst hp; split <;> simp
    · split <;> simp [setBuf_other _ _ (Ne.symm hp)]

theorem recycle_buf_other (s : BCache) (dev blockno idx minb : Nat) (minpre : Pre) {b : Nat}
    (hb : b ≠ minb) :
    ((recycle s dev blockno idx minb minpre).buf b).dev = (s.buf b).dev ∧
    ((recycle s dev blockno idx minb minpre).buf b).blockno = (s.buf b).blockno ∧
    ((recycle s dev blockno idx minb minpre).buf b).valid = (s.buf b).valid ∧
    ((recycle s dev blockno idx minb minpre).buf b).refcnt = (s.buf b).refcnt ∧
    ((recycle s dev blockno idx minb minpre).buf b).time = (s.buf b).time ∧
    ((recycle s dev blockno idx minb minpre).buf b).data = (s.buf b).data ∧
    ((recycle s dev blockno idx minb minpre).buf b).lock = (s.buf b).lock := by
  unfold recycle setPreNext
  cases minpre with
  | sentinel => split <;> simp [setBuf_other _ _ hb]
  | slot p =>
    by_cases hp : b = p
    · subst hp; split <;> simp [setBuf_other _ _ hb]
    · split <;> simp [setBuf_other _ _ hb, setBuf_other _ _ hp]

/-- A victim found in the target bucket is not relinked. -/
theorem recycle_same_bucket (s : BCache) (dev blockno minb : Nat) (minpre : Pre) :
    (recycle s dev blockno (HASH blockno) minb minpre).buckets = s.buckets ∧
    ∀ b, ((recycle s dev blockno (HASH blockno) minb minpre).buf b).next = (s.buf b).next := by
  unfold recycle
  simp only [ne_eq, not_true_eq_false, if_false, setBuf_buckets, true_and]
  intro b
  by_cases hb : b = minb
  · subst hb; simp
  · simp [setBuf_other _ _ hb]

/-- The bucket heads after a victim has moved to the target bucket. -/
theorem recycle_buckets (s : BCache) (dev blockno idx minb : Nat) (minpre : Pre)
    (hidx : idx ≠ HASH blockno) (k : Nat) :
    (recycle s dev blockno idx minb minpre).buckets k =
      if k = HASH blockno then some minb
      else if k = idx ∧ minpre = .sentinel then (s.buf minb).next
      else s.buckets k := by
  unfold recycle setPreNext
  simp only [hidx, ne_eq, not_false_eq_true, if_true]
  by_cases hk : k = HASH blockno
  · subst hk; cases minpre <;> simp
  · rw [if_neg hk]
    cases minpre with
    | sentinel =>
      by_cases hki : k = idx
      · subst hki; simp [setBucket_other _ _ hk]
      · simp [setBucket_other _ _ hk, setBucket_other _ _ hki, hki]
    | slot p => simp [setBucket_other _ _ hk]

/-- The `next` fields after a victim has moved to the target bucket. -/
theorem recycle_next (s : BCache) (dev blockno idx minb : Nat) (minpre : Pre)
    (hidx : idx ≠ HASH blockno) (b : Nat) :
    ((recycle s dev blockno idx minb minpre).buf b).next =
      if b = minb then s.buckets (HASH blockno)
      else if minpre = .slot b then (s.buf minb).next
      else (s.buf b).next := by
  unfold recycle setPreNext
  simp only [hidx, ne_eq, not_false_eq_true, if_true]
  by_cases hb : b = minb
  · subst hb
    cases minpre with
    | sentinel => simp [setBucket_other _ _ (Ne.symm hidx)]
    | slot p => simp
  · rw [if_neg hb]
    cases minpre with
    | sentinel => simp [setBuf_other _ _ hb]
    | slot p =>
      by_cases hp : b = p
      · subst hp; simp [setBuf_other _ _ hb]
      · have : ¬ p = b := fun h => hp h.symm
        simp [setBuf_other _ _ hb, setBuf_other _ _ hp, this]

theorem claim_size (s : BCache) (dev blockno : Nat) : (claim s dev blockno).size = s.size + 1 :=
  rfl

theorem claim_buckets (s : BCache) (dev blockno k : Nat) :
    (claim s dev blockno).buckets k =
      if k = HASH blockno then some s.size else s.buckets k := by
  unfold claim
  by_cases hk : k = HASH blockno
  · subst hk; simp
  · simp [setBucket_other _ _ hk, hk]

theorem claim_buf_new (s : BCache) (dev blockno : Nat) :
    (claim s dev blockno).buf s.size =
      { s.buf s.size with dev := dev, blockno := blockno, valid := false, refcnt := 1,
                          next := s.buckets (HASH blockno) } := by
  unfold claim
  simp [BCache.setBuf, BCache.setBucket]

theorem claim_buf_other (s : BCache) (dev blockno : Nat) {b : Nat} (hb : b ≠ s.size) :
    (claim s dev blockno).buf b = s.buf b := by
  unfold claim
  simp [BCache.setBuf, BCache.setBucket, Function.update_noteq hb]

/-- The structure is kept by any change that leaves the size, the bucket
heads and the `dev`, `blockno` and `next` fields alone. -/
theorem Inv.of_skel {NBUF : Nat} {s t : BCache} {L : Nat → List Nat} (h : Inv NBUF s L)
    (hsz : t.size = s.size) (hbk : t.buckets = s.buckets)
    (hf : ∀ b, (t.buf b).dev = (s.buf b).dev ∧ (t.buf b).blockno = (s.buf b).blockno ∧
      (t.buf b).next = (s.buf b).next)
    (ht : ∀ b, (t.buf b).time < UINT) (hr : ∀ b, (t.buf b).refcnt < UINT) : Inv NBUF t L where
  size_le := by rw [hsz]; exact h.size_le
  chain := fun i hi => by
    unfold Bucket
    rw [hbk]
    exact IsChain.chain_frame (h.chain i hi) (fun b _ => (hf b).2.2)
  mem_lt := fun i hi b hb => by
    rw [hsz, (hf b).2.1]; exact h.mem_lt i hi b hb
  mem_of := fun b hb => by
    rw [(hf b).2.1]; exact h.mem_of b (by rw [← hsz]; exact hb)
  uniq := fun a b ha hb hd hn => by
    rw [hsz] at ha hb
    rw [(hf a).1, (hf b).1] at hd
    rw [(hf a).2.1, (hf b).2.1] at hn
    exact h.uniq a b ha hb hd hn
  time_lt := ht
  refcnt_lt := hr

/-- A slot sits in one bucket only. -/
theorem Inv.bucket_eq {NBUF : Nat} {s : BCache} {L : Nat → List Nat} (h : Inv NBUF s L)
    {i k b : Nat} (hi : i < NBUCKET) (hk : k < NBUCKET) (hbi : b ∈ L i) (hbk : b ∈ L k) :
    i = k := by
  rw [← (h.mem_lt i hi b hbi).2, ← (h.mem_lt k hk b hbk).2]

/-- A request that the first loop of bget misses is not cached at all. -/
theorem Inv.not_cached {NBUF : Nat} {s : BCache} {L : Nat → List Nat} (h : Inv NBUF s L)
    {dev blockno : Nat}
    (hmiss : ∀ b, b ∈ L (HASH blockno) → ¬ ((s.buf b).dev = dev ∧ (s.buf b).blockno = blockno))
    (b : Nat) (hb : b < s.size) : ¬ ((s.buf b).dev = dev ∧ (s.buf b).blockno = blockno) := by
  intro hm
  apply hmiss b _ hm
  have := h.mem_of b hb
  rw [hm.2] at this
  exact this

/-- The second path of bget keeps the structure: the claimed slot becomes the
head of the target bucket's chain. -/
theorem Inv.claim {NBUF : Nat} {s : BCache} {L : Nat → List Nat} (h : Inv NBUF s L)
    {dev blockno : Nat} (hsz : s.size < NBUF)
    (hnc : ∀ b, b < s.size → ¬ ((s.buf b).dev = dev ∧ (s.buf b).blockno = blockno)) :
    Inv NBUF (claim s dev blockno)
      (Function.update L (HASH blockno) (s.size :: L (HASH blockno))) where
  size_le := by rw [claim_size]; omega
  chain := fun i hi => by
    unfold Bucket
    rw [claim_buckets]
    have hfr : ∀ k, k < NBUCKET → IsChain (Bio.claim s dev blockno) (s.buckets k) (L k) :=
      fun k hk => IsChain.chain_frame (h.chain k hk) (fun b hb => by
        rw [claim_buf_other s dev blockno (by have := (h.mem_lt k hk b hb).1; omega)])
    by_cases hik : i = HASH blockno
    · subst hik
      rw [if_pos rfl, Function.update_same]
      refine ⟨rfl, ?_⟩
      rw [claim_buf_new]
      exact hfr _ hi
    · rw [if_neg hik, Function.update_noteq hik]
      exact hfr i hi
  mem_lt := fun i hi b hb => by
    rw [claim_size]
    by_cases hik : i = HASH blockno
    · subst hik
      rw [Function.update_same] at hb
      rcases List.mem_cons.1 hb with hb | hb
      · subst hb
        rw [claim_buf_new]
        exact ⟨by omega, rfl⟩
      · have := h.mem_lt _ hi b hb
        rw [claim_buf_other s dev blockno (by omega)]
        exact ⟨by omega, this.2⟩
    · rw [Function.update_noteq hik] at hb
      have := h.mem_lt _ hi b hb
      rw [claim_buf_other s dev blockno (by omega)]
      exact ⟨by omega, this.2⟩
  mem_of := fun b hb => by
    rw [claim_size] at hb
    by_cases hbs : b = s.size
    · subst hbs
      rw [claim_buf_new]
      simp only [Function.update_same]
      exact List.mem_cons_self _ _
    · rw [claim_buf_other s dev blockno hbs]
      have := h.mem_of b (by omega)
      by_cases hik : HASH (s.buf b).blockno = HASH blockno
      · rw [hik, Function.update_same]
        rw [hik] at this
        exact List.mem_cons_of_mem _ this
      · rw [Function.update_noteq hik]
        exact this
  uniq := fun a b ha hb hd hn => by
    rw [claim_size] at ha hb
    by_cases has : a = s.size
    · by_cases hbs : b = s.size
      · rw [has, hbs]
      · exfalso
        subst has
        rw [claim_buf_new, claim_buf_other s dev blockno hbs] at hd hn
        exact hnc b (by omega) ⟨hd.symm, hn.symm⟩
    · by_cases hbs : b = s.size
      · exfalso
        subst hbs
        rw [claim_buf_new, claim_buf_other s dev blockno has] at hd hn
        exact hnc a (by omega) ⟨hd, hn⟩
      · rw [claim_buf_other s dev blockno has, claim_buf_other s dev blockno hbs] at hd hn
        exact h.uniq a b (by omega) (by omega) hd hn
  time_lt := fun b => by
    by_cases hbs : b = s.size
    · subst hbs; rw [claim_buf_new]; exact h.time_lt _
    · rw [claim_buf_other s dev blockno hbs]; exact h.time_lt _
  refcnt_lt := fun b => by
    by_cases hbs : b = s.size
    · subst hbs; rw [claim_buf_new]; show (1 : Nat) < UINT; decide
    · rw [claim_buf_other s dev blockno hbs]; exact h.refcnt_lt _

/-- Unlinking slot `b` from a chain: when the predecessor's `next` (or the
head, for the first slot) takes over `b->next` and all other `next` fields of
the chain stay, the chain is the old one without `b`. -/
theorem IsChain.unlink {s t : BCache} {b : Nat} {l2 : List Nat} :
    ∀ (l1 : List Nat) {p q : Option Nat}, IsChain s p (l1 ++ b :: l2) →
      (l1 ++ b :: l2).Nodup →
      q = (if l1 = [] then (s.buf b).next else p) →
      (∀ c, c ∈ l1 ++ l2 → (t.buf c).next =
        if lastPre .sentinel l1 = .slot c then (s.buf b).next else (s.buf c).next) →
      IsChain t q (l1 ++ l2)
  | [], p, q, hc, hnd, hq, hn => by
    simp only [if_true] at hq
    subst hq
    refine IsChain.chain_frame hc.2 (fun c hc2 => ?_)
    have := hn c (by simpa using hc2)
    simpa [lastPre] using this
  | [c], p, q, hc, hnd, hq, hn => by
    simp only [List.cons_ne_nil, if_false] at hq
    subst hq
    have hcl : c ∉ l2 := by
      intro hm
      have := (List.nodup_cons.1 hnd).1
      exact this (by simp [hm])
    refine ⟨hc.1, ?_⟩
    have h1 := hn c (by simp)
    simp only [lastPre, List.getLast?_singleton, if_true] at h1
    rw [h1]
    refine IsChain.chain_frame hc.2.2 (fun d hd0 => ?_)
    have hd : d ∈ l2 := hd0
    have h2 := hn d (by simp [hd])
    have hdc : ¬ (c = d) := fun e => hcl (by rw [e]; exact hd)
    simpa [lastPre, hdc] using h2
  | c :: d :: l1, p, q, hc, hnd, hq, hn => by
    simp only [List.cons_ne_nil, if_false] at hq
    subst hq
    refine ⟨hc.1, ?_⟩
    have hnd2 := List.nodup_cons.1 hnd
    have hlast : ∀ e, lastPre .sentinel (c :: d :: l1) = .slot e ↔
        lastPre .sentinel (d :: l1) = .slot e := fun e => by
      rw [lastPre_cons, lastPre_cons, lastPre_cons]
    have hc1 := hn c (by simp)
    have hcne : lastPre .sentinel (c :: d :: l1) ≠ .slot c := by
      rw [lastPre_cons, lastPre_cons]
      unfold lastPre
      cases hgl : l1.getLast? with
      | none =>
        simp only [ne_eq, Pre.slot.injEq]
        intro e; exact hnd2.1 (by simp [e])
      | some x =>
        simp only [ne_eq, Pre.slot.injEq]
        intro e
        have : x ∈ l1 := List.mem_of_getLast?_eq_some hgl
        exact hnd2.1 (by subst e; simp [this])
    rw [if_neg hcne] at hc1
    rw [hc1]
    exact IsChain.unlink (d :: l1) hc.2 hnd2.2 (by simp) (fun e he => by
      have := hn e (by simp at he ⊢; tauto)
      rw [this]
      by_cases hl : lastPre .sentinel (d :: l1) = .slot e
      · rw [if_pos hl, if_pos ((hlast e).2 hl)]
      · rw [if_neg hl, if_neg (fun h => hl ((hlast e).1 h))])

theorem lastPre_sentinel_iff (l1 : List Nat) : lastPre .sentinel l1 = .sentinel ↔ l1 = [] := by
  unfold lastPre
  cases h : l1.getLast? with
  | none => simp [List.getLast?_eq_none_iff.1 h]
  | some x =>
    constructor
    · intro e; cases e
    · intro e
      rw [e] at h
      simp at h

theorem lastPre_slot_mem {l1 : List Nat} {c : Nat} (h : lastPre .sentinel l1 = .slot c) :
    c ∈ l1 := by
  unfold lastPre at h
  cases hg : l1.getLast? with
  | none => rw [hg] at h; cases h
  | some x =>
    rw [hg] at h
    cases h
    exact List.mem_of_getLast?_eq_some hg

/-- The identity fields after `recycle`, for slots that are claimed. -/
theorem recycle_ident (s : BCache) (dev blockno idx minb : Nat) (minpre : Pre) (b : Nat) :
    ((recycle s dev blockno idx minb minpre).buf b).dev =
      (if b = minb then dev else (s.buf b).dev) ∧
    ((recycle s dev blockno idx minb minpre).buf b).blockno =
      (if b = minb then blockno else (s.buf b).blockno) := by
  by_cases hb : b = minb
  · subst hb
    have := recycle_buf_minb s dev blockno idx b minpre
    simp [this.1, this.2.1]
  · have := recycle_buf_other s dev blockno idx minb minpre hb
    simp [hb, this.1, this.2.1]

/-- The eviction path keeps the structure: the victim takes the requested
identity and, when it was found outside the target bucket, leaves its chain
and becomes the head of the target bucket's chain. -/
theorem Inv.recycle {NBUF : Nat} {s : BCache} {L : Nat → List Nat} (h : Inv NBUF s L)
    {dev blockno idx minb : Nat} {l1 l2 : List Nat} (hidx : idx < NBUCKET)
    (hL : L idx = l1 ++ minb :: l2)
    (hnc : ∀ b, b < s.size → ¬ ((s.buf b).dev = dev ∧ (s.buf b).blockno = blockno)) :
    Inv NBUF (recycle s dev blockno idx minb (lastPre .sentinel l1))
      (if idx = HASH blockno then L
       else Function.update (Function.update L idx (l1 ++ l2)) (HASH blockno)
         (minb :: L (HASH blockno))) := by
  have hmin : minb ∈ L idx := by rw [hL]; simp
  have hminlt : minb < s.size := (h.mem_lt idx hidx minb hmin).1
  have hnd : (l1 ++ minb :: l2).Nodup := by rw [← hL]; exact IsChain.chain_nodup (h.chain idx hidx)
  have hsub : ∀ c, c ∈ l1 ++ l2 → c ∈ L idx ∧ c ≠ minb := fun c hc => by
    have hnd1 := List.nodup_append.1 hnd
    have hnd2 := List.nodup_cons.1 hnd1.2.1
    rcases List.mem_append.1 hc with hc | hc
    · exact ⟨by rw [hL]; simp [hc], fun e => hnd1.2.2 hc (by rw [e]; simp)⟩
    · exact ⟨by rw [hL]; simp [hc], fun e => hnd2.1 (by rw [← e]; exact hc)⟩
  have hid := recycle_ident s dev blockno idx minb (lastPre .sentinel l1)
  have huniq : ∀ a b, a < s.size → b < s.size →
      ((Bio.recycle s dev blockno idx minb (lastPre .sentinel l1)).buf a).dev =
        ((Bio.recycle s dev blockno idx minb (lastPre .sentinel l1)).buf b).dev →
      ((Bio.recycle s dev blockno idx minb (lastPre .sentinel l1)).buf a).blockno =
        ((Bio.recycle s dev blockno idx minb (lastPre .sentinel l1)).buf b).blockno →
      a = b := fun a b ha hb hd hn => by
    rw [(hid a).1, (hid b).1] at hd
    rw [(hid a).2, (hid b).2] at hn
    by_cases ham : a = minb
    · by_cases hbm : b = minb
      · rw [ham, hbm]
      · rw [if_pos ham, if_neg hbm] at hd hn
        exact absurd ⟨hd.symm, hn.symm⟩ (hnc b hb)
    · by_cases hbm : b = minb
      · rw [if_neg ham, if_pos hbm] at hd hn
        exact absurd ⟨hd, hn⟩ (hnc a ha)
      · rw [if_neg ham, if_neg hbm] at hd hn
        exact h.uniq a b ha hb hd hn
  have htime : ∀ b, ((Bio.recycle s dev blockno idx minb (lastPre .sentinel l1)).buf b).time
      < UINT := fun b => by
    by_cases hb : b = minb
    · rw [hb, (recycle_buf_minb s dev blockno idx minb _).2.2.2.2.1]; exact h.time_lt _
    · rw [(recycle_buf_other s dev blockno idx minb _ hb).2.2.2.2.1]; exact h.time_lt _
  have hrc : ∀ b, ((Bio.recycle s dev blockno idx minb (lastPre .sentinel l1)).buf b).refcnt
      < UINT := fun b => by
    by_cases hb : b = minb
    · rw [hb, (recycle_buf_minb s dev blockno idx minb _).2.2.2.1]; decide
    · rw [(recycle_buf_other s dev blockno idx minb _ hb).2.2.2.1]; exact h.refcnt_lt _
  by_cases htg : idx = HASH blockno
  · -- the victim stays in its bucket
    rw [if_pos htg]
    subst htg
    have hsame := recycle_same_bucket s dev blockno minb (lastPre .sentinel l1)
    exact {
      size_le := by rw [recycle_size]; exact h.size_le
      chain := fun i hi => by
        unfold Bucket
        rw [hsame.1]
        exact IsChain.chain_frame (h.chain i hi) (fun b _ => hsame.2 b)
      mem_lt := fun i hi b hb => by
        rw [recycle_size, (hid b).2]
        refine ⟨(h.mem_lt i hi b hb).1, ?_⟩
        by_cases hbm : b = minb
        · rw [if_pos hbm]
          rw [hbm] at hb
          exact h.bucket_eq hidx hi hmin hb
        · rw [if_neg hbm]; exact (h.mem_lt i hi b hb).2
      mem_of := fun b hb => by
        rw [recycle_size] at hb
        rw [(hid b).2]
        by_cases hbm : b = minb
        · rw [if_pos hbm, hbm]; exact hmin
        · rw [if_neg hbm]; exact h.mem_of b hb
      uniq := fun a b ha hb => by
        rw [recycle_size] at ha hb
        exact huniq a b ha hb
      time_lt := htime
      refcnt_lt := hrc }
  · -- the victim moves to the target bucket
    rw [if_neg htg]
    have hnx := recycle_next s dev blockno idx minb (lastPre .sentinel l1) htg
    have hbk := recycle_buckets s dev blockno idx minb (lastPre .sentinel l1) htg
    have hpre : ∀ c k, k < NBUCKET → k ≠ idx → c ∈ L k → lastPre .sentinel l1 ≠ .slot c :=
      fun c k hk hki hc e => hki (h.bucket_eq hk hidx hc (by
        rw [hL]; exact List.mem_append_left _ (lastPre_slot_mem e)))
    have hframe : ∀ k, k < NBUCKET → k ≠ idx →
        IsChain (Bio.recycle s dev blockno idx minb (lastPre .sentinel l1)) (s.buckets k) (L k) :=
      fun k hk hki => IsChain.chain_frame (h.chain k hk) (fun c hc => by
        rw [hnx c, if_neg (fun e => hki (h.bucket_eq hk hidx hc (by rw [e]; exact hmin))),
          if_neg (hpre c k hk hki hc)])
    exact {
      size_le := by rw [recycle_size]; exact h.size_le
      chain := fun i hi => by
        unfold Bucket
        rw [hbk i]
        by_cases hit : i = HASH blockno
        · rw [if_pos hit, hit, Function.update_same]
          refine ⟨rfl, ?_⟩
          rw [hnx minb, if_pos rfl]
          exact hframe _ (HASH_lt _) (Ne.symm htg)
        · rw [if_neg hit, Function.update_noteq hit]
          by_cases hii : i = idx
          · rw [hii, Function.update_same]
            refine IsChain.unlink l1 (by rw [← hL]; exact h.chain idx hidx) hnd ?_ ?_
            · by_cases hl1 : l1 = []
              · rw [if_pos hl1, if_pos ⟨rfl, (lastPre_sentinel_iff l1).2 hl1⟩]
              · rw [if_neg hl1, if_neg (fun e => hl1 ((lastPre_sentinel_iff l1).1 e.2))]
            · intro c hc
              rw [hnx c, if_neg (hsub c hc).2]
          · rw [if_neg (fun e => hii e.1), Function.update_noteq hii]
            exact hframe i hi hii
      mem_lt := fun i hi b hb => by
        rw [recycle_size, (hid b).2]
        by_cases hit : i = HASH blockno
        · rw [hit, Function.update_same] at hb
          rcases List.mem_cons.1 hb with hb | hb
          · rw [hb, if_pos rfl]; exact ⟨hminlt, hit.symm⟩
          · have := h.mem_lt _ (HASH_lt _) b hb
            rw [if_neg (fun e => htg (h.bucket_eq hidx (HASH_lt _) hmin (by rw [← e]; exact hb)))]
            exact ⟨this.1, by rw [hit]; exact this.2⟩
        · rw [Function.update_noteq hit] at hb
          by_cases hii : i = idx
          · rw [hii, Function.update_same] at hb
            have := hsub b hb
            rw [if_neg this.2, hii]
            exact h.mem_lt idx hidx b this.1
          · rw [Function.update_noteq hii] at hb
            rw [if_neg (fun e => hii (h.bucket_eq hi hidx hb (by rw [e]; exact hmin)))]
            exact h.mem_lt i hi b hb
      mem_of := fun b hb => by
        rw [recycle_size] at hb
        rw [(hid b).2]
        by_cases hbm : b = minb
        · rw [if_pos hbm, hbm, Function.update_same]; exact List.mem_cons_self _ _
        · rw [if_neg hbm]
          have := h.mem_of b hb
          by_cases hit : HASH (s.buf b).blockno = HASH blockno
          · rw [hit, Function.update_same]
            rw [hit] at this
            exact List.mem_cons_of_mem _ this
          · rw [Function.update_noteq hit]
            by_cases hii : HASH (s.buf b).blockno = idx
            · rw [hii, Function.update_same]
              rw [hii, hL] at this
              rcases List.mem_append.1 this with hm | hm
              · exact List.mem_append_left _ hm
              · rcases List.mem_cons.1 hm with hm | hm
                · exact absurd hm hbm
                · exact List.mem_append_right _ hm
            · rw [Function.update_noteq hii]; exact this
      uniq := fun a b ha hb => by
        rw [recycle_size] at ha hb
        exact huniq a b ha hb
      time_lt := htime
      refcnt_lt := hrc }

theorem wrap_lt (idx : Nat) : (if idx + 1 = NBUCKET then 0 else idx + 1) < NBUCKET ∨
    NBUCKET ≤ idx := by
  unfold NBUCKET
  split <;> omega

/-- How the eviction loop can end when the request is not cached: out of
fuel, fatally, or by recycling an idle slot of some chain. -/
theorem evict_cases {NBUF : Nat} {s : BCache} {L : Nat → List Nat} (h : Inv NBUF s L)
    (fuel pid : Nat) {dev blockno : Nat}
    (hnc : ∀ b, b < s.size → ¬ ((s.buf b).dev = dev ∧ (s.buf b).blockno = blockno)) :
    ∀ (n idx : Nat), idx < NBUCKET →
      evict fuel pid dev blockno n idx s = .hang ∨
      evict fuel pid dev blockno n idx s = .fatal ∨
      ∃ i minb l1 l2, i < NBUCKET ∧ L i = l1 ++ minb :: l2 ∧ (s.buf minb).refcnt = 0 ∧
        evict fuel pid dev blockno n idx s =
          acquiresleep pid (recycle s dev blockno i minb (lastPre .sentinel l1)) minb
  | 0, _, _ => Or.inr (Or.inl rfl)
  | n + 1, idx, hidx => by
    unfold evict
    cases hsc : scan s dev blockno idx fuel .sentinel (s.buckets idx) (-1) none with
    | hang => exact Or.inl rfl
    | hit b =>
      exfalso
      have hm := scan_hit_match fuel _ _ _ _ hsc
      have hb := scan_hit_mem fuel _ _ _ (h.chain idx hidx) hsc
      exact hnc b (h.mem_lt idx hidx b hb).1 hm.2
    | done m =>
      cases m with
      | none =>
        simp only []
        have hlt : (if idx + 1 = NBUCKET then 0 else idx + 1) < NBUCKET := by
          rcases wrap_lt idx with h1 | h1
          · exact h1
          · omega
        exact evict_cases h fuel pid hnc n _ hlt
      | some v =>
        obtain ⟨minb, minpre⟩ := v
        simp only []
        rcases scan_victim fuel _ _ _ (h.chain idx hidx) hsc with h1 | ⟨l1, l2, h1, h2, h3⟩
        · cases h1
        · right; right
          exact ⟨idx, minb, l1, l2, hidx, h1, h3, by rw [h2]⟩

/-- With more fuel than claimed slots the eviction loop does not run out of
fuel. -/
theorem evict_fuel {NBUF : Nat} {s : BCache} {L : Nat → List Nat} (h : Inv NBUF s L)
    {fuel : Nat} (pid dev blockno : Nat) (hf : s.size < fuel) :
    ∀ (n idx : Nat), idx < NBUCKET → evict fuel pid dev blockno n idx s ≠ .hang
  | 0, _, _ => by simp [evict]
  | n + 1, idx, hidx => by
    unfold evict
    have hfu := scan_fuel s dev blockno idx fuel
      .sentinel (-1) none (h.chain idx hidx) (lt_of_le_of_lt (h.length_le hidx) hf)
    cases hsc : scan s dev blockno idx fuel .sentinel (s.buckets idx) (-1) none with
    | hang => exact absurd hsc hfu
    | hit b =>
      simp only []
      unfold acquiresleep
      split <;> simp
    | done m =>
      cases m with
      | none =>
        simp only []
        have hlt : (if idx + 1 = NBUCKET then 0 else idx + 1) < NBUCKET := by
          rcases wrap_lt idx with h1 | h1
          · exact h1
          · omega
        exact evict_fuel h pid dev blockno hf n _ hlt
      | some v =>
        obtain ⟨minb, minpre⟩ := v
        simp only []
        unfold acquiresleep
        split <;> simp

/-- The paths of bget from a structured state. -/
theorem bget_cases {NBUF : Nat} {s : BCache} {L : Nat → List Nat} (h : Inv NBUF s L)
    (fuel pid dev blockno : Nat) :
    bget NBUF fuel pid s dev blockno = .hang ∨
    (∃ b, b ∈ L (HASH blockno) ∧ (s.buf b).dev = dev ∧ (s.buf b).blockno = blockno ∧
      bget NBUF fuel pid s dev blockno =
        acquiresleep pid (s.setBuf b { s.buf b with refcnt := incr (s.buf b).refcnt }) b) ∨
    ((∀ b, b < s.size → ¬ ((s.buf b).dev = dev ∧ (s.buf b).blockno = blockno)) ∧
      ((s.size < NBUF ∧
        bget NBUF fuel pid s dev blockno = acquiresleep pid (claim s dev blockno) s.size) ∨
       (¬ s.size < NBUF ∧ bget NBUF fuel pid s dev blockno = .fatal) ∨
       (¬ s.size < NBUF ∧ ∃ i minb l1 l2, i < NBUCKET ∧ L i = l1 ++ minb :: l2 ∧
          (s.buf minb).refcnt = 0 ∧
          bget NBUF fuel pid s dev blockno =
            acquiresleep pid (recycle s dev blockno i minb (lastPre .sentinel l1)) minb))) := by
  have hch := h.chain (HASH blockno) (HASH_lt _)
  unfold bget
  cases hlk : lookup s dev blockno fuel (s.buckets (HASH blockno)) with
  | none => exact Or.inl rfl
  | some r =>
    cases r with
    | some b =>
      right; left
      have hm := lookup_match fuel _ hlk
      exact ⟨b, lookup_mem fuel hch hlk, hm.1, hm.2, rfl⟩
    | none =>
      have hnc := h.not_cached (lookup_miss fuel hch hlk)
      simp only []
      by_cases hsz : s.size < NBUF
      · right; right
        rw [if_pos hsz]
        exact ⟨hnc, Or.inl ⟨hsz, rfl⟩⟩
      · rw [if_neg hsz]
        rcases evict_cases h fuel pid hnc NBUCKET (HASH blockno) (HASH_lt _) with h1 | h1 | h1
        · exact Or.inl h1
        · exact Or.inr (Or.inr ⟨hnc, Or.inr (Or.inl ⟨hsz, h1⟩)⟩)
        · exact Or.inr (Or.inr ⟨hnc, Or.inr (Or.inr ⟨hsz, h1⟩)⟩)

/-- With more fuel than claimed slots bget does not run out of fuel. -/
theorem bget_fuel {NBUF : Nat} {s : BCache} {L : Nat → List Nat} (h : Inv NBUF s L)
    {fuel : Nat} (pid dev blockno : Nat) (hf : s.size < fuel) :
    bget NBUF fuel pid s dev blockno ≠ .hang := by
  have hch := h.chain (HASH blockno) (HASH_lt _)
  have hlf := lookup_fuel s dev blockno fuel hch
    (lt_of_le_of_lt (h.length_le (HASH_lt _)) hf)
  unfold bget
  cases hlk : lookup s dev blockno fuel (s.buckets (HASH blockno)) with
  | none => exact absurd hlk hlf
  | some r =>
    cases r with
    | some b =>
      simp only []
      unfold acquiresleep
      split <;> simp
    | none =>
      simp only []
      split
      · unfold acquiresleep
        split <;> simp
      · exact evict_fuel h pid dev blockno hf NBUCKET (HASH blockno) (HASH_lt _)

theorem SameButLock.refl (s : BCache) : SameButLock s s :=
  ⟨rfl, rfl, fun _ => ⟨rfl, rfl, rfl, rfl, rfl, rfl, rfl⟩⟩

/-- The lock acquisition at the end of bget returns or suspends on the same
slot and changes nothing but the lock. -/
theorem acquiresleep_spec (pid : Nat) (s : BCache) (b : Nat) :
    ∃ t, (acquiresleep pid s b = .ret b t ∨ acquiresleep pid s b = .sleeps b t) ∧
      SameButLock s t := by
  unfold acquiresleep
  cases hl : (s.buf b).lock with
  | none =>
    refine ⟨_, Or.inl rfl, rfl, rfl, fun c => ?_⟩
    by_cases hc : c = b
    · subst hc; simp
    · simp [setBuf_other _ _ hc]
  | some q => exact ⟨s, Or.inr rfl, SameButLock.refl s⟩

/-- The state in which a lock acquisition leaves the cache differs from the
state before at most in the locks. -/
theorem acquiresleep_state {pid : Nat} {s t : BCache} {b : Nat}
    (h : (acquiresleep pid s b).state = some t) :
    SameButLock s t ∧ (acquiresleep pid s b).buffer = some b := by
  obtain ⟨u, hu, hs⟩ := acquiresleep_spec pid s b
  rcases hu with hu | hu <;> rw [hu] at h ⊢ <;> cases h <;> exact ⟨hs, rfl⟩

theorem Inv.of_same {NBUF : Nat} {s t : BCache} {L : Nat → List Nat} (h : Inv NBUF s L)
    (hs : SameButLock s t) : Inv NBUF t L :=
  h.of_skel hs.1 hs.2.1 (fun b => ⟨(hs.2.2 b).1, (hs.2.2 b).2.1, (hs.2.2 b).2.2.2.2.2.1⟩)
    (fun b => by rw [(hs.2.2 b).2.2.2.2.1]; exact h.time_lt b)
    (fun b => by rw [(hs.2.2 b).2.2.2.1]; exact h.refcnt_lt b)

theorem incr_lt (n : Nat) : incr n < UINT := Nat.mod_lt _ (by decide)

theorem decr_lt (n : Nat) : decr n < UINT := Nat.mod_lt _ (by decide)

/-- A change of one slot's reference count keeps the structure. -/
theorem Inv.set_refcnt {NBUF : Nat} {s : BCache} {L : Nat → List Nat} (h : Inv NBUF s L)
    (b n : Nat) (hn : n < UINT) : Inv NBUF (s.setBuf b { s.buf b with refcnt := n }) L := by
  refine h.of_skel rfl rfl (fun c => ?_) (fun c => ?_) (fun c => ?_)
  · by_cases hc : c = b
    · subst hc; simp
    · simp [setBuf_other _ _ hc]
  · by_cases hc : c = b
    · subst hc; simp [h.time_lt c]
    · simp [setBuf_other _ _ hc, h.time_lt c]
  · by_cases hc : c = b
    · subst hc; simp [hn]
    · simp [setBuf_other _ _ hc, h.refcnt_lt c]

/-- One call of bget from a structured state: the state it leaves is
structured, the pool does not shrink, and every claimed slot with a non-zero
reference count keeps its identity, its `valid` flag and its bucket. -/
theorem bget_step {NBUF : Nat} {s t : BCache} {L : Nat → List Nat} (h : Inv NBUF s L)
    (fuel pid dev blockno : Nat)
    (ht : (bget NBUF fuel pid s dev blockno).state = some t) :
    ∃ M, Inv NBUF t M ∧ s.size ≤ t.size ∧
      ∀ b, b < s.size → 0 < (s.buf b).refcnt →
        (t.buf b).dev = (s.buf b).dev ∧ (t.buf b).blockno = (s.buf b).blockno ∧
        (t.buf b).valid = (s.buf b).valid ∧ ∀ i, i < NBUCKET → b ∈ L i → b ∈ M i := by
  rcases bget_cases h fuel pid dev blockno with h1 | ⟨b, hb, _, _, h1⟩ |
      ⟨hnc, ⟨hsz, h1⟩ | ⟨_, h1⟩ | ⟨hsz, i, minb, l1, l2, hi, hL, hrc, h1⟩⟩
  · rw [h1] at ht; cases ht
  · -- cached
    rw [h1] at ht
    have hs := (acquiresleep_state ht).1
    refine ⟨L, (h.set_refcnt b _ (incr_lt _)).of_same hs, by rw [hs.1]; exact le_refl _, ?_⟩
    intro c hc hrc
    have hf := hs.2.2 c
    rw [hf.1, hf.2.1, hf.2.2.1]
    by_cases hcb : c = b
    · subst hcb; simp
    · simp [setBuf_other _ _ hcb]
  · -- a fresh slot
    rw [h1] at ht
    have hs := (acquiresleep_state ht).1
    refine ⟨_, (h.claim hsz hnc).of_same hs, by rw [hs.1, claim_size]; omega, ?_⟩
    intro c hc hrc
    have hf := hs.2.2 c
    rw [hf.1, hf.2.1, hf.2.2.1, claim_buf_other s dev blockno (by omega)]
    refine ⟨rfl, rfl, rfl, fun i hi hci => ?_⟩
    by_cases hit : i = HASH blockno
    · rw [hit, Function.update_same]
      rw [hit] at hci
      exact List.mem_cons_of_mem _ hci
    · rw [Function.update_noteq hit]; exact hci
  · rw [h1] at ht; cases ht
  · -- a recycled slot
    rw [h1] at ht
    have hs := (acquiresleep_state ht).1
    refine ⟨_, (h.recycle hi hL hnc).of_same hs, by rw [hs.1, recycle_size], ?_⟩
    intro c hc hrcc
    have hcm : c ≠ minb := fun e => by rw [e, hrc] at hrcc; exact absurd hrcc (lt_irrefl 0)
    have hf := hs.2.2 c
    have ho := recycle_buf_other s dev blockno i minb (lastPre .sentinel l1) hcm
    rw [hf.1, hf.2.1, hf.2.2.1, ho.1, ho.2.1, ho.2.2.1]
    refine ⟨rfl, rfl, rfl, fun k hk hck => ?_⟩
    by_cases htg : i = HASH blockno
    · rw [if_pos htg]; exact hck
    · rw [if_neg htg]
      by_cases hkt : k = HASH blockno
      · rw [hkt, Function.update_same]
        rw [hkt] at hck
        exact List.mem_cons_of_mem _ hck
      · rw [Function.update_noteq hkt]
        by_cases hki : k = i
        · rw [hki, Function.update_same]
          rw [hki, hL] at hck
          rcases List.mem_append.1 hck with hm | hm
          · exact List.mem_append_left _ hm
          · rcases List.mem_cons.1 hm with hm | hm
            · exact absurd hm hcm
            · exact List.mem_append_right _ hm
        · rw [Function.update_noteq hki]; exact hck

/-- A buffer that bget delivers names the requested block, and bget never
touches a payload nor sets a `valid` flag: a slot whose flag is set afterwards
had it set before, with the same identity. -/
theorem bget_data {NBUF : Nat} {s t : BCache} {L : Nat → List Nat} (h : Inv NBUF s L)
    (fuel pid dev blockno : Nat)
    (ht : (bget NBUF fuel pid s dev blockno).state = some t) :
    (∃ b, (bget NBUF fuel pid s dev blockno).buffer = some b ∧
      (t.buf b).dev = dev ∧ (t.buf b).blockno = blockno) ∧
    ∀ c, (t.buf c).data = (s.buf c).data ∧
      ((t.buf c).valid = true → (s.buf c).valid = true ∧ (t.buf c).dev = (s.buf c).dev ∧
        (t.buf c).blockno = (s.buf c).blockno) := by
  rcases bget_cases h fuel pid dev blockno with h1 | ⟨b, hb, hd, hn, h1⟩ |
      ⟨hnc, ⟨hsz, h1⟩ | ⟨_, h1⟩ | ⟨hsz, i, minb, l1, l2, hi, hL, hrc, h1⟩⟩
  · rw [h1] at ht; cases ht
  · rw [h1] at ht ⊢
    obtain ⟨hs, hbuf⟩ := acquiresleep_state ht
    have hset : ∀ c, ((s.setBuf b { s.buf b with refcnt := incr (s.buf b).refcnt }).buf c).dev
          = (s.buf c).dev ∧
        ((s.setBuf b { s.buf b with refcnt := incr (s.buf b).refcnt }).buf c).blockno
          = (s.buf c).blockno ∧
        ((s.setBuf b { s.buf b with refcnt := incr (s.buf b).refcnt }).buf c).valid
          = (s.buf c).valid ∧
        ((s.setBuf b { s.buf b with refcnt := incr (s.buf b).refcnt }).buf c).data
          = (s.buf c).data := fun c => by
      by_cases hcb : c = b
      · subst hcb; simp
      · simp [setBuf_other _ _ hcb]
    refine ⟨⟨b, hbuf, ?_, ?_⟩, fun c => ?_⟩
    · rw [(hs.2.2 b).1, (hset b).1]; exact hd
    · rw [(hs.2.2 b).2.1, (hset b).2.1]; exact hn
    · have hf := hs.2.2 c
      rw [hf.2.2.2.2.2.2, hf.2.2.1, hf.1, hf.2.1, (hset c).1, (hset c).2.1, (hset c).2.2.1,
        (hset c).2.2.2]
      exact ⟨rfl, fun hv => ⟨hv, rfl, rfl⟩⟩
  · rw [h1] at ht ⊢
    obtain ⟨hs, hbuf⟩ := acquiresleep_state ht
    refine ⟨⟨s.size, hbuf, ?_, ?_⟩, fun c => ?_⟩
    · rw [(hs.2.2 _).1, claim_buf_new]
    · rw [(hs.2.2 _).2.1, claim_buf_new]
    · have hf := hs.2.2 c
      rw [hf.2.2.2.2.2.2, hf.2.2.1, hf.1, hf.2.1]
      by_cases hcs : c = s.size
      · subst hcs
        rw [claim_buf_new]
        exact ⟨rfl, fun hv => by cases hv⟩
      · rw [claim_buf_other s dev blockno hcs]
        exact ⟨rfl, fun hv => ⟨hv, rfl, rfl⟩⟩
  · rw [h1] at ht; cases ht
  · rw [h1] at ht ⊢
    obtain ⟨hs, hbuf⟩ := acquiresleep_state ht
    have hm := recycle_buf_minb s dev blockno i minb (lastPre .sentinel l1)
    refine ⟨⟨minb, hbuf, ?_, ?_⟩, fun c => ?_⟩
    · rw [(hs.2.2 _).1, hm.1]
    · rw [(hs.2.2 _).2.1, hm.2.1]
    · have hf := hs.2.2 c
      rw [hf.2.2.2.2.2.2, hf.2.2.1, hf.1, hf.2.1]
      by_cases hcm : c = minb
      · subst hcm
        rw [hm.2.2.1, hm.2.2.2.2.2.1]
        exact ⟨rfl, fun hv => by cases hv⟩
      · have ho := recycle_buf_other s dev blockno i minb (lastPre .sentinel l1) hcm
        rw [ho.1, ho.2.1, ho.2.2.1, ho.2.2.2.2.2.1]
        exact ⟨rfl, fun hv => ⟨hv, rfl, rfl⟩⟩

/-- The two ways bread returns: with the buffer bget delivered when it is
valid, and with that buffer filled from the device otherwise. -/
theorem bread_ret {NBUF fuel pid : Nat} {disk : Nat → Nat → List Nat} {s t : BCache}
    {dev blockno b : Nat} (h : bread NBUF fuel pid disk s dev blockno = .ret b t) :
    ∃ s1, bget NBUF fuel pid s dev blockno = .ret b s1 ∧
      (((s1.buf b).valid = true ∧ t = s1) ∨
       ((s1.buf b).valid = false ∧
        t = (diskRead disk s1 b).setBuf b { (diskRead disk s1 b).buf b with valid := true })) := by
  unfold bread at h
  cases hg : bget NBUF fuel pid s dev blockno with
  | ret c s1 =>
    rw [hg] at h
    simp only [] at h
    split at h
    · next hv =>
      cases h
      exact ⟨_, rfl, Or.inr ⟨hv, rfl⟩⟩
    · next hv =>
      cases h
      exact ⟨_, rfl, Or.inl ⟨by simpa using hv, rfl⟩⟩
  | sleeps c s1 => rw [hg] at h; cases h
  | fatal => rw [hg] at h; cases h
  | hang => rw [hg] at h; cases h

/-- The fields of the state after the fill from the device. -/
theorem fill_buf (disk : Nat → Nat → List Nat) (s : BCache) (b c : Nat) :
    (((diskRead disk s b).setBuf b { (diskRead disk s b).buf b with valid := true }).buf c) =
      if c = b then { s.buf b with data := disk (s.buf b).dev (s.buf b).blockno, valid := true }
      else s.buf c := by
  by_cases hc : c = b
  · subst hc; simp [diskRead]
  · simp [diskRead, setBuf_other _ _ hc, hc]

theorem Inv.fill {NBUF : Nat} {s : BCache} {L : Nat → List Nat} (h : Inv NBUF s L)
    (disk : Nat → Nat → List Nat) (b : Nat) :
    Inv NBUF ((diskRead disk s b).setBuf b { (diskRead disk s b).buf b with valid := true }) L := by
  refine h.of_skel rfl rfl (fun c => ?_) (fun c => ?_) (fun c => ?_)
  · rw [fill_buf]; split
    · next hc => subst hc; exact ⟨rfl, rfl, rfl⟩
    · exact ⟨rfl, rfl, rfl⟩
  · rw [fill_buf]; split
    · exact h.time_lt b
    · exact h.time_lt c
  · rw [fill_buf]; split
    · exact h.refcnt_lt b
    · exact h.refcnt_lt c

/-- What a brelse that returns does: the caller held the lock, the lock is
free afterwards, the reference count is decremented, the timestamp becomes
`ticks` exactly when the count reaches zero, and nothing else changes. -/
theorem brelse_spec {pid ticks : Nat} {s t : BCache} {b : Nat}
    (h : brelse pid ticks s b = some t) :
    holdingsleep pid s b = true ∧ t.size = s.size ∧ t.buckets = s.buckets ∧
    (t.buf b).lock = none ∧ (t.buf b).refcnt = decr (s.buf b).refcnt ∧
    (t.buf b).time = (if decr (s.buf b).refcnt = 0 then ticks else (s.buf b).time) ∧
    (∀ c, (t.buf c).dev = (s.buf c).dev ∧ (t.buf c).blockno = (s.buf c).blockno ∧
      (t.buf c).valid = (s.buf c).valid ∧ (t.buf c).next = (s.buf c).next ∧
      (t.buf c).data = (s.buf c).data) ∧
    ∀ c, c ≠ b → t.buf c = s.buf c := by
  unfold brelse at h
  split at h
  · cases h
  · next hh =>
    have hhold : holdingsleep pid s b = true := by simpa using hh
    simp only [releasesleep, setBuf_same] at h
    split at h
    · next h0 =>
      cases h
      refine ⟨hhold, rfl, rfl, by simp, by simp [h0], by simp [h0], fun c => ?_, fun c hc => ?_⟩
      · by_cases hc : c = b
        · subst hc; simp
        · simp [setBuf_other _ _ hc]
      · simp [setBuf_other _ _ hc]
    · next h0 =>
      cases h
      refine ⟨hhold, rfl, rfl, by simp, by simp, by simp [h0], fun c => ?_, fun c hc => ?_⟩
      · by_cases hc : c = b
        · subst hc; simp
        · simp [setBuf_other _ _ hc]
      · simp [setBuf_other _ _ hc]

/-- The state that binit leaves is structured, with all chains empty. -/
theorem Inv.init (NBUF : Nat) : Inv NBUF (binit NBUF bss) (fun _ => []) where
  size_le := Nat.zero_le _
  chain := fun _ _ => rfl
  mem_lt := fun _ _ b hb => by cases hb
  mem_of := fun b hb => absurd hb (Nat.not_lt_zero b)
  uniq := fun a _ ha => absurd ha (Nat.not_lt_zero a)
  time_lt := fun b => by
    unfold binit bss
    simp only []
    split <;> decide
  refcnt_lt := fun b => by
    unfold binit bss
    simp only []
    split <;> decide

theorem DataInv.data_init (NBUF : Nat) (disk : Nat → Nat → List Nat) :
    DataInv disk (binit NBUF bss) := by
  intro b hv
  unfold binit bss at hv
  simp only [] at hv
  split at hv <;> cases hv

/-- Every call that runs to completion keeps the structure and the agreement
of valid payloads with the device, and does not shrink the pool. -/
theorem Call.run_inv {NBUF : Nat} {disk : Nat → Nat → List Nat} {s t : BCache}
    {L : Nat → List Nat} (h : Inv NBUF s L) (hd : DataInv disk s) (c : Call)
    (hr : c.run NBUF disk s = some t) :
    (∃ M, Inv NBUF t M) ∧ DataInv disk t ∧ s.size ≤ t.size := by
  have hbg : ∀ {fuel pid dev blockno b u}, Bio.bget NBUF fuel pid s dev blockno = .ret b u →
      (∃ M, Inv NBUF u M) ∧ DataInv disk u ∧ s.size ≤ u.size ∧
        (u.buf b).dev = dev ∧ (u.buf b).blockno = blockno := by
    intro fuel pid dev blockno b u hu
    have hst : (Bio.bget NBUF fuel pid s dev blockno).state = some u := by rw [hu]; rfl
    obtain ⟨M, hM, hsz, _⟩ := bget_step h fuel pid dev blockno hst
    obtain ⟨⟨b1, hb1, hid⟩, hdat⟩ := bget_data h fuel pid dev blockno hst
    rw [hu] at hb1
    cases hb1
    refine ⟨⟨M, hM⟩, fun c hv => ?_, hsz, hid⟩
    obtain ⟨h1, h2, h3⟩ := (hdat c).2 hv
    rw [(hdat c).1, h2, h3]
    exact hd c h1
  cases c with
  | bget fuel pid dev blockno =>
    simp only [Call.run] at hr
    split at hr
    · cases hg : Bio.bget NBUF fuel pid s dev blockno with
      | ret b u =>
        rw [hg] at hr
        cases hr
        obtain ⟨h1, h2, h3, _⟩ := hbg hg
        exact ⟨h1, h2, h3⟩
      | sleeps b u => rw [hg] at hr; cases hr
      | fatal => rw [hg] at hr; cases hr
      | hang => rw [hg] at hr; cases hr
    · cases hr
  | bread fuel pid dev blockno =>
    simp only [Call.run] at hr
    split at hr
    · cases hg : Bio.bread NBUF fuel pid disk s dev blockno with
      | ret b u =>
        rw [hg] at hr
        cases hr
        obtain ⟨s1, hs1, hcase⟩ := bread_ret hg
        obtain ⟨⟨M, hM⟩, h2, h3, _⟩ := hbg hs1
        rcases hcase with ⟨_, rfl⟩ | ⟨_, rfl⟩
        · exact ⟨⟨M, hM⟩, h2, h3⟩
        · refine ⟨⟨M, hM.fill disk b⟩, fun c hv => ?_, h3⟩
          rw [fill_buf] at hv ⊢
          split
          · rfl
          · next hc => rw [if_neg hc] at hv; exact h2 c hv
      | sleeps b u => rw [hg] at hr; cases hr
      | fatal => rw [hg] at hr; cases hr
      | hang => rw [hg] at hr; cases hr
    · cases hr
  | brelse pid ticks b =>
    simp only [Call.run] at hr
    split at hr
    · next hticks =>
      obtain ⟨_, hsz, hbk, _, hrc, htm, hsame, hoth⟩ := brelse_spec hr
      refine ⟨⟨L, h.of_skel hsz hbk (fun c => ⟨(hsame c).1, (hsame c).2.1, (hsame c).2.2.2.1⟩)
        (fun c => ?_) (fun c => ?_)⟩, fun c hv => ?_, by rw [hsz]⟩
      · by_cases hc : c = b
        · subst hc
          rw [htm]
          split
          · exact hticks
          · exact h.time_lt c
        · rw [hoth c hc]; exact h.time_lt c
      · by_cases hc : c = b
        · subst hc; rw [hrc]; exact decr_lt _
        · rw [hoth c hc]; exact h.refcnt_lt c
      · rw [(hsame c).2.2.1] at hv
        rw [(hsame c).2.2.2.2, (hsame c).1, (hsame c).2.1]
        exact hd c hv
    · cases hr
  | bpin b =>
    simp only [Call.run, Option.some.injEq] at hr
    subst hr
    refine ⟨⟨L, h.set_refcnt b _ (incr_lt _)⟩, fun c hv => ?_, le_refl _⟩
    unfold Bio.bpin at hv ⊢
    by_cases hc : c = b
    · subst hc
      simp only [setBuf_same] at hv ⊢
      exact hd c hv
    · rw [setBuf_other _ _ hc] at hv ⊢
      exact hd c hv
  | bunpin b =>
    simp only [Call.run, Option.some.injEq] at hr
    subst hr
    refine ⟨⟨L, h.set_refcnt b _ (decr_lt _)⟩, fun c hv => ?_, le_refl _⟩
    unfold Bio.bunpin at hv ⊢
    by_cases hc : c = b
    · subst hc
      simp only [setBuf_same] at hv ⊢
      exact hd c hv
    · rw [setBuf_other _ _ hc] at hv ⊢
      exact hd c hv

theorem runCalls_inv {NBUF : Nat} {disk : Nat → Nat → List Nat} :
    ∀ (cs : List Call) {s t : BCache} {L : Nat → List Nat}, Inv NBUF s L → DataInv disk s →
      runCalls NBUF disk s cs = some t → (∃ M, Inv NBUF t M) ∧ DataInv disk t ∧ s.size ≤ t.size
  | [], s, t, L, h, hd, hr => by
    simp only [runCalls, Option.some.injEq] at hr
    subst hr
    exact ⟨⟨L, h⟩, hd, le_refl _⟩
  | c :: cs, s, t, L, h, hd, hr => by
    simp only [runCalls] at hr
    cases hc : c.run NBUF disk s with
    | none => rw [hc] at hr; cases hr
    | some s1 =>
      rw [hc] at hr
      obtain ⟨⟨M, hM⟩, hd1, hsz1⟩ := Call.run_inv h hd c hc
      obtain ⟨h2, hd2, hsz2⟩ := runCalls_inv cs hM hd1 hr
      exact ⟨h2, hd2, le_trans hsz1 hsz2⟩

/-- Every reachable state is structured and its valid payloads agree with the
device. -/
theorem Reachable.inv {NBUF : Nat} {disk : Nat → Nat → List Nat} {s : BCache}
    (h : Reachable NBUF disk s) : (∃ L, Inv NBUF s L) ∧ DataInv disk s := by
  obtain ⟨cs, hcs⟩ := h
  obtain ⟨h1, h2, _⟩ := runCalls_inv cs (Inv.init NBUF) (DataInv.data_init NBUF disk) hcs
  exact ⟨h1, h2⟩

set_option maxRecDepth 100000 in
/-- The state `idlePool` is reached by thirty reads and one release. -/
theorem idlePool_reachable : Reachable NBUFxv6 sampleDisk idlePool :=
  ⟨fillCalls ++ [.brelse 1 7 3], by rfl⟩

/-- C1: in every state reachable from binit by a sequence of bread, bget,
brelse, bpin and bunpin calls executed one at a time, no two distinct claimed
pool slots (slots below `bcache.size`) carry the same `(dev, blockno)`
pair. -/
theorem C1_unique_block (NBUF : Nat) (disk : Nat → Nat → List Nat) (s : BCache)
    (h : Reachable NBUF disk s) (a b : Nat) (ha : a < s.size) (hb : b < s.size)
    (hab : a ≠ b) :
    ¬ ((s.buf a).dev = (s.buf b).dev ∧ (s.buf a).blockno = (s.buf b).blockno) := by
  obtain ⟨⟨L, hL⟩, _⟩ := h.inv
  exact fun hh => hab (hL.uniq a b ha hb hh.1 hh.2)

set_option maxRecDepth 100000 in
/-- Witness for `C1_unique_block`: slots 0 and 1 of the full pool. -/
theorem C1_unique_block_witness :
    ¬ ((idlePool.buf 0).dev = (idlePool.buf 1).dev ∧
       (idlePool.buf 0).blockno = (idlePool.buf 1).blockno) :=
  C1_unique_block NBUFxv6 sampleDisk idlePool idlePool_reachable 0 1 (by decide) (by decide)
    (by decide)

/-- C2: for every reachable state and every call of bget, each claimed buffer
whose reference count is greater than 0 before the call is not the eviction
victim: in the state the call leaves it has the same `dev` and `blockno`, the
same `valid` flag, and is still linked in the chain of the same bucket. -/
theorem C2_pinned_not_evicted (NBUF : Nat) (disk : Nat → Nat → List Nat) (s : BCache)
    (h : Reachable NBUF disk s) (fuel pid dev blockno : Nat) (t : BCache)
    (ht : (bget NBUF fuel pid s dev blockno).state = some t)
    (b : Nat) (hb : b < s.size) (hr : 0 < (s.buf b).refcnt) :
    (t.buf b).dev = (s.buf b).dev ∧ (t.buf b).blockno = (s.buf b).blockno ∧
    (t.buf b).valid = (s.buf b).valid ∧
    ∀ i l, i < NBUCKET → Bucket s i l → b ∈ l → ∃ m, Bucket t i m ∧ b ∈ m := by
  obtain ⟨⟨L, hL⟩, _⟩ := h.inv
  obtain ⟨M, hM, _, hkeep⟩ := bget_step hL fuel pid dev blockno ht
  obtain ⟨h1, h2, h3, h4⟩ := hkeep b hb hr
  refine ⟨h1, h2, h3, fun i l hi hl hbl => ⟨M i, hM.chain i hi, h4 i hi ?_⟩⟩
  rw [← IsChain.chain_unique hl (hL.chain i hi)]
  exact hbl

set_option maxRecDepth 100000 in
/-- Witness for `C2_pinned_not_evicted`: process 2 asks for block 30 in the
full pool; slot 3 is recycled and moved from bucket 3 to bucket 4, and the
pinned slot 16, which preceded it in the chain of bucket 3, keeps its identity
and its bucket. -/
theorem C2_pinned_not_evicted_witness :
    (afterEvict.buf 16).dev = (idlePool.buf 16).dev ∧
    (afterEvict.buf 16).blockno = (idlePool.buf 16).blockno ∧
    (afterEvict.buf 16).valid = (idlePool.buf 16).valid ∧
    ∀ i l, i < NBUCKET → Bucket idlePool i l → 16 ∈ l → ∃ m, Bucket afterEvict i m ∧ 16 ∈ m :=
  C2_pinned_not_evicted NBUFxv6 sampleDisk idlePool idlePool_reachable 31 2 0 30 afterEvict
    (by rfl) 16 (by decide) (by decide)

/-- The buffer that bread delivers is the buffer that bget delivers. -/
theorem bread_buffer (NBUF fuel pid : Nat) (disk : Nat → Nat → List Nat) (s : BCache)
    (dev blockno : Nat) :
    (bread NBUF fuel pid disk s dev blockno).buffer =
      (bget NBUF fuel pid s dev blockno).buffer := by
  unfold bread
  cases bget NBUF fuel pid s dev blockno with
  | ret b s1 =>
    simp only []
    split <;> rfl
  | sleeps b s1 => rfl
  | fatal => rfl
  | hang => rfl

/-- C4: with the device a fixed map from `(dev, blockno)` to block contents
and no write to a payload, every buffer that bread(dev, blockno) returns in a
reachable state names the requested block, has `valid` set and holds the
device contents of `(dev, blockno)`, whether it was cached, freshly claimed or
recycled from another block; and with more fuel than claimed slots bread does
not hang. -/
theorem C4_read_contents (NBUF : Nat) (disk : Nat → Nat → List Nat) (s : BCache)
    (h : Reachable NBUF disk s) (fuel pid dev blockno : Nat) :
    (∀ b t, bread NBUF fuel pid disk s dev blockno = .ret b t →
      (t.buf b).valid = true ∧ (t.buf b).data = disk dev blockno ∧
      (t.buf b).dev = dev ∧ (t.buf b).blockno = blockno) ∧
    (s.size < fuel → bread NBUF fuel pid disk s dev blockno ≠ .hang) := by
  obtain ⟨⟨L, hL⟩, hD⟩ := h.inv
  constructor
  · intro b t hr
    obtain ⟨s1, hs1, hcase⟩ := bread_ret hr
    have hst : (bget NBUF fuel pid s dev blockno).state = some s1 := by rw [hs1]; rfl
    obtain ⟨⟨b1, hb1, hid⟩, hdat⟩ := bget_data hL fuel pid dev blockno hst
    rw [hs1] at hb1
    cases hb1
    rcases hcase with ⟨hv, rfl⟩ | ⟨_, rfl⟩
    · obtain ⟨h1, h2, h3⟩ := (hdat b).2 hv
      refine ⟨hv, ?_, hid.1, hid.2⟩
      rw [(hdat b).1, hD b h1, ← h2, ← h3, hid.1, hid.2]
    · rw [fill_buf, if_pos rfl]
      exact ⟨rfl, by simp only []; rw [hid.1, hid.2], hid.1, hid.2⟩
  · intro hf hh
    have hne := bget_fuel hL pid dev blockno hf
    unfold bread at hh
    cases hg : bget NBUF fuel pid s dev blockno with
    | ret b s1 =>
      rw [hg] at hh
      simp only [] at hh
      split at hh <;> cases hh
    | sleeps b s1 => rw [hg] at hh; cases hh
    | fatal => rw [hg] at hh; cases hh
    | hang => exact hne hg

set_option maxRecDepth 100000 in
/-- Witness for `C4_read_contents`: process 2 reads block 30 of device 0 in
the full pool and gets slot 3, recycled from block 3. -/
theorem C4_read_contents_witness :
    (idlePool.buf 3).blockno = 3 ∧
    (∃ t, bread NBUFxv6 31 2 sampleDisk idlePool 0 30 = .ret 3 t) ∧
    (∀ b t, bread NBUFxv6 31 2 sampleDisk idlePool 0 30 = .ret b t →
      (t.buf b).valid = true ∧ (t.buf b).data = sampleDisk 0 30 ∧
      (t.buf b).dev = 0 ∧ (t.buf b).blockno = 30) ∧
    (idlePool.size < 31 → bread NBUFxv6 31 2 sampleDisk idlePool 0 30 ≠ .hang) :=
  ⟨by decide, ⟨_, rfl⟩,
    C4_read_contents NBUFxv6 sampleDisk idlePool idlePool_reachable 31 2 0 30⟩

set_option maxRecDepth 100000 in
/-- C10, the failing input: `latePool` is reachable, the pool is full, block
30 of device 0 is not cached, and slot 0 has reference count 0, released when
the clock was 4294967295; bget(0, 30) nevertheless ends in
`panic("bget: no buffers")`. -/
theorem C10_no_buffers_failing_input :
    Reachable NBUFxv6 sampleDisk latePool ∧ latePool.size = NBUFxv6 ∧
    (∀ b, b < latePool.size → ¬ ((latePool.buf b).dev = 0 ∧ (latePool.buf b).blockno = 30)) ∧
    (latePool.buf 0).refcnt = 0 ∧ (latePool.buf 0).time = 4294967295 ∧
    bget NBUFxv6 31 2 latePool 0 30 = .fatal :=
  ⟨⟨fillCalls ++ [.brelse 1 4294967295 0], by rfl⟩, by decide, by decide, by decide, by decide,
    by rfl⟩

theorem toUint_lt (i : Int) : toUint i < UINT := by
  unfold toUint UINT
  have h1 : (0 : Int) ≤ i % ((2 ^ 32 : Nat) : Int) := Int.emod_nonneg _ (by decide)
  have h2 : i % ((2 ^ 32 : Nat) : Int) < ((2 ^ 32 : Nat) : Int) := Int.emod_lt_of_pos _ (by decide)
  omega

/-- A victim picked by the eviction scan is idle and stamped below
4294967295. -/
theorem scan_victim_idle {s : BCache} {dev blockno idx : Nat} :
    ∀ (fuel : Nat) (pre : Pre) (p : Option Nat) (mt : Int)
      (m : Option (Nat × Pre)) {b : Nat} {q : Pre},
      scan s dev blockno idx fuel pre p mt m = .done (some (b, q)) →
      m = some (b, q) ∨ ((s.buf b).refcnt = 0 ∧ (s.buf b).time < UINT - 1)
  | 0, _, _, _, _, _, _, h => by simp [scan] at h
  | _ + 1, _, none, _, m, _, _, h => by
    simp only [scan, ScanRes.done.injEq] at h
    exact Or.inl h
  | fuel + 1, pre, some c, mt, m, b, q, h => by
    unfold scan at h
    split at h
    · cases h
    · split at h
      · next hcand =>
        rcases scan_victim_idle fuel _ _ _ _ h with h1 | h1
        · right
          cases h1
          have := toUint_lt mt
          exact ⟨hcand.1, by omega⟩
        · exact Or.inr h1
      · exact scan_victim_idle fuel _ _ _ _ h

/-- On a chain shorter than the fuel that holds neither the requested block
nor an idle slot stamped below `mintime`, the eviction scan ends with the
victim it started with. -/
theorem scan_skip (s : BCache) (dev blockno idx : Nat) :
    ∀ (fuel : Nat) {l : List Nat} (pre : Pre) {p : Option Nat} (mt : Int)
      (m : Option (Nat × Pre)), IsChain s p l → l.length < fuel →
      (∀ b, b ∈ l → ¬ ((s.buf b).dev = dev ∧ (s.buf b).blockno = blockno)) →
      (∀ b, b ∈ l → ¬ ((s.buf b).refcnt = 0 ∧ (s.buf b).time < toUint mt)) →
      scan s dev blockno idx fuel pre p mt m = .done m
  | 0, _, _, _, _, _, _, h, _, _ => by omega
  | _ + 1, [], _, p, _, _, hc, _, _, _ => by
    have : p = none := hc
    subst this
    simp [scan]
  | fuel + 1, c :: l, pre, p, mt, m, hc, hf, hnm, hni => by
    have : p = some c := hc.1
    subst this
    unfold scan
    rw [if_neg (fun hh => hnm c (List.mem_cons_self _ _) hh.2),
      if_neg (hni c (List.mem_cons_self _ _))]
    exact scan_skip s dev blockno idx fuel _ _ _ hc.2 (by simpa using hf)
      (fun b hb => hnm b (List.mem_cons_of_mem _ hb))
      (fun b hb => hni b (List.mem_cons_of_mem _ hb))

theorem acquiresleep_ne_fatal (pid : Nat) (s : BCache) (b : Nat) :
    acquiresleep pid s b ≠ .fatal := by
  unfold acquiresleep
  split <;> simp

theorem wrap_mod {idx : Nat} (h : idx < NBUCKET) :
    (if idx + 1 = NBUCKET then 0 else idx + 1) = (idx + 1) % NBUCKET := by
  unfold NBUCKET at *
  split <;> omega

/-- When the eviction loop ends fatally, no slot in the buckets it visited is
idle and stamped below 4294967295. -/
theorem evict_fatal {NBUF : Nat} {s : BCache} {L : Nat → List Nat} (h : Inv NBUF s L)
    (fuel pid dev blockno : Nat) :
    ∀ (n idx : Nat), idx < NBUCKET → evict fuel pid dev blockno n idx s = .fatal →
      ∀ j, j < n → ∀ b, b ∈ L ((idx + j) % NBUCKET) →
        ¬ ((s.buf b).refcnt = 0 ∧ (s.buf b).time < UINT - 1)
  | 0, _, _, _ => fun j hj => by omega
  | n + 1, idx, hidx, hev => by
    unfold evict at hev
    cases hsc : scan s dev blockno idx fuel .sentinel (s.buckets idx) (-1) none with
    | hang => rw [hsc] at hev; cases hev
    | hit b => rw [hsc] at hev; exact absurd hev (acquiresleep_ne_fatal _ _ _)
    | done m =>
      rw [hsc] at hev
      cases m with
      | some v => exact absurd hev (acquiresleep_ne_fatal _ _ _)
      | none =>
        simp only [] at hev
        rw [wrap_mod hidx] at hev
        have hrest := evict_fatal h fuel pid dev blockno n ((idx + 1) % NBUCKET)
          (Nat.mod_lt _ (by decide)) hev
        have hhere := (scan_none fuel _ _ _ (h.chain idx hidx) hsc).2
        rw [toUint_neg_one] at hhere
        intro j hj b hb
        by_cases hj0 : j = 0
        · subst hj0
          rw [Nat.add_zero, Nat.mod_eq_of_lt hidx] at hb
          exact hhere b hb
        · obtain ⟨k, rfl⟩ := Nat.exists_eq_succ_of_ne_zero hj0
          refine hrest k (by omega) b ?_
          have e : ((idx + 1) % NBUCKET + k) % NBUCKET = (idx + (k + 1)) % NBUCKET := by
            rw [Nat.add_mod, Nat.mod_mod, ← Nat.add_mod]
            congr 1
            omega
          rw [e]; exact hb

/-- When no visited bucket holds an idle slot stamped below 4294967295 and the
request is not cached, the eviction loop ends fatally. -/
theorem evict_all_busy {NBUF : Nat} {s : BCache} {L : Nat → List Nat} (h : Inv NBUF s L)
    {fuel : Nat} (pid : Nat) {dev blockno : Nat} (hf : s.size < fuel)
    (hnc : ∀ b, b < s.size → ¬ ((s.buf b).dev = dev ∧ (s.buf b).blockno = blockno))
    (hbusy : ∀ b, b < s.size → ¬ ((s.buf b).refcnt = 0 ∧ (s.buf b).time < UINT - 1)) :
    ∀ (n idx : Nat), idx < NBUCKET → evict fuel pid dev blockno n idx s = .fatal
  | 0, _, _ => rfl
  | n + 1, idx, hidx => by
    unfold evict
    have hsk := scan_skip s dev blockno idx fuel .sentinel (-1) none (h.chain idx hidx)
      (lt_of_le_of_lt (h.length_le hidx) hf)
      (fun b hb => hnc b (h.mem_lt idx hidx b hb).1)
      (fun b hb => by rw [toUint_neg_one]; exact hbusy b (h.mem_lt idx hidx b hb).1)
    rw [hsk]
    simp only []
    rw [wrap_mod hidx]
    exact evict_all_busy h pid hf hnc hbusy n _ (Nat.mod_lt _ (by decide))

/-- Every bucket is visited by thirteen steps from any start. -/
theorem bucket_visited {idx i : Nat} (hidx : idx < NBUCKET) (hi : i < NBUCKET) :
    ∃ j, j < NBUCKET ∧ i = (idx + j) % NBUCKET := by
  unfold NBUCKET at *
  by_cases h : idx ≤ i
  · exact ⟨i - idx, by omega, by omega⟩
  · exact ⟨13 - idx + i, by omega, by omega⟩

/-- What the code does in place of C10: in a structured state and with more
fuel than claimed slots, bget ends in `panic("bget: no buffers")` exactly when
the block is not cached, the pool is at capacity, and every buffer has a
non-zero reference count or the timestamp 4294967295. -/
theorem bget_fatal_iff {NBUF : Nat} {s : BCache} {L : Nat → List Nat} (h : Inv NBUF s L)
    {fuel : Nat} (pid dev blockno : Nat) (hf : s.size < fuel) :
    bget NBUF fuel pid s dev blockno = .fatal ↔
      (∀ b, b < s.size → ¬ ((s.buf b).dev = dev ∧ (s.buf b).blockno = blockno)) ∧
      s.size = NBUF ∧
      ∀ b, b < s.size → (s.buf b).refcnt ≠ 0 ∨ (s.buf b).time = UINT - 1 := by
  have hch := h.chain (HASH blockno) (HASH_lt _)
  have hlf := lookup_fuel s dev blockno fuel hch (lt_of_le_of_lt (h.length_le (HASH_lt _)) hf)
  constructor
  · intro hfat
    unfold bget at hfat
    cases hlk : lookup s dev blockno fuel (s.buckets (HASH blockno)) with
    | none => exact absurd hlk hlf
    | some r =>
      rw [hlk] at hfat
      cases r with
      | some b => exact absurd hfat (acquiresleep_ne_fatal _ _ _)
      | none =>
        simp only [] at hfat
        have hnc := h.not_cached (lookup_miss fuel hch hlk)
        split at hfat
        · exact absurd hfat (acquiresleep_ne_fatal _ _ _)
        · next hsz =>
          refine ⟨hnc, le_antisymm h.size_le (by omega), fun b hb => ?_⟩
          have hbl := h.mem_of b hb
          obtain ⟨j, hj, hij⟩ := bucket_visited (HASH_lt blockno) (HASH_lt (s.buf b).blockno)
          rw [hij] at hbl
          have := evict_fatal h fuel pid dev blockno NBUCKET (HASH blockno) (HASH_lt _) hfat
            j hj b hbl
          have ht := h.time_lt b
          by_cases hr : (s.buf b).refcnt = 0
          · right
            have : ¬ (s.buf b).time < UINT - 1 := fun hh => this ⟨hr, hh⟩
            omega
          · exact Or.inl hr
  · rintro ⟨hnc, hsz, hbusy⟩
    unfold bget
    cases hlk : lookup s dev blockno fuel (s.buckets (HASH blockno)) with
    | none => exact absurd hlk hlf
    | some r =>
      cases r with
      | some b =>
        exfalso
        exact hnc b (h.mem_lt _ (HASH_lt _) b (lookup_mem fuel hch hlk)).1 (lookup_match fuel _ hlk)
      | none =>
        simp only []
        rw [if_neg (by omega)]
        exact evict_all_busy h pid hf hnc (fun b hb hh => by
          rcases hbusy b hb with h1 | h1
          · exact h1 hh.1
          · omega) NBUCKET (HASH blockno) (HASH_lt _)

theorem holdingsleep_false_iff (pid : Nat) (s : BCache) (b : Nat) :
    holdingsleep pid s b = false ↔ (s.buf b).lock ≠ some pid := by
  unfold holdingsleep
  simp

/-- A brelse by the holder of the lock returns. -/
theorem brelse_returns (pid ticks : Nat) (s : BCache) (b : Nat)
    (hl : (s.buf b).lock = some pid) : ∃ t, brelse pid ticks s b = some t := by
  have hh : ¬ holdingsleep pid s b = false :=
    fun h => (holdingsleep_false_iff pid s b).1 h hl
  unfold brelse
  rw [if_neg hh]
  simp only []
  split
  · exact ⟨_, rfl⟩
  · exact ⟨_, rfl⟩

/-- The run of bwrite that keeps the state at the `panic` leaves the device
as `bwrite` does. -/
theorem bwriteExec_result (pid : Nat) (m : Machine) (b : Nat) :
    ((bwriteExec pid m b).result).map Machine.disk = bwrite pid m.disk m.cache b := by
  unfold bwriteExec bwrite
  by_cases hh : holdingsleep pid m.cache b = false
  · rw [if_pos hh, if_pos hh]; rfl
  · rw [if_neg hh, if_neg hh]; rfl

/-- The run of brelse that keeps the state at the `panic` leaves the cache as
`brelse` does, and does not touch the device. -/
theorem brelseExec_result (pid ticks : Nat) (m : Machine) (b : Nat) :
    ((brelseExec pid ticks m b).result).map Machine.cache = brelse pid ticks m.cache b ∧
    ∀ m1, brelseExec pid ticks m b = .done m1 → m1.disk = m.disk := by
  unfold brelseExec brelse
  by_cases hh : holdingsleep pid m.cache b = false
  · rw [if_pos hh, if_pos hh]
    exact ⟨rfl, fun m1 h1 => by cases h1⟩
  · rw [if_neg hh, if_neg hh]
    simp only []
    split
    · exact ⟨rfl, fun m1 h1 => by cases h1; rfl⟩
    · exact ⟨rfl, fun m1 h1 => by cases h1; rfl⟩

/-- C12: for every buffer `b`, bwrite(b) and brelse(b) each take the fatal
path if and only if the caller does not hold the sleep lock of `b`, and they
reach the `panic` with the cache and the device in the state they were called
in: no device write has been issued, the lock has not been released, and the
reference count and the timestamp of `b` are unchanged.  When the caller holds
the lock, bwrite returns after writing the payload to the device and brelse
returns with the lock free. -/
theorem C12_lock_required (pid ticks : Nat) (m : Machine) (b : Nat) :
    (bwriteExec pid m b = .fatal m ↔ (m.cache.buf b).lock ≠ some pid) ∧
    (brelseExec pid ticks m b = .fatal m ↔ (m.cache.buf b).lock ≠ some pid) ∧
    (∀ m1, (bwriteExec pid m b = .fatal m1 ∨ brelseExec pid ticks m b = .fatal m1) →
      (m.cache.buf b).lock ≠ some pid ∧ m1 = m ∧ m1.disk = m.disk ∧
      (m1.cache.buf b).lock = (m.cache.buf b).lock ∧
      (m1.cache.buf b).refcnt = (m.cache.buf b).refcnt ∧
      (m1.cache.buf b).time = (m.cache.buf b).time) ∧
    (bwrite pid m.disk m.cache b = ((bwriteExec pid m b).result).map Machine.disk) ∧
    (brelse pid ticks m.cache b = ((brelseExec pid ticks m b).result).map Machine.cache) ∧
    (bwrite pid m.disk m.cache b = none ↔ (m.cache.buf b).lock ≠ some pid) ∧
    (brelse pid ticks m.cache b = none ↔ (m.cache.buf b).lock ≠ some pid) ∧
    ((m.cache.buf b).lock = some pid →
      bwriteExec pid m b = .done { cache := m.cache, disk := diskWrite m.disk m.cache b } ∧
      bwrite pid m.disk m.cache b = some (diskWrite m.disk m.cache b) ∧
      ∃ t, brelseExec pid ticks m b = .done { cache := t, disk := m.disk } ∧
        brelse pid ticks m.cache b = some t ∧ (t.buf b).lock = none) := by
  have hiff := holdingsleep_false_iff pid m.cache b
  have hbr : ∀ (hh : holdingsleep pid m.cache b ≠ false),
      ∃ t, brelseExec pid ticks m b = .done { cache := t, disk := m.disk } ∧
        brelse pid ticks m.cache b = some t := by
    intro hh
    unfold brelseExec brelse
    rw [if_neg hh, if_neg hh]
    simp only []
    split
    · exact ⟨_, rfl, rfl⟩
    · exact ⟨_, rfl, rfl⟩
  refine ⟨?_, ?_, ?_, (bwriteExec_result pid m b).symm, (brelseExec_result pid ticks m b).1.symm,
    ?_, ?_, ?_⟩
  · unfold bwriteExec
    by_cases hh : holdingsleep pid m.cache b = false
    · rw [if_pos hh]; exact ⟨fun _ => hiff.1 hh, fun _ => rfl⟩
    · rw [if_neg hh]
      exact ⟨fun h => (by cases h), fun h => absurd (hiff.2 h) hh⟩
  · by_cases hh : holdingsleep pid m.cache b = false
    · have : brelseExec pid ticks m b = .fatal m := by unfold brelseExec; rw [if_pos hh]
      rw [this]; exact ⟨fun _ => hiff.1 hh, fun _ => rfl⟩
    · obtain ⟨t, ht, _⟩ := hbr hh
      rw [ht]
      exact ⟨fun h => (by cases h), fun h => absurd (hiff.2 h) hh⟩
  · intro m1 h1
    by_cases hh : holdingsleep pid m.cache b = false
    · have hw : bwriteExec pid m b = .fatal m := by unfold bwriteExec; rw [if_pos hh]
      have hb : brelseExec pid ticks m b = .fatal m := by unfold brelseExec; rw [if_pos hh]
      rw [hw, hb] at h1
      have he : m1 = m := by
        rcases h1 with h1 | h1 <;> cases h1 <;> rfl
      subst he
      exact ⟨hiff.1 hh, rfl, rfl, rfl, rfl, rfl⟩
    · have hw : bwriteExec pid m b =
          .done { cache := m.cache, disk := diskWrite m.disk m.cache b } := by
        unfold bwriteExec; rw [if_neg hh]
      obtain ⟨t, ht, _⟩ := hbr hh
      rw [hw, ht] at h1
      rcases h1 with h1 | h1 <;> cases h1
  · unfold bwrite
    by_cases hh : holdingsleep pid m.cache b = false
    · rw [if_pos hh]; exact ⟨fun _ => hiff.1 hh, fun _ => rfl⟩
    · rw [if_neg hh]
      exact ⟨fun h => (by cases h), fun h => absurd (hiff.2 h) hh⟩
  · by_cases hh : holdingsleep pid m.cache b = false
    · have : brelse pid ticks m.cache b = none := by unfold brelse; rw [if_pos hh]
      rw [this]; exact ⟨fun _ => hiff.1 hh, fun _ => rfl⟩
    · obtain ⟨t, _, ht⟩ := hbr hh
      rw [ht]
      exact ⟨fun h => (by cases h), fun h => absurd (hiff.2 h) hh⟩
  · intro hl
    have hh : ¬ holdingsleep pid m.cache b = false := fun h => hiff.1 h hl
    obtain ⟨t, ht, ht2⟩ := hbr hh
    refine ⟨by unfold bwriteExec; rw [if_neg hh], by unfold bwrite; rw [if_neg hh],
      t, ht, ht2, (brelse_spec ht2).2.2.2.1⟩

/-- C13: for every buffer `b` whose lock the caller holds and whose reference
count is `n >= 1`, brelse(b) releases the lock and sets the reference count
to `n - 1`; the timestamp of `b` becomes the current value of `ticks` when
`n - 1 = 0` and is unchanged otherwise; `dev`, `blockno`, the `valid` flag and
the payload of `b`, the size, all bucket chains and every other buffer are
unchanged. -/
theorem C13_brelse_effect (pid ticks : Nat) (s : BCache) (b : Nat)
    (hh : (s.buf b).lock = some pid) (hn : 1 ≤ (s.buf b).refcnt)
    (hu : (s.buf b).refcnt < UINT) :
    ∃ t, brelse pid ticks s b = some t ∧ (t.buf b).lock = none ∧
      (t.buf b).refcnt = (s.buf b).refcnt - 1 ∧
      (t.buf b).time = (if (s.buf b).refcnt - 1 = 0 then ticks else (s.buf b).time) ∧
      (t.buf b).dev = (s.buf b).dev ∧ (t.buf b).blockno = (s.buf b).blockno ∧
      (t.buf b).valid = (s.buf b).valid ∧ (t.buf b).data = (s.buf b).data ∧
      t.size = s.size ∧ t.buckets = s.buckets ∧
      (∀ i l, Bucket s i l ↔ Bucket t i l) ∧
      ∀ c, c ≠ b → t.buf c = s.buf c := by
  obtain ⟨t, ht⟩ := brelse_returns pid ticks s b hh
  obtain ⟨_, hsz, hbk, hlk, hrc, htm, hsame, hoth⟩ := brelse_spec ht
  have hdec : decr (s.buf b).refcnt = (s.buf b).refcnt - 1 := by
    unfold decr UINT at *
    rw [show (s.buf b).refcnt + 2 ^ 32 - 1 = (s.buf b).refcnt - 1 + 2 ^ 32 by omega,
      Nat.add_mod_right]
    exact Nat.mod_eq_of_lt (by omega)
  refine ⟨t, ht, hlk, by rw [hrc, hdec], by rw [htm, hdec], (hsame b).1, (hsame b).2.1,
    (hsame b).2.2.1, (hsame b).2.2.2.2, hsz, hbk, fun i l => ?_, hoth⟩
  unfold Bucket
  rw [hbk]
  exact ⟨fun h => IsChain.chain_frame h (fun c _ => (hsame c).2.2.2.1),
    fun h => IsChain.chain_frame h (fun c _ => ((hsame c).2.2.2.1).symm)⟩

set_option maxRecDepth 100000 in
/-- Witness for `C13_brelse_effect`: process 1 releases slot 5 of the full
pool, which it holds with reference count 1, when the clock is 9. -/
theorem C13_brelse_effect_witness :
    ∃ t, brelse 1 9 idlePool 5 = some t ∧ (t.buf 5).lock = none ∧
      (t.buf 5).refcnt = (idlePool.buf 5).refcnt - 1 ∧
      (t.buf 5).time = (if (idlePool.buf 5).refcnt - 1 = 0 then 9 else (idlePool.buf 5).time) ∧
      (t.buf 5).dev = (idlePool.buf 5).dev ∧ (t.buf 5).blockno = (idlePool.buf 5).blockno ∧
      (t.buf 5).valid = (idlePool.buf 5).valid ∧ (t.buf 5).data = (idlePool.buf 5).data ∧
      t.size = idlePool.size ∧ t.buckets = idlePool.buckets ∧
      (∀ i l, Bucket idlePool i l ↔ Bucket t i l) ∧
      ∀ c, c ≠ 5 → t.buf c = idlePool.buf c :=
  C13_brelse_effect 1 9 idlePool 5 (by decide) (by decide) (by decide)

/-- In a structured state the chains of different buckets share no slot. -/
theorem Inv.disjoint {NBUF : Nat} {s : BCache} {L : Nat → List Nat} (h : Inv NBUF s L)
    {i k : Nat} (hi : i < NBUCKET) (hk : k < NBUCKET) (hik : i ≠ k) :
    List.Disjoint (L i) (L k) :=
  fun _ hbi hbk => hik (h.bucket_eq hi hk hbi hbk)

/-- In a structured state the chains together hold the claimed slots, each
once. -/
theorem Inv.perm {NBUF : Nat} {s : BCache} {L : Nat → List Nat} (h : Inv NBUF s L) :
    List.Perm ((List.range NBUCKET).flatMap L) (List.range s.size) := by
  have hnd : ((List.range NBUCKET).flatMap L).Nodup := by
    rw [List.nodup_flatMap]
    refine ⟨fun i hi => IsChain.chain_nodup (h.chain i (List.mem_range.1 hi)), ?_⟩
    exact (List.nodup_range NBUCKET).pairwise_of_forall_ne
      (fun i hi k hk hik => h.disjoint (List.mem_range.1 hi) (List.mem_range.1 hk) hik)
  rw [List.perm_ext_iff_of_nodup hnd (List.nodup_range _)]
  intro b
  simp only [List.mem_flatMap, List.mem_range]
  constructor
  · rintro ⟨i, hi, hb⟩
    exact (h.mem_lt i hi b hb).1
  · intro hb
    exact ⟨HASH (s.buf b).blockno, HASH_lt _, h.mem_of b hb⟩

/-- C16: in every state reachable from binit by bread, bget, brelse, bpin and
bunpin, `bcache.size` does not exceed NBUF and no further sequence of calls
makes it smaller; the NBUCKET bucket chains are null-terminated without a
repeated slot (acyclic), pairwise disjoint, and together hold exactly the pool
slots `0..size-1`, each once; and every buffer linked in bucket `i` has
`blockno mod NBUCKET = i`. -/
theorem C16_chain_structure (NBUF : Nat) (disk : Nat → Nat → List Nat) (s : BCache)
    (h : Reachable NBUF disk s) :
    s.size ≤ NBUF ∧
    (∀ cs t, runCalls NBUF disk s cs = some t → s.size ≤ t.size ∧ t.size ≤ NBUF) ∧
    ∃ L : Nat → List Nat,
      (∀ i, i < NBUCKET → Bucket s i (L i) ∧ (L i).Nodup) ∧
      (∀ i k, i < NBUCKET → k < NBUCKET → i ≠ k → List.Disjoint (L i) (L k)) ∧
      List.Perm ((List.range NBUCKET).flatMap L) (List.range s.size) ∧
      ∀ i, i < NBUCKET → ∀ b, b ∈ L i → (s.buf b).blockno % NBUCKET = i := by
  obtain ⟨⟨L, hL⟩, hD⟩ := h.inv
  refine ⟨hL.size_le, fun cs t hr => ?_, L, fun i hi => ⟨hL.chain i hi,
    IsChain.chain_nodup (hL.chain i hi)⟩, fun i k hi hk hik => hL.disjoint hi hk hik,
    hL.perm, fun i hi b hb => (hL.mem_lt i hi b hb).2⟩
  obtain ⟨⟨M, hM⟩, _, hsz⟩ := runCalls_inv cs hL hD hr
  exact ⟨hsz, hM.size_le⟩

set_option maxRecDepth 100000 in
/-- Witness for `C16_chain_structure`: the full pool. -/
theorem C16_chain_structure_witness :
    idlePool.size ≤ NBUFxv6 ∧
    (∀ cs t, runCalls NBUFxv6 sampleDisk idlePool cs = some t →
      idlePool.size ≤ t.size ∧ t.size ≤ NBUFxv6) ∧
    ∃ L : Nat → List Nat,
      (∀ i, i < NBUCKET → Bucket idlePool i (L i) ∧ (L i).Nodup) ∧
      (∀ i k, i < NBUCKET → k < NBUCKET → i ≠ k → List.Disjoint (L i) (L k)) ∧
      List.Perm ((List.range NBUCKET).flatMap L) (List.range idlePool.size) ∧
      ∀ i, i < NBUCKET → ∀ b, b ∈ L i → (idlePool.buf b).blockno % NBUCKET = i :=
  C16_chain_structure NBUFxv6 sampleDisk idlePool idlePool_reachable

set_option maxRecDepth 100000 in
/-- The state `twoHeld` is reached by two reads. -/
theorem twoHeld_reachable : Reachable NBUFxv6 sampleDisk twoHeld :=
  ⟨[.bread 31 1 0 1, .bread 31 1 0 14], by rfl⟩

/-- C17: on a miss of bget(dev, blockno) in a reachable state with
`bcache.size < NBUF`, bget delivers exactly the pool slot at index `size` and
increments `size` by one; the slot gets the requested `dev` and `blockno`,
reference count 1 and `valid` false, and becomes the head of the chain of
bucket `HASH(blockno)` with the previous chain following it unchanged; every
other bucket chain and every other buffer is unchanged, so no buffer is
evicted. -/
theorem C17_claim_slot (NBUF : Nat) (disk : Nat → Nat → List Nat) (s : BCache)
    (h : Reachable NBUF disk s) (fuel pid dev blockno : Nat)
    (hnc : ∀ b, b < s.size → ¬ ((s.buf b).dev = dev ∧ (s.buf b).blockno = blockno))
    (hsz : s.size < NBUF) (hf : s.size < fuel) :
    ∃ t, (bget NBUF fuel pid s dev blockno = .ret s.size t ∨
          bget NBUF fuel pid s dev blockno = .sleeps s.size t) ∧
      t.size = s.size + 1 ∧
      (t.buf s.size).dev = dev ∧ (t.buf s.size).blockno = blockno ∧
      (t.buf s.size).refcnt = 1 ∧ (t.buf s.size).valid = false ∧
      (∀ l, Bucket s (HASH blockno) l → Bucket t (HASH blockno) (s.size :: l)) ∧
      (∀ i l, i < NBUCKET → i ≠ HASH blockno → (Bucket s i l ↔ Bucket t i l)) ∧
      ∀ b, b ≠ s.size → t.buf b = s.buf b := by
  obtain ⟨⟨L, hL⟩, _⟩ := h.inv
  have hbg : bget NBUF fuel pid s dev blockno = acquiresleep pid (claim s dev blockno) s.size := by
    rcases bget_cases hL fuel pid dev blockno with h1 | ⟨b, hb, hd, hn, _⟩ |
        ⟨_, ⟨_, h1⟩ | ⟨h2, _⟩ | ⟨h2, _⟩⟩
    · exact absurd h1 (bget_fuel hL pid dev blockno hf)
    · exact absurd ⟨hd, hn⟩ (hnc b (hL.mem_lt _ (HASH_lt _) b hb).1)
    · exact h1
    · exact absurd hsz h2
    · exact absurd hsz h2
  have hInv := hL.claim hsz hnc
  -- the state after the lock acquisition, in both outcomes
  have key : ∀ t : BCache, SameButLock (claim s dev blockno) t →
      (∀ b, b ≠ s.size → t.buf b = (claim s dev blockno).buf b) →
      t.size = s.size + 1 ∧
      (t.buf s.size).dev = dev ∧ (t.buf s.size).blockno = blockno ∧
      (t.buf s.size).refcnt = 1 ∧ (t.buf s.size).valid = false ∧
      (∀ l, Bucket s (HASH blockno) l → Bucket t (HASH blockno) (s.size :: l)) ∧
      (∀ i l, i < NBUCKET → i ≠ HASH blockno → (Bucket s i l ↔ Bucket t i l)) ∧
      ∀ b, b ≠ s.size → t.buf b = s.buf b := by
    intro t hs hoth
    have hInvt := hInv.of_same hs
    have hnew := hs.2.2 s.size
    rw [claim_buf_new] at hnew
    have hchain : ∀ i, i < NBUCKET → i ≠ HASH blockno → Bucket t i (L i) := fun i hi hne => by
      have := hInvt.chain i hi
      rw [Function.update_noteq hne] at this
      exact this
    refine ⟨by rw [hs.1, claim_size], hnew.1, hnew.2.1, hnew.2.2.2.1, hnew.2.2.1,
      fun l hl => ?_, fun i l hi hne => ⟨fun hl => ?_, fun hl => ?_⟩,
      fun b hb => by rw [hoth b hb, claim_buf_other s dev blockno hb]⟩
    · have := hInvt.chain (HASH blockno) (HASH_lt _)
      rw [Function.update_same] at this
      rw [IsChain.chain_unique hl (hL.chain _ (HASH_lt _))]
      exact this
    · rw [IsChain.chain_unique hl (hL.chain i hi)]
      exact hchain i hi hne
    · rw [IsChain.chain_unique hl (hchain i hi hne)]
      exact hL.chain i hi
  rw [hbg]
  unfold acquiresleep
  cases hl : ((claim s dev blockno).buf s.size).lock with
  | none =>
    refine ⟨_, Or.inl rfl, key _ ⟨rfl, rfl, fun c => ?_⟩ (fun b hb => setBuf_other _ _ hb)⟩
    by_cases hc : c = s.size
    · subst hc; simp
    · simp [setBuf_other _ _ hc]
  | some q =>
    exact ⟨_, Or.inr rfl, key _ (SameButLock.refl _) (fun _ _ => rfl)⟩

set_option maxRecDepth 100000 in
/-- Witness for `C17_claim_slot`: process 2 asks for block 27 of device 0
when blocks 1 and 14, which share its bucket, are cached in slots 0 and 1. -/
theorem C17_claim_slot_witness :
    ∃ t, (bget NBUFxv6 31 2 twoHeld 0 27 = .ret twoHeld.size t ∨
          bget NBUFxv6 31 2 twoHeld 0 27 = .sleeps twoHeld.size t) ∧
      t.size = twoHeld.size + 1 ∧
      (t.buf twoHeld.size).dev = 0 ∧ (t.buf twoHeld.size).blockno = 27 ∧
      (t.buf twoHeld.size).refcnt = 1 ∧ (t.buf twoHeld.size).valid = false ∧
      (∀ l, Bucket twoHeld (HASH 27) l → Bucket t (HASH 27) (twoHeld.size :: l)) ∧
      (∀ i l, i < NBUCKET → i ≠ HASH 27 → (Bucket twoHeld i l ↔ Bucket t i l)) ∧
      ∀ b, b ≠ twoHeld.size → t.buf b = twoHeld.buf b :=
  C17_claim_slot NBUFxv6 sampleDisk twoHeld twoHeld_reachable 31 2 0 27 (by decide)
    (by decide) (by decide)

/-- On a chain that holds an idle slot stamped below `mintime` and no match,
the eviction scan ends with the idle slot of smallest timestamp, the first
one of the chain among equal timestamps, paired with its predecessor. -/
theorem scan_min (s : BCache) (dev blockno idx : Nat) :
    ∀ (fuel : Nat) {l : List Nat} (pre : Pre) {p : Option Nat} (mt : Int)
      (m : Option (Nat × Pre)), IsChain s p l → l.length < fuel →
      (∀ b, b ∈ l → ¬ ((s.buf b).dev = dev ∧ (s.buf b).blockno = blockno)) →
      (∀ b, b ∈ l → (s.buf b).time < UINT) →
      (∃ b, b ∈ l ∧ (s.buf b).refcnt = 0 ∧ (s.buf b).time < toUint mt) →
      ∃ l1 b l2, l = l1 ++ b :: l2 ∧
        scan s dev blockno idx fuel pre p mt m = .done (some (b, lastPre pre l1)) ∧
        (s.buf b).refcnt = 0 ∧ (s.buf b).time < toUint mt ∧
        (∀ c, c ∈ l1 → (s.buf c).refcnt = 0 → (s.buf b).time < (s.buf c).time) ∧
        (∀ c, c ∈ l2 → (s.buf c).refcnt = 0 → (s.buf b).time ≤ (s.buf c).time)
  | 0, _, _, _, _, _, _, h, _, _, _ => by omega
  | _ + 1, [], _, _, _, _, _, _, _, _, hex => by
    obtain ⟨b, hb, _⟩ := hex
    cases hb
  | fuel + 1, c :: l, pre, p, mt, m, hc, hf, hnm, htl, hex => by
    have hp : p = some c := hc.1
    subst hp
    have hfl : l.length < fuel := by simpa using hf
    have hnm2 : ∀ b, b ∈ l → ¬ ((s.buf b).dev = dev ∧ (s.buf b).blockno = blockno) :=
      fun b hb => hnm b (List.mem_cons_of_mem _ hb)
    have htl2 : ∀ b, b ∈ l → (s.buf b).time < UINT := fun b hb => htl b (List.mem_cons_of_mem _ hb)
    unfold scan
    rw [if_neg (fun hh => hnm c (List.mem_cons_self _ _) hh.2)]
    by_cases hcand : (s.buf c).refcnt = 0 ∧ (s.buf c).time < toUint mt
    · rw [if_pos hcand]
      have hrt := toUint_toInt (htl c (List.mem_cons_self _ _))
      by_cases hlater : ∃ b, b ∈ l ∧ (s.buf b).refcnt = 0 ∧
          (s.buf b).time < toUint (toInt (s.buf c).time)
      · obtain ⟨l1, b, l2, hl, hs, hr, ht, h1, h2⟩ :=
          scan_min s dev blockno idx fuel (.slot c) (toInt (s.buf c).time) (some (c, pre))
            hc.2 hfl hnm2 htl2 hlater
        rw [hrt] at ht
        refine ⟨c :: l1, b, l2, by rw [hl]; rfl, by rw [hs, lastPre_cons], hr,
          lt_trans ht hcand.2, fun x hx hxr => ?_, h2⟩
        rcases List.mem_cons.1 hx with hx | hx
        · rw [hx]; exact ht
        · exact h1 x hx hxr
      · have hsk := scan_skip s dev blockno idx fuel (.slot c) (toInt (s.buf c).time)
          (some (c, pre)) hc.2 hfl hnm2 (fun b hb hh => hlater ⟨b, hb, hh⟩)
        refine ⟨[], c, l, rfl, by rw [hsk]; rfl, hcand.1, hcand.2, fun x hx => (by cases hx),
          fun x hx hxr => ?_⟩
        rw [hrt] at hlater
        exact Nat.le_of_not_lt (fun hlt => hlater ⟨x, hx, hxr, hlt⟩)
    · rw [if_neg hcand]
      have hex2 : ∃ b, b ∈ l ∧ (s.buf b).refcnt = 0 ∧ (s.buf b).time < toUint mt := by
        obtain ⟨b, hb, hbc⟩ := hex
        rcases List.mem_cons.1 hb with hb | hb
        · rw [hb] at hbc; exact absurd hbc hcand
        · exact ⟨b, hb, hbc⟩
      obtain ⟨l1, b, l2, hl, hs, hr, ht, h1, h2⟩ :=
        scan_min s dev blockno idx fuel (.slot c) mt m hc.2 hfl hnm2 htl2 hex2
      refine ⟨c :: l1, b, l2, by rw [hl]; rfl, by rw [hs, lastPre_cons], hr, ht,
        fun x hx hxr => ?_, h2⟩
      rcases List.mem_cons.1 hx with hx | hx
      · rw [hx] at hxr ⊢
        have : ¬ (s.buf c).time < toUint mt := fun hh => hcand ⟨hxr, hh⟩
        omega
      · exact h1 x hx hxr

/-- The eviction loop recycles from the first bucket, in the order of the
scan, that holds an evictable slot: the slot of smallest timestamp there, the
first of the chain among equal timestamps. -/
theorem evict_policy {NBUF : Nat} {s : BCache} {L : Nat → List Nat} (h : Inv NBUF s L)
    {fuel : Nat} (pid : Nat) {dev blockno : Nat} (hf : s.size < fuel)
    (hnc : ∀ b, b < s.size → ¬ ((s.buf b).dev = dev ∧ (s.buf b).blockno = blockno)) :
    ∀ (j n idx : Nat), idx < NBUCKET → j < n →
      (∀ k, k < j → ∀ b, b ∈ L ((idx + k) % NBUCKET) → ¬ Evictable s b) →
      (∃ b, b ∈ L ((idx + j) % NBUCKET) ∧ Evictable s b) →
      ∃ l1 b l2, L ((idx + j) % NBUCKET) = l1 ++ b :: l2 ∧ Evictable s b ∧
        (∀ c, c ∈ l1 → (s.buf c).refcnt = 0 → (s.buf b).time < (s.buf c).time) ∧
        (∀ c, c ∈ l2 → (s.buf c).refcnt = 0 → (s.buf b).time ≤ (s.buf c).time) ∧
        evict fuel pid dev blockno n idx s =
          acquiresleep pid
            (recycle s dev blockno ((idx + j) % NBUCKET) b (lastPre .sentinel l1)) b
  | _, 0, _, _, hjn, _, _ => by omega
  | 0, n + 1, idx, hidx, _, _, hex => by
    rw [Nat.add_zero, Nat.mod_eq_of_lt hidx] at hex ⊢
    obtain ⟨l1, b, l2, hl, hs, hr, ht, h1, h2⟩ :=
      scan_min s dev blockno idx fuel .sentinel (-1) none (h.chain idx hidx)
        (lt_of_le_of_lt (h.length_le hidx) hf)
        (fun b hb => hnc b (h.mem_lt idx hidx b hb).1) (fun b _ => h.time_lt b)
        (by rw [toUint_neg_one]; exact hex)
    rw [toUint_neg_one] at ht
    refine ⟨l1, b, l2, hl, ⟨hr, ht⟩, h1, h2, ?_⟩
    unfold evict
    rw [hs]
  | j + 1, n + 1, idx, hidx, hjn, hno, hex => by
    have hsk := scan_skip s dev blockno idx fuel .sentinel (-1) none (h.chain idx hidx)
      (lt_of_le_of_lt (h.length_le hidx) hf)
      (fun b hb => hnc b (h.mem_lt idx hidx b hb).1)
      (fun b hb => by
        rw [toUint_neg_one]
        have := hno 0 (by omega) b (by rw [Nat.add_zero, Nat.mod_eq_of_lt hidx]; exact hb)
        exact this)
    have e : ∀ k, ((idx + 1) % NBUCKET + k) % NBUCKET = (idx + (k + 1)) % NBUCKET := fun k => by
      rw [Nat.add_mod, Nat.mod_mod, ← Nat.add_mod]
      congr 1
      omega
    obtain ⟨l1, b, l2, hl, hev, h1, h2, hres⟩ :=
      evict_policy h pid hf hnc j n ((idx + 1) % NBUCKET) (Nat.mod_lt _ (by decide))
        (by omega)
        (fun k hk b hb => hno (k + 1) (by omega) b (by rw [← e k]; exact hb))
        (by rw [e j]; exact hex)
    rw [e j] at hl hres
    refine ⟨l1, b, l2, hl, hev, h1, h2, ?_⟩
    unfold evict
    rw [hsk]
    simp only []
    rw [wrap_mod hidx]
    exact hres

/-- What the code does in place of C15: on a miss with the pool at capacity,
when bucket `(HASH(blockno) + j) mod NBUCKET` is the first in scan order that
holds an evictable slot (reference count 0 and timestamp below 4294967295),
bget recycles from that bucket the evictable slot of smallest timestamp, the
one nearest the head among equal timestamps; in the state it leaves, that slot
has the requested identity, reference count 1, `valid` false, and is linked in
bucket `HASH(blockno)`. -/
theorem bget_evict_policy {NBUF : Nat} {s : BCache} {L : Nat → List Nat} (h : Inv NBUF s L)
    {fuel : Nat} (pid : Nat) {dev blockno : Nat} (hf : s.size < fuel)
    (hnc : ∀ b, b < s.size → ¬ ((s.buf b).dev = dev ∧ (s.buf b).blockno = blockno))
    (hfull : ¬ s.size < NBUF) {j : Nat} (hj : j < NBUCKET)
    (hno : ∀ k, k < j → ∀ b, b ∈ L ((HASH blockno + k) % NBUCKET) → ¬ Evictable s b)
    (hex : ∃ b, b ∈ L ((HASH blockno + j) % NBUCKET) ∧ Evictable s b) :
    ∃ l1 b l2 t, L ((HASH blockno + j) % NBUCKET) = l1 ++ b :: l2 ∧ Evictable s b ∧
      (∀ c, c ∈ l1 → (s.buf c).refcnt = 0 → (s.buf b).time < (s.buf c).time) ∧
      (∀ c, c ∈ l2 → (s.buf c).refcnt = 0 → (s.buf b).time ≤ (s.buf c).time) ∧
      (bget NBUF fuel pid s dev blockno = .ret b t ∨
        bget NBUF fuel pid s dev blockno = .sleeps b t) ∧
      (t.buf b).dev = dev ∧ (t.buf b).blockno = blockno ∧ (t.buf b).refcnt = 1 ∧
      (t.buf b).valid = false ∧ ∃ m, Bucket t (HASH blockno) m ∧ b ∈ m := by
  have hch := h.chain (HASH blockno) (HASH_lt _)
  have hlf := lookup_fuel s dev blockno fuel hch (lt_of_le_of_lt (h.length_le (HASH_lt _)) hf)
  obtain ⟨l1, b, l2, hl, hev, h1, h2, hres⟩ :=
    evict_policy h pid hf hnc j NBUCKET (HASH blockno) (HASH_lt _) hj hno hex
  have hbg : bget NBUF fuel pid s dev blockno =
      acquiresleep pid
        (recycle s dev blockno ((HASH blockno + j) % NBUCKET) b (lastPre .sentinel l1)) b := by
    unfold bget
    cases hlk : lookup s dev blockno fuel (s.buckets (HASH blockno)) with
    | none => exact absurd hlk hlf
    | some r =>
      cases r with
      | some c =>
        exfalso
        exact hnc c (h.mem_lt _ (HASH_lt _) c (lookup_mem fuel hch hlk)).1
          (lookup_match fuel _ hlk)
      | none =>
        simp only []
        rw [if_neg hfull]
        exact hres
  have hidx : (HASH blockno + j) % NBUCKET < NBUCKET := Nat.mod_lt _ (by decide)
  have hInv := h.recycle hidx hl hnc
  obtain ⟨t, hout, hs⟩ := acquiresleep_spec pid
    (recycle s dev blockno ((HASH blockno + j) % NBUCKET) b (lastPre .sentinel l1)) b
  have hm := recycle_buf_minb s dev blockno ((HASH blockno + j) % NBUCKET) b
    (lastPre .sentinel l1)
  have hf2 := hs.2.2 b
  have hInvt := hInv.of_same hs
  refine ⟨l1, b, l2, t, hl, hev, h1, h2, by rw [hbg]; exact hout, by rw [hf2.1, hm.1],
    by rw [hf2.2.1, hm.2.1], by rw [hf2.2.2.2.1, hm.2.2.2.1], by rw [hf2.2.2.1, hm.2.2.1],
    _, hInvt.chain (HASH blockno) (HASH_lt _), ?_⟩
  by_cases htg : (HASH blockno + j) % NBUCKET = HASH blockno
  · rw [if_pos htg, ← htg, hl]; simp
  · rw [if_neg htg, Function.update_same]; exact List.mem_cons_self _ _

set_option maxRecDepth 100000 in
/-- C15, the failing input: `skewPool` is reachable, the pool is full and
block 30 of device 0 is not cached.  The target bucket `HASH(30) = 4` has the
chain `17, 4`, and slot 4 has reference count 0, released when the clock was
4294967295; bucket 5 has the chain `18, 5` with the idle slot 5.  bget(0, 30)
passes over slot 4 and reclaims slot 5 from bucket 5, not a buffer of the
first bucket that holds one with reference count 0. -/
theorem C15_eviction_order_failing_input :
    Reachable NBUFxv6 sampleDisk skewPool ∧ skewPool.size = NBUFxv6 ∧
    (∀ b, b < skewPool.size → ¬ ((skewPool.buf b).dev = 0 ∧ (skewPool.buf b).blockno = 30)) ∧
    HASH 30 = 4 ∧ Bucket skewPool 4 [17, 4] ∧ Bucket skewPool 5 [18, 5] ∧
    (skewPool.buf 4).refcnt = 0 ∧ (skewPool.buf 4).time = 4294967295 ∧
    (skewPool.buf 5).refcnt = 0 ∧ (skewPool.buf 5).time = 7 ∧
    ∃ t, bget NBUFxv6 31 2 skewPool 0 30 = .ret 5 t ∧ (t.buf 4).blockno = 4 ∧
      (t.buf 5).blockno = 30 :=
  ⟨⟨fillCalls ++ [.brelse 1 4294967295 4, .brelse 1 7 5], by rfl⟩, by decide, by decide,
    by decide, by decide, by decide, by decide, by decide, by decide, by decide, _, rfl,
    by decide, by decide⟩

end Bio
